import Mathlib

/-!
# ValidationCollection

A model of `src/ValidationCollection.cpp`: the registry of signed ledger
validations, its two indexes (`mValidations`, keyed by ledger hash and then by
signer node id, and `mCurrentValidations`, keyed by signer node id), the queue
of stale validations awaiting persistence and the dead-ledger list.

Conventions of the model

* `uint32` values are natural numbers; every `uint32` operation of the source is
  written with an explicit reduction modulo `2 ^ 32` (`u32add`, `u32sub`).
* `uint256` / `uint160` identifiers are natural numbers.
* A `SerializedValidation::pointer` is modelled by the object it points to, a null
  pointer by `none`.  An object carries its address (`addr`): two pointers are the same
  pointer exactly when their objects carry the same address.  `setTrusted` on the argument
  of `addValidation` (line 14) is the only mutation of a validation object in the file;
  when the argument is an object the collection already holds, the change shows through
  every reference the collection has to it (`setTrustedHeld`).
* A `boost::unordered_map` is an association list with pairwise distinct keys;
  the order of the list stands for the iteration order of the container, and a
  newly inserted key is placed at the end.
* `int` counters are natural numbers (they are only ever incremented from 0).
* The oracles `theApp->getUNL().nodeInUNL` and `theApp->getOPs().getCloseTimeNC`
  are parameters (`nodeInUNL`, `now`) of the operations that consult them; the
  constant `LEDGER_MAX_INTERVAL` of `LedgerTiming.h` is the parameter `LMI`.
-/

namespace ValidationCollection

/-! ## Machine arithmetic -/

/-- Number of values of a `uint32`. -/
def UINT32_MOD : Nat := 4294967296

/-- Addition of two `uint32` values, as the machine computes it. -/
def u32add (a b : Nat) : Nat := (a + b) % UINT32_MOD

/-- Subtraction of two `uint32` values, as the machine computes it (wraps below 0). -/
def u32sub (a b : Nat) : Nat := (a % UINT32_MOD + (UINT32_MOD - b % UINT32_MOD)) % UINT32_MOD

/-! ## Data model -/

/-- A node public key together with the node id derived from it (`getNodeID`). -/
structure NewcoinAddress where
  pub : Nat
  nodeID : Nat
deriving DecidableEq, Repr

/-- A `SerializedValidation` object: its address, which tells it from every other object,
and the fields that the collection reads or sets. -/
structure SerializedValidation where
  addr : Nat
  signerPublic : NewcoinAddress
  ledgerHash : Nat
  closeTime : Nat
  flags : Nat
  signature : List Nat
  trusted : Bool
deriving DecidableEq, Repr

/-- The effect of `SerializedValidation::setTrusted`. -/
def SerializedValidation.setTrusted (v : SerializedValidation) : SerializedValidation :=
  { v with trusted := true }

/-- Modelled from the spec: the declaration of `ValidationPair` (in
`ValidationCollection.h`) is not among the sources.  A per-signer generational
slot with an optional `oldest` and an optional `newest` validation; the
one-argument constructor sets `newest` and leaves `oldest` empty. -/
structure ValidationPair where
  oldest : Option SerializedValidation
  newest : Option SerializedValidation
deriving DecidableEq, Repr

/-- The constructor `ValidationPair(val)`. -/
def ValidationPair.ofVal (val : SerializedValidation) : ValidationPair :=
  { oldest := none, newest := some val }

/-- A `ValidationSet`: the validations of one ledger, keyed by signer node id. -/
abbrev ValidationSet := List (Nat × SerializedValidation)

/-- The data members of the class. -/
structure State where
  mValidations : List (Nat × ValidationSet)
  mCurrentValidations : List (Nat × ValidationPair)
  mStaleValidations : List SerializedValidation
  mDeadLedgers : List Nat
  mWriting : Bool
deriving DecidableEq, Repr

/-- The collection right after construction. -/
def State.empty : State :=
  { mValidations := [], mCurrentValidations := [], mStaleValidations := [],
    mDeadLedgers := [], mWriting := false }

/-! ## Container operations -/

/-- The member function `find` of an unordered map: the value stored under `k`, if any. -/
def mapFind {β : Type} (k : Nat) : List (Nat × β) → Option β
  | [] => none
  | (k', b) :: rest => if k' = k then some b else mapFind k rest

/-- The member function `insert` of an unordered map: adds `(k, b)` when `k` is
not a key yet and reports whether it did; an existing entry is never overwritten. -/
def mapInsert {β : Type} (k : Nat) (b : β) (m : List (Nat × β)) : List (Nat × β) × Bool :=
  match mapFind k m with
  | some _ => (m, false)
  | none => (m ++ [(k, b)], true)

/-- Assignment through an iterator (or reference) to the entry stored under `k`. -/
def mapSet {β : Type} (k : Nat) (b : β) : List (Nat × β) → List (Nat × β)
  | [] => []
  | (k', b') :: rest => if k' = k then (k', b) :: rest else (k', b') :: mapSet k b rest

/-- The effect of `operator[]` of an unordered map of validation sets: the entry under `k`
is created empty when it does not exist. -/
def mapIndex (k : Nat) (m : List (Nat × ValidationSet)) : List (Nat × ValidationSet) :=
  match mapFind k m with
  | some _ => m
  | none => m ++ [(k, [])]

/-! ## Operations -/

/-- The member function `condWrite`: when no writer is active, mark one active (the detached
thread it spawns is the writer whose steps are `doWrite`). -/
def condWrite (s : State) : State :=
  if s.mWriting then s else { s with mWriting := true }

/-- The currency test of `addValidation` (line 17), on `uint32` operands. -/
def isCurrentAt (LMI now valClose : Nat) : Bool :=
  decide (now > u32sub valClose 4) && decide (now < u32add valClose LMI)

/-- The test of lines 34-35 on the entry found for the signer: its `newest` slot is empty, or
`val` closes strictly later than it. -/
def displaces (val : SerializedValidation) : Option SerializedValidation → Bool
  | none => true
  | some n => decide (val.closeTime > n.closeTime)

/-- Lines 39-43 of `addValidation`: an occupied `oldest` slot is pushed on the stale queue and
the writer is requested. -/
def pushDisplaced (oldest : Option SerializedValidation) (s : State) : State :=
  match oldest with
  | some o => condWrite { s with mStaleValidations := s.mStaleValidations ++ [o] }
  | none => s

/-- The validation stored for signer `node` in the set of ledger `hash`, if any. -/
def storedAt (hash node : Nat) (vals : List (Nat × ValidationSet)) :
    Option SerializedValidation :=
  mapFind node ((mapFind hash vals).getD [])

/-- An object `x` referenced by the collection, as it reads after `setTrusted` was called on
the object at address `a`: that object shows the flag set, every other object is as it was. -/
def seenAfterSetTrusted (a : Nat) (x : SerializedValidation) : SerializedValidation :=
  if x.addr = a then x.setTrusted else x

/-- The two slots of a pair, as they read after `setTrusted` was called on the object at
address `a`. -/
def ValidationPair.seenAfterSetTrusted (a : Nat) (p : ValidationPair) : ValidationPair :=
  { oldest := p.oldest.map (ValidationCollection.seenAfterSetTrusted a),
    newest := p.newest.map (ValidationCollection.seenAfterSetTrusted a) }

/-- The collection after `setTrusted` was called on an object that it holds, the one at
address `a`: the maps and the queue hold the same pointers as before, and every reference to
that object, in `mValidations`, in a slot of `mCurrentValidations` or in the stale queue, shows
the flag set. -/
def setTrustedHeld (a : Nat) (s : State) : State :=
  let vals := s.mValidations.map
    (fun b => (b.1, b.2.map (fun x => (x.1, seenAfterSetTrusted a x.2))))
  let cur := s.mCurrentValidations.map (fun c => (c.1, c.2.seenAfterSetTrusted a))
  let stale := s.mStaleValidations.map (seenAfterSetTrusted a)
  { s with mValidations := vals, mCurrentValidations := cur, mStaleValidations := stale }

/-- Whether a call of `addValidation` sets the flag on an object the collection holds: the
signer is in the UNL, so line 14 runs, and `val` points to the very object that `mValidations`
holds under its ledger hash and node id (the call re-submits that object). -/
def resubmitsHeld (nodeInUNL : NewcoinAddress → Bool) (val : SerializedValidation)
    (s : State) : Bool :=
  match storedAt val.ledgerHash val.signerPublic.nodeID s.mValidations with
  | some e => nodeInUNL val.signerPublic && decide (e.addr = val.addr)
  | none => false

/-- Line 14, `val->setTrusted()`, as the collection sees it.  `val` is a shared pointer: when
the call re-submits an object that the collection holds, the flag is set on that object.
Every object the collection references was stored in `mValidations` under its own pair when it
arrived, so an argument that is not that stored object is not referenced by the collection, and
tagging it leaves the collection as it is. -/
def shareTrusted (nodeInUNL : NewcoinAddress → Bool) (val : SerializedValidation)
    (s : State) : State :=
  if resubmitsHeld nodeInUNL val s then setTrustedHeld val.addr s else s

/-- The trust tagging of lines 12-14 on the argument itself: `setTrusted` is called when the
signer is in the UNL. -/
def tagTrusted (nodeInUNL : NewcoinAddress → Bool) (val : SerializedValidation) :
    SerializedValidation :=
  if nodeInUNL val.signerPublic then val.setTrusted else val

/-- Line 29, `mValidations[hash].insert(std::make_pair(node, val))`: the map afterwards and the
flag `.second` of the insertion. -/
def insertValidation (hash node : Nat) (val : SerializedValidation)
    (vals : List (Nat × ValidationSet)) : List (Nat × ValidationSet) × Bool :=
  let vals1 := mapIndex hash vals
  let ins := mapInsert node val ((mapFind hash vals1).getD [])
  (mapSet hash ins.1 vals1, ins.2)

/-- Lines 33-49 of `addValidation`: the generational update of the signer's entry of
`mCurrentValidations` by a current validation. -/
def updateCurrent (node : Nat) (val : SerializedValidation) (s : State) : State :=
  match mapFind node s.mCurrentValidations with
  | none =>
    { s with mCurrentValidations :=
        (mapInsert node (ValidationPair.ofVal val) s.mCurrentValidations).1 }
  | some pair =>
    if displaces val pair.newest then
      let s2 := pushDisplaced pair.oldest s
      { s2 with mCurrentValidations :=
          mapSet node (ValidationPair.mk pair.newest (some val)) s2.mCurrentValidations }
    else s

/-- The member function `addValidation`: the returned flag and the state it leaves. -/
def addValidation (LMI : Nat) (nodeInUNL : NewcoinAddress → Bool) (now : Nat)
    (val0 : SerializedValidation) (s : State) : Bool × State :=
  let signer := val0.signerPublic
  let val := tagTrusted nodeInUNL val0
  let isCurrent := nodeInUNL signer && isCurrentAt LMI now val.closeTime
  let hash := val.ledgerHash
  let node := signer.nodeID
  let s0 := shareTrusted nodeInUNL val0 s
  let ins := insertValidation hash node val s0.mValidations
  let s1 := { s0 with mValidations := ins.1 }
  if ins.2 = false then (false, s1)
  else (isCurrent, if isCurrent then updateCurrent node val s1 else s1)

/-- The member function `getValidations`: a copy of the set stored for `ledger`, empty when
there is none. -/
def getValidations (ledger : Nat) (s : State) : ValidationSet :=
  match mapFind ledger s.mValidations with
  | some vs => vs
  | none => []

/-- The loop body and loop of `getValidationCount` (lines 78-91) over the entries of one
validation set, threading the two counters. -/
def getValidationCountLoop (LMI now : Nat) (currentOnly : Bool) :
    ValidationSet → Nat × Nat → Nat × Nat
  | [], acc => acc
  | (_, v) :: rest, (trusted, untrusted) =>
    let isTrusted :=
      if v.trusted && currentOnly then
        if now < v.closeTime ∨ now > u32add v.closeTime (2 * LMI) then false else v.trusted
      else v.trusted
    if isTrusted then getValidationCountLoop LMI now currentOnly rest (trusted + 1, untrusted)
    else getValidationCountLoop LMI now currentOnly rest (trusted, untrusted + 1)

/-- The member function `getValidationCount`: the pair `(trusted, untrusted)` it writes to its
reference parameters. -/
def getValidationCount (LMI now : Nat) (ledger : Nat) (currentOnly : Bool) (s : State) :
    Nat × Nat :=
  match mapFind ledger s.mValidations with
  | some vs => getValidationCountLoop LMI now currentOnly vs (0, 0)
  | none => (0, 0)

/-- The iterator range from `find(k)` to `end()` of an unordered map: the entry stored under
`k` and every entry after it in iteration order; empty when `k` is not a key. -/
def mapFrom {β : Type} (k : Nat) : List (Nat × β) → List (Nat × β)
  | [] => []
  | (k', b) :: rest => if k' = k then (k', b) :: rest else mapFrom k rest

/-- The inner loop of `getTrustedValidationCount` (lines 102-106). -/
def countTrustedLoop : ValidationSet → Nat → Nat
  | [], trusted => trusted
  | (_, v) :: rest, trusted =>
    if v.trusted then countTrustedLoop rest (trusted + 1) else countTrustedLoop rest trusted

/-- The outer loop of `getTrustedValidationCount` (lines 99-107), over a range of the map. -/
def getTrustedValidationCountLoop : List (Nat × ValidationSet) → Nat → Nat
  | [], trusted => trusted
  | (_, vs) :: rest, trusted => getTrustedValidationCountLoop rest (countTrustedLoop vs trusted)

/-- The member function `getTrustedValidationCount`. -/
def getTrustedValidationCount (ledger : Nat) (s : State) : Nat :=
  getTrustedValidationCountLoop (mapFrom ledger s.mValidations) 0

/-- The loop of `getCurrentValidationCount` (lines 115-120).  The `newest` slot is read
without a null test, so an entry whose `newest` is empty gives no result. -/
def getCurrentValidationCountLoop (afterTime : Nat) :
    List (Nat × ValidationPair) → Nat → Option Nat
  | [], count => some count
  | (_, pair) :: rest, count =>
    match pair.newest with
    | none => none
    | some n =>
      if n.trusted && decide (n.closeTime > afterTime) then
        getCurrentValidationCountLoop afterTime rest (count + 1)
      else getCurrentValidationCountLoop afterTime rest count

/-- The member function `getCurrentValidationCount`; it writes no data member. -/
def getCurrentValidationCount (afterTime : Nat) (s : State) : Option Nat :=
  getCurrentValidationCountLoop afterTime s.mCurrentValidations 0

/-- The test of lines 137 and 143 of `getCurrentValidations` on one validation. -/
def isStaleAt (LMI now : Nat) (v : SerializedValidation) : Bool :=
  decide (now > u32add v.closeTime LMI)

/-- Lines 137-148 of `getCurrentValidations` on one pair: the pair, the stale queue and the
flag `anyNew` after the two tests. -/
def ageSlots (LMI now : Nat) (pair : ValidationPair) (stale : List SerializedValidation)
    (anyNew : Bool) : ValidationPair × List SerializedValidation × Bool :=
  let r1 : ValidationPair × List SerializedValidation × Bool :=
    match pair.oldest with
    | some o =>
      if isStaleAt LMI now o then ({ pair with oldest := none }, stale ++ [o], true)
      else (pair, stale, anyNew)
    | none => (pair, stale, anyNew)
  match r1.1.newest with
  | some n =>
    if isStaleAt LMI now n then ({ r1.1 with newest := none }, r1.2.1 ++ [n], true)
    else r1
  | none => r1

/-- The statement `++ret[hash]` on the result map. -/
def mapIncr (hash : Nat) (ret : List (Nat × Nat)) : List (Nat × Nat) :=
  match mapFind hash ret with
  | some c => mapSet hash (c + 1) ret
  | none => ret ++ [(hash, 1)]

/-- Lines 153-164 of `getCurrentValidations`: count the occupied slots of a kept pair. -/
def countSlots (pair : ValidationPair) (ret : List (Nat × Nat)) : List (Nat × Nat) :=
  let ret1 := match pair.oldest with
    | some o => mapIncr o.ledgerHash ret
    | none => ret
  match pair.newest with
  | some n => mapIncr n.ledgerHash ret1
  | none => ret1

/-- The loop of `getCurrentValidations` (lines 133-167) over the entries of
`mCurrentValidations` in iteration order, threading the result map, the stale queue and
`anyNew`; the first component is the map of entries that were not erased. -/
def getCurrentValidationsLoop (LMI now : Nat) :
    List (Nat × ValidationPair) → List (Nat × Nat) → List SerializedValidation → Bool →
      List (Nat × ValidationPair) × List (Nat × Nat) × List SerializedValidation × Bool
  | [], ret, stale, anyNew => ([], ret, stale, anyNew)
  | (node, pair) :: rest, ret, stale, anyNew =>
    let aged := ageSlots LMI now pair stale anyNew
    if aged.1.newest = none ∧ aged.1.oldest = none then
      getCurrentValidationsLoop LMI now rest ret aged.2.1 aged.2.2
    else
      let r := getCurrentValidationsLoop LMI now rest (countSlots aged.1 ret) aged.2.1 aged.2.2
      ((node, aged.1) :: r.1, r.2)

/-- The member function `getCurrentValidations`: the returned map and the state it leaves. -/
def getCurrentValidations (LMI now : Nat) (s : State) : List (Nat × Nat) × State :=
  let r := getCurrentValidationsLoop LMI now s.mCurrentValidations [] s.mStaleValidations false
  let s1 := { s with mCurrentValidations := r.1, mStaleValidations := r.2.2.1 }
  (r.2.1, if r.2.2.2 then condWrite s1 else s1)

/-- The member function `isDeadLedger`. -/
def isDeadLedger (ledger : Nat) : List Nat → Bool
  | [] => false
  | h :: rest => if h = ledger then true else isDeadLedger ledger rest

/-- The member function `addDeadLedger`. -/
def addDeadLedger (ledger : Nat) (s : State) : State :=
  if isDeadLedger ledger s.mDeadLedgers then s
  else
    let pushed := s.mDeadLedgers ++ [ledger]
    if pushed.length ≥ 128 then { s with mDeadLedgers := pushed.tail }
    else { s with mDeadLedgers := pushed }

/-- The loop of `flush` (lines 198-206): push the occupied slots of every entry, `oldest`
first, and record whether there was any entry. -/
def flushLoop : List (Nat × ValidationPair) → List SerializedValidation → Bool →
    List SerializedValidation × Bool
  | [], stale, anyNew => (stale, anyNew)
  | (_, pair) :: rest, stale, _ =>
    let stale1 := match pair.oldest with
      | some o => stale ++ [o]
      | none => stale
    let stale2 := match pair.newest with
      | some n => stale1 ++ [n]
      | none => stale1
    flushLoop rest stale2 true

/-- The state change of the member function `flush` (lines 195-209).  The loop that follows
(lines 210-215) writes no data member: it only waits, with the lock released, until the writer
has cleared `mWriting`. -/
def flush (s : State) : State :=
  let r := flushLoop s.mCurrentValidations s.mStaleValidations false
  let s1 := { s with mStaleValidations := r.1, mCurrentValidations := [] }
  if r.2 then condWrite s1 else s1

/-- One turn of the loop of `doWrite` (lines 235-239): the queue is swapped into a local
batch, which is what the writer then stores in the database. -/
def doWriteSwap (s : State) : List SerializedValidation × State :=
  (s.mStaleValidations, { s with mStaleValidations := [] })

/-- The exit of `doWrite` (line 254), reached with the lock held and the queue empty. -/
def doWriteExit (s : State) : State :=
  { s with mWriting := false }

/-! ## Reference definitions for the signer index

The occupied slots of `mCurrentValidations`, and the aging pass as the specification words it.
-/

/-- The validations held by a pair, `oldest` first. -/
def ValidationPair.slots (p : ValidationPair) : List SerializedValidation :=
  p.oldest.toList ++ p.newest.toList

/-- The validations held by all entries, in iteration order. -/
def allSlots (cur : List (Nat × ValidationPair)) : List SerializedValidation :=
  cur.flatMap (fun e => e.2.slots)

/-- A pair after aging at `now`: a slot is cleared exactly when its validation satisfies
`now > closeTime + LEDGER_MAX_INTERVAL` (the sum being a `uint32`). -/
def agedPair (LMI now : Nat) (p : ValidationPair) : ValidationPair :=
  { oldest := p.oldest.filter (fun v => !decide (now > u32add v.closeTime LMI)),
    newest := p.newest.filter (fun v => !decide (now > u32add v.closeTime LMI)) }

/-- The entries after aging at `now`: every pair is aged, and an entry whose two slots are
empty afterwards is removed. -/
def agedEntries (LMI now : Nat) (cur : List (Nat × ValidationPair)) :
    List (Nat × ValidationPair) :=
  (cur.map (fun e => (e.1, agedPair LMI now e.2))).filter
    (fun e => !(e.2.oldest.isNone && e.2.newest.isNone))

/-- The validations that aging at `now` clears from their slots, in iteration order. -/
def expiredSlots (LMI now : Nat) (cur : List (Nat × ValidationPair)) :
    List SerializedValidation :=
  (allSlots cur).filter (fun v => decide (now > u32add v.closeTime LMI))

/-- The number of occupied slots, over all signers, that carry the ledger hash `hash`. -/
def slotCount (hash : Nat) (cur : List (Nat × ValidationPair)) : Nat :=
  (allSlots cur).countP (fun v => decide (v.ledgerHash = hash))

/-! ## Runs of the collection -/

/-- A call of a member function with the answers of its oracles, or a step of the writer
thread. -/
inductive Op where
  | addValidation (nodeInUNL : NewcoinAddress → Bool) (now : Nat) (val : SerializedValidation)
  | getValidations (ledger : Nat)
  | getValidationCount (now : Nat) (ledger : Nat) (currentOnly : Bool)
  | getTrustedValidationCount (ledger : Nat)
  | getCurrentValidationCount (afterTime : Nat)
  | getCurrentValidations (now : Nat)
  | isDeadLedger (ledger : Nat)
  | addDeadLedger (ledger : Nat)
  | flush
  | doWriteSwap
  | doWriteExit

/-- The clock value and the close time carried by a call are `uint32` values. -/
def Op.WF : Op → Prop
  | .addValidation _ now val => now < UINT32_MOD ∧ val.closeTime < UINT32_MOD
  | .getValidationCount now _ _ => now < UINT32_MOD
  | .getCurrentValidationCount afterTime => afterTime < UINT32_MOD
  | .getCurrentValidations now => now < UINT32_MOD
  | _ => True

/-- The state after one operation.  The member functions `getValidations`,
`getValidationCount`, `getTrustedValidationCount`, `getCurrentValidationCount` and
`isDeadLedger` assign to no data member.  The writer swaps while it is active and the queue is
non-empty, and exits while it is active and the queue is empty. -/
def step (LMI : Nat) (s : State) : Op → State
  | .addValidation nodeInUNL now val => (addValidation LMI nodeInUNL now val s).2
  | .getValidations _ => s
  | .getValidationCount _ _ _ => s
  | .getTrustedValidationCount _ => s
  | .getCurrentValidationCount _ => s
  | .getCurrentValidations now => (getCurrentValidations LMI now s).2
  | .isDeadLedger _ => s
  | .addDeadLedger ledger => addDeadLedger ledger s
  | .flush => flush s
  | .doWriteSwap => if s.mWriting ∧ s.mStaleValidations ≠ [] then (doWriteSwap s).2 else s
  | .doWriteExit => if s.mWriting ∧ s.mStaleValidations = [] then doWriteExit s else s

/-- The state after a sequence of operations. -/
def run (LMI : Nat) (s : State) : List Op → State
  | [] => s
  | op :: ops => run LMI (step LMI s op) ops

/-- The states the collection can be in: those a sequence of well-formed operations leads to
from the freshly constructed collection. -/
def Reachable (LMI : Nat) (s : State) : Prop :=
  ∃ ops : List Op, (∀ op ∈ ops, op.WF) ∧ run LMI State.empty ops = s

/-- The validations that one operation appends to the stale queue: what the queue holds
afterwards beyond what it held before (the writer's swap only removes). -/
def enqueuedBy (LMI : Nat) (s : State) : Op → List SerializedValidation
  | .doWriteSwap => []
  | op => (step LMI s op).mStaleValidations.drop s.mStaleValidations.length

/-- All validations appended to the stale queue in the course of a sequence of operations, in
the order in which they were appended. -/
def enqueuedOver (LMI : Nat) (s : State) : List Op → List SerializedValidation
  | [] => []
  | op :: ops => enqueuedBy LMI s op ++ enqueuedOver LMI (step LMI s op) ops

/-! ## Invariants -/

/-- Every validation held in a slot of the signer index is marked trusted. -/
def SlotsTrusted (cur : List (Nat × ValidationPair)) : Prop :=
  ∀ v ∈ allSlots cur, v.trusted = true

/-- Every validation in the stale queue is marked trusted. -/
def QueueTrusted (stale : List SerializedValidation) : Prop :=
  ∀ v ∈ stale, v.trusted = true

/-- Generation ordering of the signer index: in every entry with both slots occupied, `newest`
closes strictly later than `oldest`. -/
def GenerationsOrdered (cur : List (Nat × ValidationPair)) : Prop :=
  ∀ e ∈ cur, ∀ o n, e.2.oldest = some o → e.2.newest = some n → n.closeTime > o.closeTime

/-- Every entry of the signer index has its `newest` slot occupied. -/
def NewestPresent (cur : List (Nat × ValidationPair)) : Prop :=
  ∀ e ∈ cur, e.2.newest ≠ none

/-- No validation held by the signer index has a close time within `LMI` of the top of the
`uint32` range: `closeTime + LEDGER_MAX_INTERVAL` does not wrap for it. -/
def NoWrap (LMI : Nat) (cur : List (Nat × ValidationPair)) : Prop :=
  ∀ e ∈ cur, ∀ v ∈ e.2.slots, v.closeTime + LMI < UINT32_MOD

/-- The test of line 118 on an entry whose `newest` slot is occupied: the newest validation of
the signer is trusted and closes strictly after `afterTime`. -/
def newestCounts (afterTime : Nat) (p : ValidationPair) : Bool :=
  match p.newest with
  | some n => n.trusted && decide (n.closeTime > afterTime)
  | none => false

/-- The invariant that links the signer index, the by-ledger index and the list `hist` of all
validations appended to the stale queue so far: every validation in a slot is the entry of the
by-ledger index under its own ledger hash and node id, no validation occupies two slots, and
the validations appended so far are pairwise distinct, occupy no slot, and are entries of the
by-ledger index and marked trusted. -/
def StaleHistoryInv (s : State) (hist : List SerializedValidation) : Prop :=
  (∀ v ∈ allSlots s.mCurrentValidations,
      storedAt v.ledgerHash v.signerPublic.nodeID s.mValidations = some v) ∧
    (allSlots s.mCurrentValidations).Nodup ∧
    hist.Nodup ∧
    (∀ v ∈ hist, v ∉ allSlots s.mCurrentValidations) ∧
    (∀ v ∈ hist, storedAt v.ledgerHash v.signerPublic.nodeID s.mValidations = some v) ∧
    (∀ v ∈ hist, v.trusted = true)

/-! ## Sample data

Two nodes, validations of theirs, and states built from them by the operations above.
-/

/-- Node N1. -/
def sampleN1 : NewcoinAddress := { pub := 1001, nodeID := 1 }

/-- Node N2. -/
def sampleN2 : NewcoinAddress := { pub := 1002, nodeID := 2 }

/-- A UNL that holds N1 only. -/
def sampleUNL : NewcoinAddress → Bool := fun a => decide (a.pub = 1001)

/-- A UNL that holds N1 and N2. -/
def sampleUNL2 : NewcoinAddress → Bool := fun a => decide (a.pub = 1001) || decide (a.pub = 1002)

/-- A validation as it arrives: not marked trusted, no flags.  Each sample validation is an
object of its own, at an address made from its signer, ledger and close time. -/
def sampleVal (signer : NewcoinAddress) (hash close : Nat) : SerializedValidation :=
  { addr := close + UINT32_MOD * (hash + 1000 * signer.nodeID),
    signerPublic := signer, ledgerHash := hash, closeTime := close, flags := 0,
    signature := [], trusted := false }

/-- The collection after N1 validated ledger 10 (close time 101) at clock value 100. -/
def sampleS1 : State :=
  (addValidation 20 sampleUNL 100 (sampleVal sampleN1 10 101) State.empty).2

/-- Then N1 validated ledger 11 (close time 110) at clock value 108. -/
def sampleS2 : State :=
  (addValidation 20 sampleUNL 108 (sampleVal sampleN1 11 110) sampleS1).2

/-- The two calls that lead from the empty collection to `sampleS2`. -/
def sampleOps2 : List Op :=
  [.addValidation sampleUNL 100 (sampleVal sampleN1 10 101),
   .addValidation sampleUNL 108 (sampleVal sampleN1 11 110)]

/-- The collection after N2, which is not in the UNL, validated ledger 13 (close time 100) at
clock value 100: the validation is stored untrusted. -/
def sampleUntrusted : State :=
  (addValidation 20 sampleUNL 100 (sampleVal sampleN2 13 100) State.empty).2

/-- The collection after N1 validated ledger 10 and N2 validated ledger 11, both trusted. -/
def sampleTwoLedgers : State :=
  (addValidation 20 sampleUNL2 100 (sampleVal sampleN2 11 101)
    (addValidation 20 sampleUNL2 100 (sampleVal sampleN1 10 101) State.empty).2).2

/-- The same two validations held by a container that iterates ledger 11 before ledger 10. -/
def sampleTwoLedgersSwapped : State :=
  { sampleTwoLedgers with mValidations := sampleTwoLedgers.mValidations.reverse }

/-- A run with the interval set to `2 ^ 32 - 1`: N1 validates ledger 10 with close time 0 at
clock value `2 ^ 32 - 3`, then ledger 11 with close time 10 at clock value 7, and the aging pass
runs at clock value 100. -/
def sampleOpsWide : List Op :=
  [.addValidation sampleUNL 4294967293 (sampleVal sampleN1 10 0),
   .addValidation sampleUNL 7 (sampleVal sampleN1 11 10),
   .getCurrentValidations 100]

/-- A sequence of calls of `addDeadLedger`, one per hash, in the order of the list. -/
def addDeadLedgers : List Nat → State → State
  | [], s => s
  | h :: hs, s => addDeadLedgers hs (addDeadLedger h s)

/-- Every validation held in a slot of the signer index is trusted, was signed by the node
the entry belongs to, and is the entry of the by-ledger index under its ledger hash and that
node id. -/
def SlotsIndexed (s : State) : Prop :=
  ∀ e ∈ s.mCurrentValidations, ∀ v ∈ e.2.slots,
    v.trusted = true ∧ v.signerPublic.nodeID = e.1 ∧
      storedAt v.ledgerHash e.1 s.mValidations = some v

/-! ## The writer thread

Each critical section under `mValidationLock` is one atomic step.  A writer thread is always
at the head of the loop of `doWrite` when it takes the lock (on entry, and again after each
database transaction), so the number of live writer threads is all there is to record about
them.
-/

/-- The collection together with its detached writer threads: `writers` counts the threads
created on line 223 that have not yet executed line 254. -/
structure System where
  coll : State
  writers : Nat
deriving DecidableEq, Repr

/-- The system right after construction of the collection: no writer thread. -/
def System.init : System := { coll := State.empty, writers := 0 }

/-- The number of writer threads created by an atomic step of a caller that takes the
collection from `before` to `after`.  Line 222 is the only assignment of `true` to `mWriting`,
it runs only when `mWriting` is false, and line 223 creates a thread right after it. -/
def spawned (before after : State) : Nat :=
  if before.mWriting = false ∧ after.mWriting = true then 1 else 0

/-- One atomic step of the system.  A call of a member function changes the collection as
`step` says and creates the writer thread that its `condWrite` started, if any.  A live writer
thread that finds the queue non-empty swaps it out (lines 235-239); one that finds it empty
clears `mWriting` and ends (line 254). -/
def System.step (LMI : Nat) (σ : System) : Op → System
  | .doWriteSwap =>
    if 0 < σ.writers ∧ σ.coll.mStaleValidations ≠ [] then
      { σ with coll := (doWriteSwap σ.coll).2 }
    else σ
  | .doWriteExit =>
    if 0 < σ.writers ∧ σ.coll.mStaleValidations = [] then
      { coll := doWriteExit σ.coll, writers := σ.writers - 1 }
    else σ
  | op =>
    { coll := ValidationCollection.step LMI σ.coll op,
      writers := σ.writers + spawned σ.coll (ValidationCollection.step LMI σ.coll op) }

/-- The system after a sequence of atomic steps. -/
def System.run (LMI : Nat) (σ : System) : List Op → System
  | [] => σ
  | op :: ops => System.run LMI (System.step LMI σ op) ops

/-- A sequence of steps in which the writer is started, drains the queue and ends: three
validations of N1 (the third displaces the first), a swap and the exit of the writer. -/
def sampleOpsWriter : List Op :=
  [.addValidation sampleUNL 100 (sampleVal sampleN1 10 101),
   .addValidation sampleUNL 108 (sampleVal sampleN1 11 110),
   .addValidation sampleUNL 118 (sampleVal sampleN1 12 120),
   .doWriteSwap]

/-! # Theorems -/


/-! ## Facts about the container operations -/

theorem mapFind_append {β : Type} (k : Nat) (m₁ m₂ : List (Nat × β)) :
    mapFind k (m₁ ++ m₂) = (mapFind k m₁).orElse (fun _ => mapFind k m₂) := by
  induction m₁ with
  | nil => simp [mapFind]
  | cons e rest ih =>
    obtain ⟨k', b⟩ := e
    by_cases hk : k' = k <;> simp [mapFind, hk, ih]

theorem mapFind_mapSet {β : Type} (k k' : Nat) (b : β) (m : List (Nat × β)) :
    mapFind k (mapSet k' b m) =
      if k' = k then (mapFind k m).map (fun _ => b) else mapFind k m := by
  induction m with
  | nil => simp [mapFind, mapSet]
  | cons e rest ih =>
    obtain ⟨k₀, b₀⟩ := e
    by_cases h₀ : k₀ = k' <;> by_cases h₁ : k' = k <;> by_cases h₂ : k₀ = k <;>
      simp_all [mapFind, mapSet]

theorem mapSet_of_mapFind {β : Type} (k : Nat) (b : β) (m : List (Nat × β))
    (h : mapFind k m = some b) : mapSet k b m = m := by
  induction m with
  | nil => simp [mapSet]
  | cons e rest ih =>
    obtain ⟨k₀, b₀⟩ := e
    by_cases h₀ : k₀ = k
    · simp_all [mapFind, mapSet]
    · simp_all [mapFind, mapSet]

theorem getValidations_eq (ledger : Nat) (s : State) :
    getValidations ledger s = (mapFind ledger s.mValidations).getD [] := by
  unfold getValidations
  cases mapFind ledger s.mValidations <;> rfl

/-- The validation stored under `(hash, node)` in the by-ledger index. -/
theorem storedAt_def (hash node : Nat) (vals : List (Nat × ValidationSet)) :
    storedAt hash node vals = mapFind node ((mapFind hash vals).getD []) := rfl

theorem insertValidation_snd (hash node : Nat) (val : SerializedValidation)
    (vals : List (Nat × ValidationSet)) :
    (insertValidation hash node val vals).2 = (storedAt hash node vals).isNone := by
  unfold insertValidation mapInsert mapIndex storedAt
  cases h : mapFind hash vals with
  | some vs => cases h' : mapFind node vs <;> simp [h, h']
  | none => simp [mapFind_append, h, mapFind]

theorem insertValidation_of_stored (hash node : Nat) (val e : SerializedValidation)
    (vals : List (Nat × ValidationSet)) (h : storedAt hash node vals = some e) :
    (insertValidation hash node val vals).1 = vals := by
  unfold storedAt at h
  unfold insertValidation mapInsert mapIndex
  cases hb : mapFind hash vals with
  | none => simp [hb, mapFind] at h
  | some vs =>
    simp only [hb, Option.getD_some] at h ⊢
    simp only [h]
    exact mapSet_of_mapFind hash vs vals hb

theorem storedAt_insertValidation (hash node : Nat) (val : SerializedValidation)
    (vals : List (Nat × ValidationSet)) (h : storedAt hash node vals = none) (h' n' : Nat) :
    storedAt h' n' (insertValidation hash node val vals).1 =
      if hash = h' ∧ node = n' then some val else storedAt h' n' vals := by
  unfold storedAt at h ⊢
  unfold insertValidation mapInsert mapIndex
  cases hb : mapFind hash vals with
  | none =>
    simp only [mapFind_append, hb, mapFind, if_true, Option.orElse_none, Option.getD_some,
      mapFind_mapSet, Option.map_some']
    by_cases hh : hash = h'
    · subst hh
      by_cases hn : node = n' <;> simp [hb, mapFind, hn]
    · cases mapFind h' vals <;> simp [hh]
  | some vs =>
    simp only [hb, Option.getD_some] at h ⊢
    simp only [h, mapFind_mapSet]
    by_cases hh : hash = h'
    · subst hh
      by_cases hn : node = n'
      · subst hn; simp [hb, mapFind_append, mapFind, h]
      · simp only [hb, mapFind_append, mapFind, hn, if_true, Option.map_some', Option.getD_some,
          and_false, if_false]
        cases mapFind n' vs <;> simp
    · simp [hh]

@[simp] theorem tagTrusted_signerPublic (u : NewcoinAddress → Bool) (v : SerializedValidation) :
    (tagTrusted u v).signerPublic = v.signerPublic := by
  unfold tagTrusted; split <;> rfl

@[simp] theorem tagTrusted_ledgerHash (u : NewcoinAddress → Bool) (v : SerializedValidation) :
    (tagTrusted u v).ledgerHash = v.ledgerHash := by
  unfold tagTrusted; split <;> rfl

@[simp] theorem tagTrusted_closeTime (u : NewcoinAddress → Bool) (v : SerializedValidation) :
    (tagTrusted u v).closeTime = v.closeTime := by
  unfold tagTrusted; split <;> rfl

/-! ## The shared pointee -/

theorem mapFind_map_values {β γ : Type} (f : β → γ) (k : Nat) (m : List (Nat × β)) :
    mapFind k (m.map (fun b => (b.1, f b.2))) = (mapFind k m).map f := by
  induction m with
  | nil => rfl
  | cons e rest ih =>
    obtain ⟨k₀, b⟩ := e
    by_cases hk : k₀ = k <;> simp [mapFind, hk, ih]

theorem storedAt_setTrustedHeld (a hash node : Nat) (s : State) :
    storedAt hash node (setTrustedHeld a s).mValidations =
      (storedAt hash node s.mValidations).map (seenAfterSetTrusted a) := by
  unfold storedAt setTrustedHeld
  simp only
  rw [mapFind_map_values (fun vs : ValidationSet =>
    vs.map (fun x => (x.1, seenAfterSetTrusted a x.2)))]
  cases mapFind hash s.mValidations with
  | none => rfl
  | some vs => exact mapFind_map_values (seenAfterSetTrusted a) node vs

theorem setTrusted_of_trusted (x : SerializedValidation) (h : x.trusted = true) :
    x.setTrusted = x := by
  cases x
  simp only [SerializedValidation.setTrusted] at h ⊢
  simp [h]

theorem seenAfterSetTrusted_of_trusted (a : Nat) (x : SerializedValidation)
    (h : x.trusted = true) : seenAfterSetTrusted a x = x := by
  unfold seenAfterSetTrusted
  split
  · exact setTrusted_of_trusted x h
  · rfl

/-- An object read after `setTrusted` on some object is itself, or itself with the flag
set. -/
theorem seenAfterSetTrusted_cases (a : Nat) (x : SerializedValidation) :
    seenAfterSetTrusted a x = x ∨ seenAfterSetTrusted a x = x.setTrusted := by
  unfold seenAfterSetTrusted
  split
  · exact Or.inr rfl
  · exact Or.inl rfl

theorem shareTrusted_of_new (nodeInUNL : NewcoinAddress → Bool) (v : SerializedValidation)
    (s : State) (h : storedAt v.ledgerHash v.signerPublic.nodeID s.mValidations = none) :
    shareTrusted nodeInUNL v s = s := by
  simp [shareTrusted, resubmitsHeld, h]

/-- The by-ledger index after line 14: the same entries under the same keys, the re-submitted
object showing the flag set. -/
theorem resubmitsHeld_inUNL (nodeInUNL : NewcoinAddress → Bool) (v : SerializedValidation)
    (s : State) (h : resubmitsHeld nodeInUNL v s = true) : nodeInUNL v.signerPublic = true := by
  unfold resubmitsHeld at h
  split at h
  · simp only [Bool.and_eq_true] at h
    exact h.1
  · exact absurd h (by simp)

theorem storedAt_shareTrusted (nodeInUNL : NewcoinAddress → Bool) (v : SerializedValidation)
    (s : State) (hash node : Nat) :
    storedAt hash node (shareTrusted nodeInUNL v s).mValidations =
      (storedAt hash node s.mValidations).map
        (fun x => if resubmitsHeld nodeInUNL v s = true then seenAfterSetTrusted v.addr x
          else x) := by
  unfold shareTrusted
  cases hr : resubmitsHeld nodeInUNL v s
  · simp
  · simp only [if_true]
    exact storedAt_setTrustedHeld _ _ _ _

theorem shareTrusted_rest (nodeInUNL : NewcoinAddress → Bool) (v : SerializedValidation)
    (s : State) :
    (shareTrusted nodeInUNL v s).mDeadLedgers = s.mDeadLedgers ∧
      (shareTrusted nodeInUNL v s).mWriting = s.mWriting := by
  unfold shareTrusted setTrustedHeld
  split <;> exact ⟨rfl, rfl⟩

theorem slots_seenAfterSetTrusted (a : Nat) (p : ValidationPair) :
    (p.seenAfterSetTrusted a).slots = p.slots.map (seenAfterSetTrusted a) := by
  obtain ⟨o, n⟩ := p
  cases o <;> cases n <;> rfl

theorem shareTrusted_current (nodeInUNL : NewcoinAddress → Bool) (v : SerializedValidation)
    (s : State) (hS : SlotsTrusted s.mCurrentValidations) :
    (shareTrusted nodeInUNL v s).mCurrentValidations = s.mCurrentValidations := by
  unfold shareTrusted setTrustedHeld
  split
  · simp only
    have key : ∀ c ∈ s.mCurrentValidations,
        (c.1, c.2.seenAfterSetTrusted v.addr) = c := by
      intro c hc
      have hslots : ∀ w ∈ c.2.slots, w.trusted = true := fun w hw =>
        hS w (List.mem_flatMap.mpr ⟨c, hc, hw⟩)
      obtain ⟨k, ⟨o, n⟩⟩ := c
      have ho : o.map (seenAfterSetTrusted v.addr) = o := by
        cases o with
        | none => rfl
        | some x =>
          simp only [Option.map_some']
          rw [seenAfterSetTrusted_of_trusted _ _ (hslots x (by simp [ValidationPair.slots]))]
      have hn : n.map (seenAfterSetTrusted v.addr) = n := by
        cases n with
        | none => rfl
        | some x =>
          simp only [Option.map_some']
          rw [seenAfterSetTrusted_of_trusted _ _ (hslots x (by simp [ValidationPair.slots]))]
      simp only [ValidationPair.seenAfterSetTrusted, ho, hn]
    conv_rhs => rw [← List.map_id s.mCurrentValidations]
    exact List.map_congr_left (fun c hc => by simpa using key c hc)
  · rfl

theorem shareTrusted_stale (nodeInUNL : NewcoinAddress → Bool) (v : SerializedValidation)
    (s : State) (hQ : QueueTrusted s.mStaleValidations) :
    (shareTrusted nodeInUNL v s).mStaleValidations = s.mStaleValidations := by
  unfold shareTrusted setTrustedHeld
  split
  · simp only
    conv_rhs => rw [← List.map_id s.mStaleValidations]
    exact List.map_congr_left
      (fun x hx => by simpa using seenAfterSetTrusted_of_trusted v.addr x (hQ x hx))
  · rfl

theorem shareTrusted_stale_length (nodeInUNL : NewcoinAddress → Bool)
    (v : SerializedValidation) (s : State) :
    (shareTrusted nodeInUNL v s).mStaleValidations.length = s.mStaleValidations.length := by
  unfold shareTrusted setTrustedHeld
  split
  · simp
  · rfl

/-! ## Ingest -/

/-- The flag returned by `addValidation` is the conjunction of "newly inserted" and
`isCurrent`. -/
theorem addValidation_fst (LMI : Nat) (nodeInUNL : NewcoinAddress → Bool) (now : Nat)
    (v : SerializedValidation) (s : State) :
    (addValidation LMI nodeInUNL now v s).1 =
      ((storedAt v.ledgerHash v.signerPublic.nodeID s.mValidations).isNone &&
        (nodeInUNL v.signerPublic && isCurrentAt LMI now v.closeTime)) := by
  unfold addValidation
  simp only [insertValidation_snd, tagTrusted_ledgerHash, tagTrusted_closeTime,
    storedAt_shareTrusted, Option.isNone_map']
  cases (storedAt v.ledgerHash v.signerPublic.nodeID s.mValidations).isNone <;> simp

/-- A call whose pair is already in `mValidations` returns false and performs line 14 only. -/
theorem addValidation_of_stored (LMI : Nat) (nodeInUNL : NewcoinAddress → Bool) (now : Nat)
    (v e : SerializedValidation) (s : State)
    (h : storedAt v.ledgerHash v.signerPublic.nodeID s.mValidations = some e) :
    addValidation LMI nodeInUNL now v s = (false, shareTrusted nodeInUNL v s) := by
  have h0 := storedAt_shareTrusted nodeInUNL v s v.ledgerHash v.signerPublic.nodeID
  rw [h, Option.map_some'] at h0
  unfold addValidation
  simp only [insertValidation_snd, tagTrusted_ledgerHash, tagTrusted_signerPublic, h0,
    insertValidation_of_stored _ _ _ _ _ h0]
  simp

/-- C1: `addValidation` returns true exactly when the pair (ledger hash, node id) of the
validation is not yet in `mValidations`, its signer is in the UNL, and the clock value satisfies
`now > closeTime - 4` and `now < closeTime + LEDGER_MAX_INTERVAL`, both computed on `uint32`
operands as the source does. -/
theorem addValidation_true_iff (LMI : Nat) (nodeInUNL : NewcoinAddress → Bool) (now : Nat)
    (v : SerializedValidation) (s : State) :
    (addValidation LMI nodeInUNL now v s).1 = true ↔
      (mapFind v.signerPublic.nodeID (getValidations v.ledgerHash s) = none ∧
        nodeInUNL v.signerPublic = true ∧
        now > u32sub v.closeTime 4 ∧ now < u32add v.closeTime LMI) := by
  rw [addValidation_fst, getValidations_eq, ← storedAt_def]
  simp [isCurrentAt, Option.isNone_iff_eq_none]

/-- The claim of C2 fails when the stored object itself is re-submitted after its signer joined
the UNL: the validation of N2 for ledger 13 was stored untrusted while the UNL held N1 only;
submitted again with N2 in the UNL, the call returns false but the state is not as it was: the
entry stored under the pair now reads trusted, and the trusted count of ledger 13 goes from 0
to 1. -/
theorem addValidation_resubmitted_sets_trusted :
    mapFind (sampleVal sampleN2 13 100).signerPublic.nodeID
        (getValidations (sampleVal sampleN2 13 100).ledgerHash sampleUntrusted) =
          some (sampleVal sampleN2 13 100) ∧
      (addValidation 20 sampleUNL2 100 (sampleVal sampleN2 13 100) sampleUntrusted).1 = false ∧
      (addValidation 20 sampleUNL2 100 (sampleVal sampleN2 13 100) sampleUntrusted).2 ≠
        sampleUntrusted ∧
      mapFind (sampleVal sampleN2 13 100).signerPublic.nodeID
        (getValidations (sampleVal sampleN2 13 100).ledgerHash
          (addValidation 20 sampleUNL2 100 (sampleVal sampleN2 13 100) sampleUntrusted).2) =
          some (sampleVal sampleN2 13 100).setTrusted ∧
      getTrustedValidationCount 13 sampleUntrusted = 0 ∧
      getTrustedValidationCount 13
        (addValidation 20 sampleUNL2 100 (sampleVal sampleN2 13 100) sampleUntrusted).2 = 1 := by
  decide

/-- C2 as amended: when the pair (ledger hash, node id) of the validation is already present in
`mValidations`, holding the object `e`, `addValidation` returns false; the state it leaves is
the state as it was, except that when the signer is in the UNL and the argument is the object
`e` itself, that object shows the trusted flag set through every reference the collection has
to it (`setTrustedHeld`: the containers hold the same pointers under the same keys); the entry
stored under the pair is still `e`, with the flag set in that case; and where the slots of
`mCurrentValidations` and the stale queue hold trusted validations only, as they do in every
reachable state, `mCurrentValidations` and the stale queue are exactly as they were. -/
theorem addValidation_duplicate (LMI : Nat) (nodeInUNL : NewcoinAddress → Bool) (now : Nat)
    (v e : SerializedValidation) (s : State)
    (h : mapFind v.signerPublic.nodeID (getValidations v.ledgerHash s) = some e) :
    (addValidation LMI nodeInUNL now v s).1 = false ∧
      (addValidation LMI nodeInUNL now v s).2 =
        (if nodeInUNL v.signerPublic = true ∧ e.addr = v.addr then setTrustedHeld v.addr s
          else s) ∧
      mapFind v.signerPublic.nodeID
        (getValidations v.ledgerHash (addValidation LMI nodeInUNL now v s).2) =
          some (if nodeInUNL v.signerPublic = true ∧ e.addr = v.addr then e.setTrusted
            else e) ∧
      (SlotsTrusted s.mCurrentValidations →
        (addValidation LMI nodeInUNL now v s).2.mCurrentValidations = s.mCurrentValidations) ∧
      (QueueTrusted s.mStaleValidations →
        (addValidation LMI nodeInUNL now v s).2.mStaleValidations = s.mStaleValidations) := by
  rw [getValidations_eq, ← storedAt_def] at h
  have hr : resubmitsHeld nodeInUNL v s =
      (nodeInUNL v.signerPublic && decide (e.addr = v.addr)) := by
    simp [resubmitsHeld, h]
  rw [addValidation_of_stored LMI nodeInUNL now v e s h]
  refine ⟨rfl, ?_, ?_, shareTrusted_current nodeInUNL v s, shareTrusted_stale nodeInUNL v s⟩
  · simp only [shareTrusted, hr, Bool.and_eq_true, decide_eq_true_eq]
  · rw [getValidations_eq, ← storedAt_def, storedAt_shareTrusted, h, Option.map_some', hr]
    by_cases hc : nodeInUNL v.signerPublic = true ∧ e.addr = v.addr
    · simp [hc.1, hc.2, seenAfterSetTrusted]
    · have hb : (nodeInUNL v.signerPublic && decide (e.addr = v.addr)) = false := by
        by_contra hcon
        apply hc
        simpa using hcon
      simp only [hb, Bool.false_eq_true, if_false, hc]

/-- Re-submitting the first validation of N1 to the collection that already holds it, marked
trusted: the call returns false and the state is as it was. -/
theorem addValidation_duplicate_witness :
    (mapFind (sampleVal sampleN1 10 101).signerPublic.nodeID
        (getValidations (sampleVal sampleN1 10 101).ledgerHash sampleS1) =
          some (sampleVal sampleN1 10 101).setTrusted ∧
      SlotsTrusted sampleS1.mCurrentValidations ∧ QueueTrusted sampleS1.mStaleValidations) ∧
    (addValidation 20 sampleUNL 100 (sampleVal sampleN1 10 101) sampleS1).1 = false ∧
    (addValidation 20 sampleUNL 100 (sampleVal sampleN1 10 101) sampleS1).2 = sampleS1 ∧
    (addValidation 20 sampleUNL 100 (sampleVal sampleN1 10 101)
      sampleS1).2.mCurrentValidations = sampleS1.mCurrentValidations ∧
    (addValidation 20 sampleUNL 100 (sampleVal sampleN1 10 101)
      sampleS1).2.mStaleValidations = sampleS1.mStaleValidations :=
  ⟨⟨by decide, by unfold SlotsTrusted; decide, by unfold QueueTrusted; decide⟩,
    (addValidation_duplicate 20 sampleUNL 100 (sampleVal sampleN1 10 101)
      (sampleVal sampleN1 10 101).setTrusted sampleS1 (by decide)).1,
    by decide,
    (addValidation_duplicate 20 sampleUNL 100 (sampleVal sampleN1 10 101)
      (sampleVal sampleN1 10 101).setTrusted sampleS1 (by decide)).2.2.2.1
      (by unfold SlotsTrusted; decide),
    (addValidation_duplicate 20 sampleUNL 100 (sampleVal sampleN1 10 101)
      (sampleVal sampleN1 10 101).setTrusted sampleS1 (by decide)).2.2.2.2
      (by unfold QueueTrusted; decide)⟩

/-- The state left by `addValidation` for a validation that is new to `mValidations`. -/
theorem addValidation_snd_of_new (LMI : Nat) (nodeInUNL : NewcoinAddress → Bool) (now : Nat)
    (v : SerializedValidation) (s : State)
    (h : storedAt v.ledgerHash v.signerPublic.nodeID s.mValidations = none) :
    (addValidation LMI nodeInUNL now v s).2 =
      if (nodeInUNL v.signerPublic && isCurrentAt LMI now v.closeTime) = true then
        updateCurrent v.signerPublic.nodeID (tagTrusted nodeInUNL v)
          { s with mValidations := (insertValidation v.ledgerHash v.signerPublic.nodeID
              (tagTrusted nodeInUNL v) s.mValidations).1 }
      else
        { s with mValidations := (insertValidation v.ledgerHash v.signerPublic.nodeID
            (tagTrusted nodeInUNL v) s.mValidations).1 } := by
  unfold addValidation
  simp only [shareTrusted_of_new nodeInUNL v s h, insertValidation_snd, tagTrusted_ledgerHash,
    tagTrusted_closeTime, h]
  simp

/-- C4: a validation that is new to `mValidations` and is untrusted, or trusted but outside the
ingest currency window, makes `addValidation` return false; afterwards `getValidations` of its
ledger holds it under its node id (with the trusted mark that lines 12-14 gave it), and
`mCurrentValidations` and the stale queue are unchanged. -/
theorem addValidation_not_current (LMI : Nat) (nodeInUNL : NewcoinAddress → Bool) (now : Nat)
    (v : SerializedValidation) (s : State)
    (hnew : mapFind v.signerPublic.nodeID (getValidations v.ledgerHash s) = none)
    (hnc : nodeInUNL v.signerPublic = false ∨
      ¬ (now > u32sub v.closeTime 4 ∧ now < u32add v.closeTime LMI)) :
    (addValidation LMI nodeInUNL now v s).1 = false ∧
      mapFind v.signerPublic.nodeID
        (getValidations v.ledgerHash (addValidation LMI nodeInUNL now v s).2) =
          some (if nodeInUNL v.signerPublic then v.setTrusted else v) ∧
      (addValidation LMI nodeInUNL now v s).2.mCurrentValidations = s.mCurrentValidations ∧
      (addValidation LMI nodeInUNL now v s).2.mStaleValidations = s.mStaleValidations := by
  rw [getValidations_eq, ← storedAt_def] at hnew
  have hc : (nodeInUNL v.signerPublic && isCurrentAt LMI now v.closeTime) = false := by
    rcases hnc with hu | hw
    · simp [hu]
    · have : isCurrentAt LMI now v.closeTime = false := by
        unfold isCurrentAt
        by_contra hcon
        apply hw
        simpa using hcon
      simp [this]
  refine ⟨by rw [addValidation_fst, hc]; simp, ?_, ?_, ?_⟩
  · rw [getValidations_eq, ← storedAt_def, addValidation_snd_of_new _ _ _ _ _ hnew, hc]
    simp only [Bool.false_eq_true, if_false]
    rw [storedAt_insertValidation _ _ _ _ hnew]
    simp [tagTrusted]
  · rw [addValidation_snd_of_new _ _ _ _ _ hnew, hc]; simp
  · rw [addValidation_snd_of_new _ _ _ _ _ hnew, hc]; simp

/-- A validation of N2, which is not in the UNL, submitted to the collection that holds one
validation of N1. -/
theorem addValidation_not_current_witness :
    (mapFind (sampleVal sampleN2 13 100).signerPublic.nodeID
        (getValidations (sampleVal sampleN2 13 100).ledgerHash sampleS1) = none ∧
      (sampleUNL (sampleVal sampleN2 13 100).signerPublic = false ∨
        ¬ (100 > u32sub (sampleVal sampleN2 13 100).closeTime 4 ∧
          100 < u32add (sampleVal sampleN2 13 100).closeTime 20))) ∧
    ((addValidation 20 sampleUNL 100 (sampleVal sampleN2 13 100) sampleS1).1 = false ∧
      mapFind (sampleVal sampleN2 13 100).signerPublic.nodeID
        (getValidations (sampleVal sampleN2 13 100).ledgerHash
          (addValidation 20 sampleUNL 100 (sampleVal sampleN2 13 100) sampleS1).2) =
          some (if sampleUNL (sampleVal sampleN2 13 100).signerPublic then
            (sampleVal sampleN2 13 100).setTrusted else sampleVal sampleN2 13 100) ∧
      (addValidation 20 sampleUNL 100 (sampleVal sampleN2 13 100) sampleS1).2.mCurrentValidations =
        sampleS1.mCurrentValidations ∧
      (addValidation 20 sampleUNL 100 (sampleVal sampleN2 13 100) sampleS1).2.mStaleValidations =
        sampleS1.mStaleValidations) :=
  ⟨⟨by decide, Or.inl (by decide)⟩,
    addValidation_not_current 20 sampleUNL 100 (sampleVal sampleN2 13 100) sampleS1 (by decide)
      (Or.inl (by decide))⟩

/-! ## The aging pass -/

theorem condWrite_fields (s : State) :
    (condWrite s).mValidations = s.mValidations ∧
    (condWrite s).mCurrentValidations = s.mCurrentValidations ∧
    (condWrite s).mStaleValidations = s.mStaleValidations ∧
    (condWrite s).mDeadLedgers = s.mDeadLedgers ∧
    (condWrite s).mWriting = true := by
  unfold condWrite
  cases h : s.mWriting <;> simp [h]

theorem ageSlots_eq (LMI now : Nat) (p : ValidationPair) (stale : List SerializedValidation)
    (anyNew : Bool) :
    ageSlots LMI now p stale anyNew =
      (agedPair LMI now p,
        stale ++ p.slots.filter (fun v => decide (now > u32add v.closeTime LMI)),
        anyNew || (p.slots.filter (fun v => decide (now > u32add v.closeTime LMI))).isEmpty.not) := by
  obtain ⟨o, n⟩ := p
  cases o with
  | none =>
    cases n with
    | none => simp [ageSlots, agedPair, ValidationPair.slots, Option.filter]
    | some n =>
      by_cases hn : now > u32add n.closeTime LMI <;>
        simp [ageSlots, agedPair, ValidationPair.slots, Option.filter, isStaleAt, hn]
  | some o =>
    cases n with
    | none =>
      by_cases ho : now > u32add o.closeTime LMI <;>
        simp [ageSlots, agedPair, ValidationPair.slots, Option.filter, isStaleAt, ho]
    | some n =>
      by_cases ho : now > u32add o.closeTime LMI <;>
        by_cases hn : now > u32add n.closeTime LMI <;>
        simp [ageSlots, agedPair, ValidationPair.slots, Option.filter, isStaleAt, ho, hn]

theorem agedEntries_cons (LMI now node : Nat) (pair : ValidationPair)
    (rest : List (Nat × ValidationPair)) :
    agedEntries LMI now ((node, pair) :: rest) =
      if (agedPair LMI now pair).newest = none ∧ (agedPair LMI now pair).oldest = none then
        agedEntries LMI now rest
      else (node, agedPair LMI now pair) :: agedEntries LMI now rest := by
  unfold agedEntries
  simp only [List.map_cons, List.filter_cons]
  generalize agedPair LMI now pair = q
  obtain ⟨o, n⟩ := q
  cases o <;> cases n <;> simp

theorem getCurrentValidationsLoop_entries (LMI now : Nat) (cur : List (Nat × ValidationPair)) :
    ∀ (ret : List (Nat × Nat)) (stale : List SerializedValidation) (anyNew : Bool),
      (getCurrentValidationsLoop LMI now cur ret stale anyNew).1 = agedEntries LMI now cur := by
  induction cur with
  | nil => intro ret stale anyNew; rfl
  | cons e rest ih =>
    intro ret stale anyNew
    obtain ⟨node, pair⟩ := e
    unfold getCurrentValidationsLoop
    simp only [ageSlots_eq, agedEntries_cons]
    split
    · exact ih _ _ _
    · simp only [ih]

theorem getCurrentValidationsLoop_stale (LMI now : Nat) (cur : List (Nat × ValidationPair)) :
    ∀ (ret : List (Nat × Nat)) (stale : List SerializedValidation) (anyNew : Bool),
      (getCurrentValidationsLoop LMI now cur ret stale anyNew).2.2.1 =
        stale ++ expiredSlots LMI now cur ∧
      (getCurrentValidationsLoop LMI now cur ret stale anyNew).2.2.2 =
        (anyNew || (expiredSlots LMI now cur).isEmpty.not) := by
  induction cur with
  | nil => intro ret stale anyNew; simp [getCurrentValidationsLoop, expiredSlots, allSlots]
  | cons e rest ih =>
    intro ret stale anyNew
    obtain ⟨node, pair⟩ := e
    unfold getCurrentValidationsLoop
    simp only [ageSlots_eq]
    have hexp : expiredSlots LMI now ((node, pair) :: rest) =
        pair.slots.filter (fun v => decide (now > u32add v.closeTime LMI)) ++
          expiredSlots LMI now rest := by
      simp [expiredSlots, allSlots]
    split
    · rw [(ih _ _ _).1, (ih _ _ _).2, hexp]
      simp [List.append_assoc, Bool.or_assoc, List.isEmpty_iff]
      cases h : List.filter (fun v => decide (now > u32add v.closeTime LMI)) pair.slots <;>
        simp
    · simp only
      rw [(ih _ _ _).1, (ih _ _ _).2, hexp]
      simp [List.append_assoc, Bool.or_assoc, List.isEmpty_iff]
      cases h : List.filter (fun v => decide (now > u32add v.closeTime LMI)) pair.slots <;>
        simp

theorem mapFind_mapIncr (h k : Nat) (ret : List (Nat × Nat)) :
    mapFind h (mapIncr k ret) =
      if k = h then some ((mapFind h ret).getD 0 + 1) else mapFind h ret := by
  unfold mapIncr
  cases hk : mapFind k ret with
  | some c =>
    rw [mapFind_mapSet]
    by_cases he : k = h
    · subst he; simp [hk]
    · simp [he]
  | none =>
    rw [mapFind_append]
    by_cases he : k = h
    · subst he; simp [hk, mapFind]
    · cases mapFind h ret <;> simp [mapFind, he]

theorem mapFind_countSlots (h : Nat) (p : ValidationPair) (ret : List (Nat × Nat)) :
    mapFind h (countSlots p ret) =
      if p.slots.countP (fun v => decide (v.ledgerHash = h)) = 0 then mapFind h ret
      else some ((mapFind h ret).getD 0 +
        p.slots.countP (fun v => decide (v.ledgerHash = h))) := by
  obtain ⟨o, n⟩ := p
  cases o with
  | none =>
    cases n with
    | none => simp [countSlots, ValidationPair.slots]
    | some n =>
      by_cases hn : n.ledgerHash = h <;>
        simp [countSlots, ValidationPair.slots, mapFind_mapIncr, hn, List.countP_cons]
  | some o =>
    cases n with
    | none =>
      by_cases ho : o.ledgerHash = h <;>
        simp [countSlots, ValidationPair.slots, mapFind_mapIncr, ho, List.countP_cons]
    | some n =>
      by_cases ho : o.ledgerHash = h <;> by_cases hn : n.ledgerHash = h <;>
        simp [countSlots, ValidationPair.slots, mapFind_mapIncr, ho, hn, List.countP_cons]

theorem slotCount_cons (h node : Nat) (p : ValidationPair) (rest : List (Nat × ValidationPair)) :
    slotCount h ((node, p) :: rest) =
      p.slots.countP (fun v => decide (v.ledgerHash = h)) + slotCount h rest := by
  simp [slotCount, allSlots, List.countP_append]

theorem getCurrentValidationsLoop_ret (LMI now h : Nat) (cur : List (Nat × ValidationPair)) :
    ∀ (ret : List (Nat × Nat)) (stale : List SerializedValidation) (anyNew : Bool),
      mapFind h (getCurrentValidationsLoop LMI now cur ret stale anyNew).2.1 =
        if slotCount h (agedEntries LMI now cur) = 0 then mapFind h ret
        else some ((mapFind h ret).getD 0 + slotCount h (agedEntries LMI now cur)) := by
  induction cur with
  | nil => intro ret stale anyNew; simp [getCurrentValidationsLoop, agedEntries, slotCount, allSlots]
  | cons e rest ih =>
    intro ret stale anyNew
    obtain ⟨node, pair⟩ := e
    unfold getCurrentValidationsLoop
    simp only [ageSlots_eq, agedEntries_cons]
    split
    · exact ih _ _ _
    · simp only [ih, slotCount_cons, mapFind_countSlots]
      generalize (agedPair LMI now pair).slots.countP (fun v => decide (v.ledgerHash = h)) = a
      generalize slotCount h (agedEntries LMI now rest) = b
      by_cases ha : a = 0 <;> by_cases hb : b = 0
      · simp [ha, hb]
      · simp [ha, hb]
      · simp [ha, hb]
      · have hab : a + b ≠ 0 := by omega
        simp [ha, hb, hab, Nat.add_assoc]

/-- C5: `getCurrentValidations` at clock value `now` clears exactly the slots whose validation
satisfies `now > closeTime + LEDGER_MAX_INTERVAL` (the sum being a `uint32`) and removes the
entries left with both slots empty (`agedEntries`), appends the cleared validations to the stale
queue, leaves `mValidations` alone, and returns a map whose count for each ledger hash is the
number of remaining slots carrying that hash, with no key for a hash that no remaining slot
carries. -/
theorem getCurrentValidations_spec (LMI now : Nat) (s : State) :
    (getCurrentValidations LMI now s).2.mCurrentValidations =
        agedEntries LMI now s.mCurrentValidations ∧
      (getCurrentValidations LMI now s).2.mStaleValidations =
        s.mStaleValidations ++ expiredSlots LMI now s.mCurrentValidations ∧
      (getCurrentValidations LMI now s).2.mValidations = s.mValidations ∧
      ∀ hash : Nat, mapFind hash (getCurrentValidations LMI now s).1 =
        if slotCount hash (getCurrentValidations LMI now s).2.mCurrentValidations = 0 then none
        else some (slotCount hash (getCurrentValidations LMI now s).2.mCurrentValidations) := by
  have hcur : (getCurrentValidations LMI now s).2.mCurrentValidations =
      agedEntries LMI now s.mCurrentValidations := by
    unfold getCurrentValidations
    simp only [getCurrentValidationsLoop_entries]
    split <;> simp [(condWrite_fields _).2.1]
  refine ⟨hcur, ?_, ?_, ?_⟩
  · unfold getCurrentValidations
    simp only [(getCurrentValidationsLoop_stale _ _ _ _ _ _).1]
    split <;> simp [(condWrite_fields _).2.2.1]
  · dsimp only [getCurrentValidations]
    split <;> simp [(condWrite_fields _).1]
  · intro hash
    rw [hcur]
    unfold getCurrentValidations
    simp only [getCurrentValidationsLoop_ret]
    simp [mapFind]

/-! ## Counting queries -/

theorem countTrustedLoop_eq (vs : ValidationSet) :
    ∀ trusted : Nat, countTrustedLoop vs trusted = trusted + vs.countP (fun e => e.2.trusted) := by
  induction vs with
  | nil => intro t; simp [countTrustedLoop]
  | cons e rest ih =>
    intro t
    obtain ⟨k, v⟩ := e
    unfold countTrustedLoop
    cases hv : v.trusted <;> simp [ih, hv, List.countP_cons]; omega

/-- What `getTrustedValidationCount` computes: the trusted entries of the set of `ledger` and of
every set that follows it in the iteration order of `mValidations`. -/
theorem getTrustedValidationCountLoop_eq (m : List (Nat × ValidationSet)) :
    ∀ trusted : Nat, getTrustedValidationCountLoop m trusted =
      trusted + (m.map (fun b => b.2.countP (fun e => e.2.trusted))).sum := by
  induction m with
  | nil => intro t; simp [getTrustedValidationCountLoop]
  | cons b rest ih =>
    intro t
    obtain ⟨k, vs⟩ := b
    unfold getTrustedValidationCountLoop
    rw [ih, countTrustedLoop_eq]
    simp [Nat.add_assoc]

/-- C6: on the collection holding one trusted validation for ledger 10 (from N1) and one for
ledger 11 (from N2), `getTrustedValidationCount` of the ledger that comes first in the iteration
order of `mValidations` is 2, although the set of that ledger holds a single trusted entry; this
is so whichever of the two ledgers the container iterates first. -/
theorem getTrustedValidationCount_counts_later_ledgers :
    (getTrustedValidationCount 10 sampleTwoLedgers = 2 ∧
      (getValidations 10 sampleTwoLedgers).countP (fun e => e.2.trusted) = 1) ∧
    (getTrustedValidationCount 11 sampleTwoLedgersSwapped = 2 ∧
      (getValidations 11 sampleTwoLedgersSwapped).countP (fun e => e.2.trusted) = 1) := by
  decide

theorem countP_add_countP_not {α : Type} (p : α → Bool) (l : List α) :
    l.countP p + l.countP (fun a => !p a) = l.length := by
  induction l with
  | nil => rfl
  | cons a rest ih =>
    simp only [List.countP_cons, List.length_cons]
    cases p a <;> simp <;> omega

theorem countedTrusted_eq (t currentOnly : Bool) (now c x : Nat) :
    (if (t && currentOnly) = true then (if now < c ∨ now > x then false else t) else t) =
      (t && (!currentOnly || (decide (c ≤ now) && decide (now ≤ x)))) := by
  cases t <;> cases currentOnly <;> simp
  by_cases h1 : now < c
  · simp [h1]
  · by_cases h2 : x < now
    · simp [h2]
    · simp [h1, h2, Nat.not_lt.mp h1, Nat.not_lt.mp h2]

theorem getValidationCountLoop_eq (LMI now : Nat) (currentOnly : Bool) (vs : ValidationSet) :
    ∀ acc : Nat × Nat, getValidationCountLoop LMI now currentOnly vs acc =
      (acc.1 + vs.countP (fun e => e.2.trusted && (!currentOnly ||
          (decide (e.2.closeTime ≤ now) && decide (now ≤ u32add e.2.closeTime (2 * LMI))))),
       acc.2 + vs.countP (fun e => !(e.2.trusted && (!currentOnly ||
          (decide (e.2.closeTime ≤ now) && decide (now ≤ u32add e.2.closeTime (2 * LMI))))))) := by
  induction vs with
  | nil => intro acc; simp [getValidationCountLoop]
  | cons e rest ih =>
    intro acc
    obtain ⟨k, v⟩ := e
    obtain ⟨t, u⟩ := acc
    unfold getValidationCountLoop
    simp only [countedTrusted_eq, ih, List.countP_cons]
    cases hP : (v.trusted && (!currentOnly ||
        (decide (v.closeTime ≤ now) && decide (now ≤ u32add v.closeTime (2 * LMI)))))
    · simp only [Bool.false_eq_true, if_false, Bool.not_false, if_true, Prod.mk.injEq]
      omega
    · simp only [if_true, Bool.not_true, Bool.false_eq_true, if_false, Prod.mk.injEq]
      omega

/-- C7: `getValidationCount` returns as `trusted` the number of entries of the set of `ledger`
that are trusted and, when `currentOnly` is set, satisfy
`closeTime ≤ now ≤ closeTime + 2 * LEDGER_MAX_INTERVAL` (the sum being a `uint32`), and as
`untrusted` the number of all other entries of that set; the two add up to the size of
`getValidations ledger`, and both are 0 when the ledger has no set. -/
theorem getValidationCount_spec (LMI now ledger : Nat) (currentOnly : Bool) (s : State) :
    (getValidationCount LMI now ledger currentOnly s).1 =
        (getValidations ledger s).countP (fun e => e.2.trusted && (!currentOnly ||
          (decide (e.2.closeTime ≤ now) && decide (now ≤ u32add e.2.closeTime (2 * LMI))))) ∧
      (getValidationCount LMI now ledger currentOnly s).2 =
        (getValidations ledger s).countP (fun e => !(e.2.trusted && (!currentOnly ||
          (decide (e.2.closeTime ≤ now) && decide (now ≤ u32add e.2.closeTime (2 * LMI)))))) ∧
      (getValidationCount LMI now ledger currentOnly s).1 +
        (getValidationCount LMI now ledger currentOnly s).2 = (getValidations ledger s).length ∧
      ((mapFind ledger s.mValidations).isSome = true ∨
        getValidationCount LMI now ledger currentOnly s = (0, 0)) := by
  unfold getValidationCount getValidations
  cases h : mapFind ledger s.mValidations with
  | none => simp
  | some vs =>
    simp only [getValidationCountLoop_eq, Nat.zero_add, Option.isSome_some, true_or, and_true]
    refine ⟨trivial, trivial, ?_⟩
    exact countP_add_countP_not _ vs

/-! ## Flush -/

theorem flushLoop_eq (cur : List (Nat × ValidationPair)) :
    ∀ (stale : List SerializedValidation) (anyNew : Bool),
      flushLoop cur stale anyNew = (stale ++ allSlots cur, anyNew || cur.isEmpty.not) := by
  induction cur with
  | nil => intro stale anyNew; simp [flushLoop, allSlots]
  | cons e rest ih =>
    intro stale anyNew
    obtain ⟨node, ⟨o, n⟩⟩ := e
    unfold flushLoop
    rw [ih]
    cases o <;> cases n <;> simp [allSlots, ValidationPair.slots]

theorem flush_fields (s : State) :
    (flush s).mStaleValidations = s.mStaleValidations ++ allSlots s.mCurrentValidations ∧
      (flush s).mCurrentValidations = [] ∧
      (flush s).mValidations = s.mValidations ∧
      (flush s).mDeadLedgers = s.mDeadLedgers := by
  unfold flush
  simp only [flushLoop_eq]
  split <;> simp [condWrite_fields]

/-- On a collection whose signer index is empty `getCurrentValidations` returns the empty map
and changes nothing. -/
theorem getCurrentValidations_of_empty (LMI now : Nat) (s : State)
    (h : s.mCurrentValidations = []) : getCurrentValidations LMI now s = ([], s) := by
  unfold getCurrentValidations
  rw [h]
  simp only [getCurrentValidationsLoop, Bool.false_eq_true, if_false]
  rw [← h]

/-- C9: the state change of `flush` appends the occupied slots of every entry of
`mCurrentValidations` (`oldest`, then `newest`) to the stale queue, empties
`mCurrentValidations` and leaves `mValidations` unchanged; `getCurrentValidations` called next,
at any clock value, returns the empty map and changes nothing (so enqueues nothing), whether it
runs right after the state change or after the writer has drained the queue and exited. -/
theorem flush_spec (LMI now : Nat) (s : State) :
    (flush s).mStaleValidations = s.mStaleValidations ++ allSlots s.mCurrentValidations ∧
      (flush s).mCurrentValidations = [] ∧
      (flush s).mValidations = s.mValidations ∧
      getCurrentValidations LMI now (flush s) = ([], flush s) ∧
      getCurrentValidations LMI now (doWriteExit (doWriteSwap (flush s)).2) =
        ([], doWriteExit (doWriteSwap (flush s)).2) := by
  obtain ⟨h1, h2, h3, _⟩ := flush_fields s
  exact ⟨h1, h2, h3, getCurrentValidations_of_empty LMI now _ h2,
    getCurrentValidations_of_empty LMI now _ h2⟩

/-! ## Reachable states -/

theorem run_append (LMI : Nat) (ops₁ ops₂ : List Op) :
    ∀ s : State, run LMI s (ops₁ ++ ops₂) = run LMI (run LMI s ops₁) ops₂ := by
  induction ops₁ with
  | nil => intro s; rfl
  | cons op rest ih => intro s; simp [run, ih]

/-- A property that holds of the empty collection and is kept by every well-formed operation
holds of every reachable state. -/
theorem Reachable.induct (LMI : Nat) (P : State → Prop) (h0 : P State.empty)
    (hstep : ∀ s op, P s → op.WF → P (step LMI s op)) :
    ∀ s, Reachable LMI s → P s := by
  have key : ∀ (ops : List Op) (s₀ : State), P s₀ → (∀ op ∈ ops, op.WF) → P (run LMI s₀ ops) := by
    intro ops
    induction ops with
    | nil => intro s₀ h _; exact h
    | cons op rest ih =>
      intro s₀ h hwf
      exact ih _ (hstep s₀ op h (hwf op (List.mem_cons_self _ _)))
        (fun o ho => hwf o (List.mem_cons_of_mem _ ho))
  rintro s ⟨ops, hwf, rfl⟩
  exact key ops _ h0 hwf

theorem Reachable.step (LMI : Nat) (s : State) (op : Op) (h : Reachable LMI s) (hop : op.WF) :
    Reachable LMI (step LMI s op) := by
  obtain ⟨ops, hwf, rfl⟩ := h
  refine ⟨ops ++ [op], ?_, ?_⟩
  · intro o ho
    rcases List.mem_append.mp ho with h1 | h1
    · exact hwf o h1
    · rw [List.mem_singleton.mp h1]; exact hop
  · rw [run_append]; rfl

/-! ## The generational update -/

theorem pushDisplaced_eq (oldest : Option SerializedValidation) (s : State) :
    pushDisplaced oldest s =
      { s with mStaleValidations := s.mStaleValidations ++ oldest.toList,
               mWriting := s.mWriting || oldest.isSome } := by
  cases oldest with
  | none => simp [pushDisplaced]
  | some o =>
    simp only [pushDisplaced, condWrite]
    cases h : s.mWriting <;> simp [h]

/-- The state after `updateCurrent`, by the three cases of lines 33-49. -/
theorem updateCurrent_eq (node : Nat) (val : SerializedValidation) (s : State) :
    updateCurrent node val s =
      match mapFind node s.mCurrentValidations with
      | none => { s with mCurrentValidations :=
          s.mCurrentValidations ++ [(node, ValidationPair.ofVal val)] }
      | some pair =>
        if displaces val pair.newest = true then
          { s with
            mCurrentValidations :=
              mapSet node (ValidationPair.mk pair.newest (some val)) s.mCurrentValidations,
            mStaleValidations := s.mStaleValidations ++ pair.oldest.toList,
            mWriting := s.mWriting || pair.oldest.isSome }
        else s := by
  unfold updateCurrent
  cases h : mapFind node s.mCurrentValidations with
  | none => simp [mapInsert, h]
  | some pair =>
    simp only [pushDisplaced_eq]

/-- The state after `addValidation`: line 14 as the collection sees it, `mValidations` after
line 29, and the rest of the state untouched or updated by `updateCurrent`. -/
theorem addValidation_snd (LMI : Nat) (nodeInUNL : NewcoinAddress → Bool) (now : Nat)
    (v : SerializedValidation) (s : State) :
    (addValidation LMI nodeInUNL now v s).2 =
      if (addValidation LMI nodeInUNL now v s).1 = true then
        updateCurrent v.signerPublic.nodeID (tagTrusted nodeInUNL v)
          { shareTrusted nodeInUNL v s with
            mValidations := (insertValidation v.ledgerHash v.signerPublic.nodeID
              (tagTrusted nodeInUNL v) (shareTrusted nodeInUNL v s).mValidations).1 }
      else
        { shareTrusted nodeInUNL v s with
          mValidations := (insertValidation v.ledgerHash v.signerPublic.nodeID
            (tagTrusted nodeInUNL v) (shareTrusted nodeInUNL v s).mValidations).1 } := by
  rw [addValidation_fst]
  unfold addValidation
  simp only [insertValidation_snd, tagTrusted_ledgerHash, tagTrusted_closeTime,
    storedAt_shareTrusted, Option.isNone_map']
  cases (storedAt v.ledgerHash v.signerPublic.nodeID s.mValidations).isNone <;>
    cases (nodeInUNL v.signerPublic && isCurrentAt LMI now v.closeTime) <;> simp

/-- A call that returns true inserted a new pair: line 14 touched no object of the
collection. -/
theorem addValidation_snd_of_true (LMI : Nat) (nodeInUNL : NewcoinAddress → Bool) (now : Nat)
    (v : SerializedValidation) (s : State)
    (hr : (addValidation LMI nodeInUNL now v s).1 = true) :
    (addValidation LMI nodeInUNL now v s).2 =
      updateCurrent v.signerPublic.nodeID (tagTrusted nodeInUNL v)
        { s with mValidations := (insertValidation v.ledgerHash v.signerPublic.nodeID
            (tagTrusted nodeInUNL v) s.mValidations).1 } := by
  have hnew : storedAt v.ledgerHash v.signerPublic.nodeID s.mValidations = none := by
    rw [addValidation_fst] at hr
    simp only [Bool.and_eq_true, Option.isNone_iff_eq_none] at hr
    exact hr.1
  rw [addValidation_snd, if_pos hr, shareTrusted_of_new nodeInUNL v s hnew]

/-- A call that returns false leaves everything but `mValidations` as line 14 left it. -/
theorem addValidation_snd_of_false (LMI : Nat) (nodeInUNL : NewcoinAddress → Bool) (now : Nat)
    (v : SerializedValidation) (s : State)
    (hr : ¬ (addValidation LMI nodeInUNL now v s).1 = true) :
    (addValidation LMI nodeInUNL now v s).2.mCurrentValidations =
        (shareTrusted nodeInUNL v s).mCurrentValidations ∧
      (addValidation LMI nodeInUNL now v s).2.mStaleValidations =
        (shareTrusted nodeInUNL v s).mStaleValidations ∧
      (addValidation LMI nodeInUNL now v s).2.mWriting = s.mWriting ∧
      (addValidation LMI nodeInUNL now v s).2.mDeadLedgers = s.mDeadLedgers := by
  rw [addValidation_snd, if_neg hr]
  exact ⟨rfl, rfl, (shareTrusted_rest nodeInUNL v s).2, (shareTrusted_rest nodeInUNL v s).1⟩

theorem mem_mapSet {β : Type} (k : Nat) (b : β) (m : List (Nat × β)) (e : Nat × β)
    (h : e ∈ mapSet k b m) : e ∈ m ∨ e = (k, b) := by
  induction m with
  | nil => simp [mapSet] at h
  | cons e₀ rest ih =>
    obtain ⟨k₀, b₀⟩ := e₀
    unfold mapSet at h
    by_cases hk : k₀ = k
    · simp only [hk, if_true, List.mem_cons] at h
      rcases h with h | h
      · exact Or.inr h
      · exact Or.inl (List.mem_cons_of_mem _ h)
    · simp only [hk, if_false, List.mem_cons] at h
      rcases h with h | h
      · exact Or.inl (h ▸ List.mem_cons_self _ _)
      · rcases ih h with h' | h'
        · exact Or.inl (List.mem_cons_of_mem _ h')
        · exact Or.inr h'

theorem mem_of_mapFind {β : Type} (k : Nat) (b : β) (m : List (Nat × β))
    (h : mapFind k m = some b) : (k, b) ∈ m := by
  induction m with
  | nil => simp [mapFind] at h
  | cons e₀ rest ih =>
    obtain ⟨k₀, b₀⟩ := e₀
    unfold mapFind at h
    by_cases hk : k₀ = k
    · simp only [hk, if_true, Option.some.injEq] at h
      subst hk; subst h; exact List.mem_cons_self _ _
    · simp only [hk, if_false] at h
      exact List.mem_cons_of_mem _ (ih h)

theorem mem_agedEntries (LMI now : Nat) (cur : List (Nat × ValidationPair))
    (e : Nat × ValidationPair) (h : e ∈ agedEntries LMI now cur) :
    ∃ p, (e.1, p) ∈ cur ∧ e.2 = agedPair LMI now p ∧
      ¬ (e.2.oldest = none ∧ e.2.newest = none) := by
  unfold agedEntries at h
  rw [List.mem_filter, List.mem_map] at h
  obtain ⟨⟨e₀, he₀, rfl⟩, hne⟩ := h
  refine ⟨e₀.2, he₀, rfl, ?_⟩
  rintro ⟨h1, h2⟩
  simp only at h1 h2
  simp [h1, h2] at hne

theorem agedPair_oldest (LMI now : Nat) (p : ValidationPair) (o : SerializedValidation)
    (h : (agedPair LMI now p).oldest = some o) :
    p.oldest = some o ∧ ¬ now > u32add o.closeTime LMI := by
  unfold agedPair at h
  cases ho : p.oldest with
  | none => simp [ho, Option.filter] at h
  | some o' =>
    simp only [ho, Option.filter] at h
    split at h
    · rename_i hc
      simp only [Option.some.injEq] at h
      subst h
      simpa using hc
    · simp at h

theorem agedPair_newest (LMI now : Nat) (p : ValidationPair) (n : SerializedValidation)
    (h : (agedPair LMI now p).newest = some n) :
    p.newest = some n ∧ ¬ now > u32add n.closeTime LMI := by
  unfold agedPair at h
  cases hn : p.newest with
  | none => simp [hn, Option.filter] at h
  | some n' =>
    simp only [hn, Option.filter] at h
    split at h
    · rename_i hc
      simp only [Option.some.injEq] at h
      subst h
      simpa using hc
    · simp at h

theorem getCurrentValidations_fields (LMI now : Nat) (s : State) :
    (getCurrentValidations LMI now s).2.mCurrentValidations =
        agedEntries LMI now s.mCurrentValidations ∧
      (getCurrentValidations LMI now s).2.mStaleValidations =
        s.mStaleValidations ++ expiredSlots LMI now s.mCurrentValidations ∧
      (getCurrentValidations LMI now s).2.mValidations = s.mValidations ∧
      (getCurrentValidations LMI now s).2.mDeadLedgers = s.mDeadLedgers := by
  refine ⟨?_, ?_, ?_, ?_⟩
  · unfold getCurrentValidations
    simp only [getCurrentValidationsLoop_entries]
    split <;> simp [(condWrite_fields _).2.1]
  · unfold getCurrentValidations
    simp only [(getCurrentValidationsLoop_stale _ _ _ _ _ _).1]
    split <;> simp [(condWrite_fields _).2.2.1]
  · dsimp only [getCurrentValidations]
    split <;> simp [(condWrite_fields _).1]
  · dsimp only [getCurrentValidations]
    split <;> simp [(condWrite_fields _).2.2.2.1]

theorem addDeadLedger_fields (ledger : Nat) (s : State) :
    (addDeadLedger ledger s).mValidations = s.mValidations ∧
      (addDeadLedger ledger s).mCurrentValidations = s.mCurrentValidations ∧
      (addDeadLedger ledger s).mStaleValidations = s.mStaleValidations ∧
      (addDeadLedger ledger s).mWriting = s.mWriting := by
  unfold addDeadLedger
  split
  · simp
  · dsimp only
    split <;> simp

/-- The signer index after each operation. -/
theorem step_current (LMI : Nat) (s : State) (op : Op) :
    (step LMI s op).mCurrentValidations =
      match op with
      | .addValidation nodeInUNL now val =>
        (addValidation LMI nodeInUNL now val s).2.mCurrentValidations
      | .getCurrentValidations now => agedEntries LMI now s.mCurrentValidations
      | .flush => []
      | _ => s.mCurrentValidations := by
  cases op <;> simp only [step]
  · exact (getCurrentValidations_fields LMI _ s).1
  · exact (addDeadLedger_fields _ s).2.1
  · exact (flush_fields s).2.1
  · split <;> rfl
  · split <;> rfl

/-- The signer index after `addValidation`, by cases; the validations in its slots are all
marked trusted, so line 14 changes none of them. -/
theorem addValidation_current (LMI : Nat) (nodeInUNL : NewcoinAddress → Bool) (now : Nat)
    (v : SerializedValidation) (s : State) (hS : SlotsTrusted s.mCurrentValidations) :
    (addValidation LMI nodeInUNL now v s).2.mCurrentValidations =
      if (addValidation LMI nodeInUNL now v s).1 = true then
        match mapFind v.signerPublic.nodeID s.mCurrentValidations with
        | none => s.mCurrentValidations ++
            [(v.signerPublic.nodeID, ValidationPair.ofVal (tagTrusted nodeInUNL v))]
        | some pair =>
          if displaces (tagTrusted nodeInUNL v) pair.newest = true then
            mapSet v.signerPublic.nodeID
              (ValidationPair.mk pair.newest (some (tagTrusted nodeInUNL v)))
              s.mCurrentValidations
          else s.mCurrentValidations
      else s.mCurrentValidations := by
  by_cases hr : (addValidation LMI nodeInUNL now v s).1 = true
  · rw [addValidation_snd_of_true LMI nodeInUNL now v s hr, if_pos hr, updateCurrent_eq]
    simp only
    cases mapFind v.signerPublic.nodeID s.mCurrentValidations with
    | none => rfl
    | some pair => simp only; split <;> rfl
  · rw [(addValidation_snd_of_false LMI nodeInUNL now v s hr).1, if_neg hr]
    exact shareTrusted_current nodeInUNL v s hS

theorem displaces_some (val n : SerializedValidation) (h : displaces val (some n) = true) :
    val.closeTime > n.closeTime := by
  simpa [displaces] using h

theorem tagTrusted_of_inUNL (nodeInUNL : NewcoinAddress → Bool) (v : SerializedValidation)
    (h : nodeInUNL v.signerPublic = true) : tagTrusted nodeInUNL v = v.setTrusted := by
  simp [tagTrusted, h]

theorem mem_slots_agedPair (LMI now : Nat) (p : ValidationPair) (v : SerializedValidation)
    (h : v ∈ (agedPair LMI now p).slots) : v ∈ p.slots := by
  unfold ValidationPair.slots at h ⊢
  rcases List.mem_append.mp h with h | h
  · rw [Option.mem_toList] at h
    exact List.mem_append_left _ (Option.mem_toList.mpr (agedPair_oldest _ _ _ _ h).1)
  · rw [Option.mem_toList] at h
    exact List.mem_append_right _ (Option.mem_toList.mpr (agedPair_newest _ _ _ _ h).1)

/-- The stale queue after `addValidation`, by cases; the validations in the queue are all
marked trusted, so line 14 changes none of them. -/
theorem addValidation_stale (LMI : Nat) (nodeInUNL : NewcoinAddress → Bool) (now : Nat)
    (v : SerializedValidation) (s : State) (hQ : QueueTrusted s.mStaleValidations) :
    (addValidation LMI nodeInUNL now v s).2.mStaleValidations =
      s.mStaleValidations ++
        if (addValidation LMI nodeInUNL now v s).1 = true then
          match mapFind v.signerPublic.nodeID s.mCurrentValidations with
          | none => []
          | some pair =>
            if displaces (tagTrusted nodeInUNL v) pair.newest = true then pair.oldest.toList
            else []
        else [] := by
  by_cases hr : (addValidation LMI nodeInUNL now v s).1 = true
  · rw [addValidation_snd_of_true LMI nodeInUNL now v s hr, if_pos hr, updateCurrent_eq]
    simp only
    cases mapFind v.signerPublic.nodeID s.mCurrentValidations with
    | none => simp
    | some pair => simp only; split <;> simp
  · rw [(addValidation_snd_of_false LMI nodeInUNL now v s hr).2.1, if_neg hr,
      shareTrusted_stale nodeInUNL v s hQ]
    simp

/-- What `addValidation` appends to the stale queue, in every state: line 14 changes no
length. -/
theorem addValidation_enqueued (LMI : Nat) (nodeInUNL : NewcoinAddress → Bool) (now : Nat)
    (v : SerializedValidation) (s : State) :
    (addValidation LMI nodeInUNL now v s).2.mStaleValidations.drop s.mStaleValidations.length =
      if (addValidation LMI nodeInUNL now v s).1 = true then
        match mapFind v.signerPublic.nodeID s.mCurrentValidations with
        | none => []
        | some pair =>
          if displaces (tagTrusted nodeInUNL v) pair.newest = true then pair.oldest.toList
          else []
      else [] := by
  by_cases hr : (addValidation LMI nodeInUNL now v s).1 = true
  · rw [addValidation_snd_of_true LMI nodeInUNL now v s hr, if_pos hr, updateCurrent_eq]
    simp only
    cases mapFind v.signerPublic.nodeID s.mCurrentValidations with
    | none => simp
    | some pair => simp only; split <;> simp
  · rw [(addValidation_snd_of_false LMI nodeInUNL now v s hr).2.1, if_neg hr]
    apply List.drop_eq_nil_of_le
    rw [shareTrusted_stale_length]

/-! ## Held validations are trusted -/

theorem mem_allSlots {cur : List (Nat × ValidationPair)} {v : SerializedValidation} :
    v ∈ allSlots cur ↔ ∃ e ∈ cur, v ∈ e.2.slots := by
  simp [allSlots, List.mem_flatMap]

/-- A validation enters a slot only after line 14 marked it trusted. -/
theorem slotsTrusted_step (LMI : Nat) (s : State) (op : Op)
    (hS : SlotsTrusted s.mCurrentValidations) :
    SlotsTrusted (step LMI s op).mCurrentValidations := by
  unfold SlotsTrusted
  rw [step_current]
  cases op with
  | addValidation nodeInUNL now v =>
    simp only
    rw [addValidation_current LMI nodeInUNL now v s hS]
    split
    · rename_i hret
      rw [addValidation_fst] at hret
      simp only [Bool.and_eq_true, Option.isNone_iff_eq_none] at hret
      have hval : (tagTrusted nodeInUNL v).trusted = true := by
        rw [tagTrusted_of_inUNL _ _ hret.2.1]; rfl
      cases hf : mapFind v.signerPublic.nodeID s.mCurrentValidations with
      | none =>
        simp only
        intro w hw
        obtain ⟨e, he, hwe⟩ := mem_allSlots.mp hw
        rcases List.mem_append.mp he with he | he
        · exact hS w (mem_allSlots.mpr ⟨e, he, hwe⟩)
        · rw [List.mem_singleton.mp he] at hwe
          simp only [ValidationPair.ofVal, ValidationPair.slots, Option.toList,
            List.nil_append, List.mem_singleton] at hwe
          rw [hwe]; exact hval
      | some pair =>
        simp only
        split
        · intro w hw
          obtain ⟨e, he, hwe⟩ := mem_allSlots.mp hw
          rcases mem_mapSet _ _ _ _ he with he | he
          · exact hS w (mem_allSlots.mpr ⟨e, he, hwe⟩)
          · rw [he] at hwe
            simp only [ValidationPair.slots, List.mem_append, Option.mem_toList] at hwe
            rcases hwe with hwe | hwe
            · exact hS w (mem_allSlots.mpr ⟨_, mem_of_mapFind _ _ _ hf,
                List.mem_append_right _ (Option.mem_toList.mpr hwe)⟩)
            · simp only [Option.mem_def, Option.some.injEq] at hwe
              rw [← hwe]; exact hval
        · exact hS
    · exact hS
  | getCurrentValidations now =>
    simp only
    intro w hw
    obtain ⟨e, he, hwe⟩ := mem_allSlots.mp hw
    obtain ⟨p, hp, hep, _⟩ := mem_agedEntries LMI now _ e he
    rw [hep] at hwe
    exact hS w (mem_allSlots.mpr ⟨(e.1, p), hp, mem_slots_agedPair _ _ _ _ hwe⟩)
  | flush => simp only; intro w hw; simp [allSlots] at hw
  | _ => exact hS

/-- The stale queue only ever receives validations taken from slots. -/
theorem queueTrusted_step (LMI : Nat) (s : State) (op : Op)
    (hS : SlotsTrusted s.mCurrentValidations) (hQ : QueueTrusted s.mStaleValidations) :
    QueueTrusted (step LMI s op).mStaleValidations := by
  have grow : ∀ E : List SerializedValidation, (∀ w ∈ E, w ∈ allSlots s.mCurrentValidations) →
      QueueTrusted (s.mStaleValidations ++ E) := by
    intro E hE w hw
    rcases List.mem_append.mp hw with hw | hw
    · exact hQ w hw
    · exact hS w (hE w hw)
  cases op with
  | addValidation nodeInUNL now v =>
    simp only [step]
    rw [addValidation_stale LMI nodeInUNL now v s hQ]
    apply grow
    intro w hw
    split at hw
    · cases hf : mapFind v.signerPublic.nodeID s.mCurrentValidations with
      | none => simp [hf] at hw
      | some pair =>
        simp only [hf] at hw
        split at hw
        · exact mem_allSlots.mpr ⟨_, mem_of_mapFind _ _ _ hf, List.mem_append_left _ hw⟩
        · simp at hw
    · simp at hw
  | getCurrentValidations now =>
    simp only [step]
    rw [(getCurrentValidations_fields LMI now s).2.1]
    exact grow _ (fun w hw => (List.mem_filter.mp hw).1)
  | flush =>
    simp only [step]
    rw [(flush_fields s).1]
    exact grow _ (fun w hw => hw)
  | addDeadLedger ledger =>
    simp only [step]
    rw [(addDeadLedger_fields ledger s).2.2.1]
    exact hQ
  | doWriteSwap =>
    simp only [step]
    split
    · intro w hw; simp [doWriteSwap] at hw
    · exact hQ
  | doWriteExit =>
    simp only [step]
    split
    · exact hQ
    · exact hQ
  | getValidations _ => exact hQ
  | getValidationCount _ _ _ => exact hQ
  | getTrustedValidationCount _ => exact hQ
  | getCurrentValidationCount _ => exact hQ
  | isDeadLedger _ => exact hQ

theorem heldTrusted_run (LMI : Nat) (ops : List Op) :
    ∀ s : State, SlotsTrusted s.mCurrentValidations ∧ QueueTrusted s.mStaleValidations →
      SlotsTrusted (run LMI s ops).mCurrentValidations ∧
        QueueTrusted (run LMI s ops).mStaleValidations := by
  induction ops with
  | nil => intro s h; exact h
  | cons op rest ih =>
    intro s h
    exact ih _ ⟨slotsTrusted_step LMI s op h.1, queueTrusted_step LMI s op h.1 h.2⟩

theorem heldTrusted_empty :
    SlotsTrusted State.empty.mCurrentValidations ∧
      QueueTrusted State.empty.mStaleValidations := by
  constructor
  · intro w hw; simp [State.empty, allSlots] at hw
  · intro w hw; simp [State.empty] at hw

/-- In every reachable state the validations in the slots of the signer index and in the stale
queue are marked trusted. -/
theorem reachable_heldTrusted (LMI : Nat) (s : State) (h : Reachable LMI s) :
    SlotsTrusted s.mCurrentValidations ∧ QueueTrusted s.mStaleValidations := by
  obtain ⟨ops, _, rfl⟩ := h
  exact heldTrusted_run LMI ops State.empty heldTrusted_empty

/-- Induction over reachable states, with the trusted marks of the held validations at hand in
the step. -/
theorem Reachable.induct_held (LMI : Nat) (P : State → Prop) (h0 : P State.empty)
    (hstep : ∀ s op, SlotsTrusted s.mCurrentValidations → QueueTrusted s.mStaleValidations →
      P s → op.WF → P (ValidationCollection.step LMI s op)) :
    ∀ s, Reachable LMI s → P s := by
  intro s h
  have key := Reachable.induct LMI
    (fun t => P t ∧ SlotsTrusted t.mCurrentValidations ∧ QueueTrusted t.mStaleValidations)
    ⟨h0, heldTrusted_empty⟩
    (fun t op ht hop => ⟨hstep t op ht.2.1 ht.2.2 ht.1 hop,
      slotsTrusted_step LMI t op ht.2.1, queueTrusted_step LMI t op ht.2.1 ht.2.2⟩) s h
  exact key.1

theorem generationsOrdered_step (LMI : Nat) (s : State) (op : Op)
    (hS : SlotsTrusted s.mCurrentValidations)
    (h : GenerationsOrdered s.mCurrentValidations) :
    GenerationsOrdered (step LMI s op).mCurrentValidations := by
  rw [step_current]
  cases op with
  | addValidation nodeInUNL now v =>
    simp only
    rw [addValidation_current _ _ _ _ _ hS]
    split
    · cases hf : mapFind v.signerPublic.nodeID s.mCurrentValidations with
      | none =>
        simp only
        intro e he o n ho hn
        rcases List.mem_append.mp he with he | he
        · exact h e he o n ho hn
        · rw [List.mem_singleton.mp he] at ho
          simp [ValidationPair.ofVal] at ho
      | some pair =>
        simp only
        split
        · rename_i hd
          intro e he o n ho hn
          rcases mem_mapSet _ _ _ _ he with he | he
          · exact h e he o n ho hn
          · rw [he] at ho hn
            simp only at ho hn
            rw [ho] at hd
            simp only [Option.some.injEq] at hn
            rw [← hn]
            simpa using displaces_some _ _ hd
        · exact h
    · exact h
  | getCurrentValidations now =>
    simp only
    intro e he o n ho hn
    obtain ⟨p, hp, hep, _⟩ := mem_agedEntries LMI now _ e he
    rw [hep] at ho hn
    exact h (e.1, p) hp o n (agedPair_oldest _ _ _ _ ho).1 (agedPair_newest _ _ _ _ hn).1
  | flush => simp only; intro e he; simp at he
  | _ => exact h

/-- C3: in every state reachable from the empty collection by calls of the member functions
(with arbitrary clock values and UNL answers) and steps of the writer, every entry of
`mCurrentValidations` whose two slots are occupied has `newest.closeTime > oldest.closeTime`. -/
theorem reachable_generationsOrdered (LMI : Nat) (s : State) (h : Reachable LMI s)
    (e : Nat × ValidationPair) (he : e ∈ s.mCurrentValidations)
    (o n : SerializedValidation) (ho : e.2.oldest = some o) (hn : e.2.newest = some n) :
    n.closeTime > o.closeTime :=
  Reachable.induct_held LMI (fun t => GenerationsOrdered t.mCurrentValidations)
    (by intro e he; simp [State.empty] at he)
    (fun t op hS _ ht _ => generationsOrdered_step LMI t op hS ht) s h e he o n ho hn

/-- The sample collection that holds two validations of N1 is reachable. -/
theorem sampleS2_reachable : Reachable 20 sampleS2 := by
  refine ⟨sampleOps2, ?_, rfl⟩
  intro op hop
  simp only [sampleOps2, List.mem_cons, List.mem_singleton, List.not_mem_nil, or_false] at hop
  rcases hop with rfl | rfl <;> simp [Op.WF, UINT32_MOD, sampleVal]

/-- After two validations of N1 the entry of N1 holds both, the later one as `newest`. -/
theorem reachable_generationsOrdered_witness :
    Reachable 20 sampleS2 ∧
      (1, ValidationPair.mk (some (sampleVal sampleN1 10 101).setTrusted)
        (some (sampleVal sampleN1 11 110).setTrusted)) ∈ sampleS2.mCurrentValidations ∧
      (sampleVal sampleN1 11 110).setTrusted.closeTime >
        (sampleVal sampleN1 10 101).setTrusted.closeTime :=
  ⟨sampleS2_reachable, by decide,
    reachable_generationsOrdered 20 sampleS2 sampleS2_reachable
      (1, ValidationPair.mk (some (sampleVal sampleN1 10 101).setTrusted)
        (some (sampleVal sampleN1 11 110).setTrusted)) (by decide)
      (sampleVal sampleN1 10 101).setTrusted (sampleVal sampleN1 11 110).setTrusted rfl rfl⟩

/-! ## The newest slot -/

/-- With `LEDGER_MAX_INTERVAL` at most `2 ^ 32 - 3`, a validation that passes the currency test
of line 17 has a close time for which neither `closeTime - 4` nor
`closeTime + LEDGER_MAX_INTERVAL` wraps. -/
theorem isCurrentAt_noWrap (LMI now close : Nat) (hL : LMI + 3 ≤ UINT32_MOD)
    (hnow : now < UINT32_MOD) (hclose : close < UINT32_MOD)
    (h : isCurrentAt LMI now close = true) :
    4 ≤ close ∧ close + LMI < UINT32_MOD := by
  unfold isCurrentAt u32sub u32add at h
  unfold UINT32_MOD at *
  simp only [Bool.and_eq_true, decide_eq_true_eq] at h
  omega

theorem agedPair_newest_none (LMI now : Nat) (p : ValidationPair) (n : SerializedValidation)
    (hn : p.newest = some n) (h : (agedPair LMI now p).newest = none) :
    now > u32add n.closeTime LMI := by
  unfold agedPair at h
  simp only [hn, Option.filter] at h
  by_contra hc
  simp [hc] at h

theorem newestPresent_step (LMI : Nat) (hL : LMI + 3 ≤ UINT32_MOD) (s : State) (op : Op)
    (hS : SlotsTrusted s.mCurrentValidations) (hop : op.WF)
    (h : GenerationsOrdered s.mCurrentValidations ∧ NoWrap LMI s.mCurrentValidations ∧
      NewestPresent s.mCurrentValidations) :
    NoWrap LMI (step LMI s op).mCurrentValidations ∧
      NewestPresent (step LMI s op).mCurrentValidations := by
  obtain ⟨hord, hnw, hnp⟩ := h
  rw [step_current]
  cases op with
  | addValidation nodeInUNL now v =>
    simp only
    rw [addValidation_current _ _ _ _ _ hS]
    split
    · rename_i hret
      rw [addValidation_fst] at hret
      simp only [Bool.and_eq_true] at hret
      have hv : (tagTrusted nodeInUNL v).closeTime + LMI < UINT32_MOD := by
        rw [tagTrusted_closeTime]
        exact (isCurrentAt_noWrap LMI now _ hL hop.1 hop.2 hret.2.2).2
      cases hf : mapFind v.signerPublic.nodeID s.mCurrentValidations with
      | none =>
        simp only
        constructor
        · intro e he w hw
          rcases List.mem_append.mp he with he | he
          · exact hnw e he w hw
          · rw [List.mem_singleton.mp he] at hw
            simp only [ValidationPair.ofVal, ValidationPair.slots, Option.toList,
              List.nil_append, List.mem_singleton] at hw
            rw [hw]; exact hv
        · intro e he
          rcases List.mem_append.mp he with he | he
          · exact hnp e he
          · rw [List.mem_singleton.mp he]; simp [ValidationPair.ofVal]
      | some pair =>
        simp only
        split
        · constructor
          · intro e he w hw
            rcases mem_mapSet _ _ _ _ he with he | he
            · exact hnw e he w hw
            · rw [he] at hw
              simp only [ValidationPair.slots, List.mem_append, Option.mem_toList] at hw
              rcases hw with hw | hw
              · exact hnw _ (mem_of_mapFind _ _ _ hf) w
                  (List.mem_append_right _ (Option.mem_toList.mpr hw))
              · simp only [Option.mem_def, Option.some.injEq] at hw
                rw [← hw]; exact hv
          · intro e he
            rcases mem_mapSet _ _ _ _ he with he | he
            · exact hnp e he
            · rw [he]; simp
        · exact ⟨hnw, hnp⟩
    · exact ⟨hnw, hnp⟩
  | getCurrentValidations now =>
    simp only
    constructor
    · intro e he w hw
      obtain ⟨p, hp, hep, _⟩ := mem_agedEntries LMI now _ e he
      rw [hep] at hw
      exact hnw (e.1, p) hp w (mem_slots_agedPair _ _ _ _ hw)
    · intro e he hnone
      obtain ⟨p, hp, hep, hne⟩ := mem_agedEntries LMI now _ e he
      cases hpn : p.newest with
      | none => exact hnp (e.1, p) hp hpn
      | some n =>
        rw [hep] at hnone hne
        have hstale := agedPair_newest_none LMI now p n hpn hnone
        cases hao : (agedPair LMI now p).oldest with
        | none => exact hne ⟨hao, hnone⟩
        | some o =>
          obtain ⟨hpo, hfresh⟩ := agedPair_oldest _ _ _ _ hao
          have h1 := hord (e.1, p) hp o n hpo hpn
          have h2 := hnw (e.1, p) hp n
            (List.mem_append_right _ (Option.mem_toList.mpr hpn))
          have h3 := hnw (e.1, p) hp o
            (List.mem_append_left _ (Option.mem_toList.mpr hpo))
          unfold u32add at hstale hfresh
          rw [Nat.mod_eq_of_lt h2] at hstale
          rw [Nat.mod_eq_of_lt h3] at hfresh
          omega
  | flush => simp only; exact ⟨fun e he => by simp at he, fun e he => by simp at he⟩
  | _ => exact ⟨hnw, hnp⟩

/-- With `LEDGER_MAX_INTERVAL` at most `2 ^ 32 - 3`, every entry of the signer index of a
reachable state has its `newest` slot occupied. -/
theorem reachable_newestPresent (LMI : Nat) (hL : LMI + 3 ≤ UINT32_MOD) (s : State)
    (h : Reachable LMI s) : NewestPresent s.mCurrentValidations := by
  have key := Reachable.induct_held LMI
    (fun t => GenerationsOrdered t.mCurrentValidations ∧ NoWrap LMI t.mCurrentValidations ∧
      NewestPresent t.mCurrentValidations)
    ⟨fun e he => by simp [State.empty] at he, fun e he => by simp [State.empty] at he,
      fun e he => by simp [State.empty] at he⟩
    (fun t op hS _ ht hop => ⟨generationsOrdered_step LMI t op hS ht.1,
      newestPresent_step LMI hL t op hS hop ht⟩) s h
  exact key.2.2

/-- The bound on `LEDGER_MAX_INTERVAL` in `reachable_newestPresent` cannot be dropped: with the
interval `2 ^ 32 - 1` the sums of lines 17 and 143 wrap, a run of well-formed calls leaves
an entry whose `newest` slot is empty while `oldest` is occupied, and the read of line 118 has
no result. -/
theorem newest_empty_of_wide_interval :
    (∀ op ∈ sampleOpsWide, op.WF) ∧
      (run 4294967295 State.empty sampleOpsWide).mCurrentValidations =
        [(1, ValidationPair.mk (some (sampleVal sampleN1 10 0).setTrusted) none)] ∧
      getCurrentValidationCount 0 (run 4294967295 State.empty sampleOpsWide) = none := by
  refine ⟨?_, by decide, by decide⟩
  intro op hop
  simp only [sampleOpsWide, List.mem_cons, List.mem_singleton, List.not_mem_nil, or_false] at hop
  rcases hop with rfl | rfl | rfl <;> simp [Op.WF, UINT32_MOD, sampleVal]

theorem getCurrentValidationCountLoop_eq (afterTime : Nat) (cur : List (Nat × ValidationPair))
    (h : NewestPresent cur) :
    ∀ count : Nat, getCurrentValidationCountLoop afterTime cur count =
      some (count + cur.countP (fun e => newestCounts afterTime e.2)) := by
  induction cur with
  | nil => intro c; simp [getCurrentValidationCountLoop]
  | cons e rest ih =>
    intro c
    have hrest : NewestPresent rest := fun e' he' => h e' (List.mem_cons_of_mem _ he')
    obtain ⟨k, p⟩ := e
    unfold getCurrentValidationCountLoop
    cases hn : p.newest with
    | none => exact absurd hn (h (k, p) (List.mem_cons_self _ _))
    | some n =>
      simp only
      cases hc : (n.trusted && decide (n.closeTime > afterTime))
      · simp [ih hrest, List.countP_cons, newestCounts, hn, hc]
      · simp [ih hrest, List.countP_cons, newestCounts, hn, hc, Nat.add_assoc, Nat.add_comm]

/-- C8: in every reachable state (`LEDGER_MAX_INTERVAL` being at most `2 ^ 32 - 3`)
`getCurrentValidationCount afterTime` returns the number of entries of `mCurrentValidations`
whose newest validation is trusted and has `closeTime > afterTime`, and the call leaves the
state, in particular `mCurrentValidations` and the stale queue, unchanged. -/
theorem getCurrentValidationCount_spec (LMI : Nat) (hL : LMI + 3 ≤ UINT32_MOD) (s : State)
    (h : Reachable LMI s) (afterTime : Nat) :
    getCurrentValidationCount afterTime s =
        some (s.mCurrentValidations.countP (fun e => newestCounts afterTime e.2)) ∧
      step LMI s (.getCurrentValidationCount afterTime) = s := by
  refine ⟨?_, rfl⟩
  unfold getCurrentValidationCount
  rw [getCurrentValidationCountLoop_eq afterTime _ (reachable_newestPresent LMI hL s h)]
  simp

/-- The count after two validations of N1, for `afterTime = 105`. -/
theorem getCurrentValidationCount_spec_witness :
    (20 + 3 ≤ UINT32_MOD ∧ Reachable 20 sampleS2) ∧
      (getCurrentValidationCount 105 sampleS2 =
          some (sampleS2.mCurrentValidations.countP (fun e => newestCounts 105 e.2)) ∧
        step 20 sampleS2 (.getCurrentValidationCount 105) = sampleS2) :=
  ⟨⟨by decide, sampleS2_reachable⟩,
    getCurrentValidationCount_spec 20 (by decide) sampleS2 sampleS2_reachable 105⟩

/-! ## The stale queue -/

theorem mapSet_split {β : Type} (k : Nat) (b b₀ : β) (m : List (Nat × β))
    (h : mapFind k m = some b₀) :
    ∃ l₁ l₂, m = l₁ ++ (k, b₀) :: l₂ ∧ mapSet k b m = l₁ ++ (k, b) :: l₂ := by
  induction m with
  | nil => simp [mapFind] at h
  | cons e rest ih =>
    obtain ⟨k₀, b₁⟩ := e
    by_cases hk : k₀ = k
    · subst hk
      simp only [mapFind, if_true, Option.some.injEq] at h
      subst h
      exact ⟨[], rest, rfl, by simp [mapSet]⟩
    · simp only [mapFind, hk, if_false] at h
      obtain ⟨l₁, l₂, h1, h2⟩ := ih h
      refine ⟨(k₀, b₁) :: l₁, l₂, by simp [h1], ?_⟩
      simp [mapSet, hk, h2]

theorem allSlots_append (l₁ l₂ : List (Nat × ValidationPair)) :
    allSlots (l₁ ++ l₂) = allSlots l₁ ++ allSlots l₂ := by
  simp [allSlots]

theorem allSlots_cons (e : Nat × ValidationPair) (l : List (Nat × ValidationPair)) :
    allSlots (e :: l) = e.2.slots ++ allSlots l := by
  simp [allSlots]

theorem slots_agedPair (LMI now : Nat) (p : ValidationPair) :
    (agedPair LMI now p).slots =
      p.slots.filter (fun v => !decide (now > u32add v.closeTime LMI)) := by
  obtain ⟨o, n⟩ := p
  cases o with
  | none =>
    cases n with
    | none => simp [agedPair, ValidationPair.slots, Option.filter]
    | some n =>
      by_cases hn : now > u32add n.closeTime LMI <;>
        simp [agedPair, ValidationPair.slots, Option.filter, hn]
  | some o =>
    cases n with
    | none =>
      by_cases ho : now > u32add o.closeTime LMI <;>
        simp [agedPair, ValidationPair.slots, Option.filter, ho]
    | some n =>
      by_cases ho : now > u32add o.closeTime LMI <;>
        by_cases hn : now > u32add n.closeTime LMI <;>
        simp [agedPair, ValidationPair.slots, Option.filter, ho, hn]

theorem allSlots_agedEntries (LMI now : Nat) (cur : List (Nat × ValidationPair)) :
    allSlots (agedEntries LMI now cur) =
      (allSlots cur).filter (fun v => !decide (now > u32add v.closeTime LMI)) := by
  induction cur with
  | nil => simp [agedEntries, allSlots]
  | cons e rest ih =>
    obtain ⟨k, p⟩ := e
    rw [agedEntries_cons, allSlots_cons, List.filter_append, ← ih, ← slots_agedPair]
    split
    · rename_i hk
      simp [ValidationPair.slots, hk.1, hk.2]
    · rw [allSlots_cons]

theorem addValidation_validations (LMI : Nat) (nodeInUNL : NewcoinAddress → Bool) (now : Nat)
    (v : SerializedValidation) (s : State) :
    (addValidation LMI nodeInUNL now v s).2.mValidations =
      (insertValidation v.ledgerHash v.signerPublic.nodeID (tagTrusted nodeInUNL v)
        (shareTrusted nodeInUNL v s).mValidations).1 := by
  rw [addValidation_snd]
  split
  · rw [updateCurrent_eq]
    simp only
    cases mapFind v.signerPublic.nodeID (shareTrusted nodeInUNL v s).mCurrentValidations with
    | none => rfl
    | some pair => simp only; split <;> rfl
  · rfl

/-- The by-ledger index after each operation. -/
theorem step_validations (LMI : Nat) (s : State) (op : Op) :
    (step LMI s op).mValidations =
      match op with
      | .addValidation nodeInUNL _ v =>
        (insertValidation v.ledgerHash v.signerPublic.nodeID (tagTrusted nodeInUNL v)
          (shareTrusted nodeInUNL v s).mValidations).1
      | _ => s.mValidations := by
  cases op <;> simp only [step]
  · exact addValidation_validations _ _ _ _ _
  · exact (getCurrentValidations_fields LMI _ s).2.2.1
  · exact (addDeadLedger_fields _ s).1
  · exact (flush_fields s).2.2.1
  · split <;> rfl
  · split <;> rfl

/-- An entry of the by-ledger index is never removed or replaced by line 29. -/
theorem storedAt_insertValidation_of_some (hash node : Nat) (val e : SerializedValidation)
    (vals : List (Nat × ValidationSet)) (h' n' : Nat) (h : storedAt h' n' vals = some e) :
    storedAt h' n' (insertValidation hash node val vals).1 = some e := by
  cases hs : storedAt hash node vals with
  | some e₀ => rw [insertValidation_of_stored _ _ _ e₀ _ hs]; exact h
  | none =>
    rw [storedAt_insertValidation _ _ _ _ hs]
    split
    · rename_i hk
      rw [← hk.1, ← hk.2, hs] at h
      simp at h
    · exact h

/-- An entry of the by-ledger index stays under its key through every operation, the same
object; the one thing that can change is its trusted mark, which line 14 sets when the object
itself is submitted again and its signer is in the UNL. -/
theorem storedAt_step (LMI : Nat) (s : State) (op : Op) (h' n' : Nat)
    (e : SerializedValidation) (h : storedAt h' n' s.mValidations = some e) :
    storedAt h' n' (step LMI s op).mValidations =
      some (match op with
        | .addValidation nodeInUNL _ v =>
          if resubmitsHeld nodeInUNL v s = true then seenAfterSetTrusted v.addr e else e
        | _ => e) := by
  rw [step_validations]
  cases op with
  | addValidation nodeInUNL now v =>
    simp only
    apply storedAt_insertValidation_of_some
    rw [storedAt_shareTrusted, h]
    rfl
  | _ => exact h

/-- An entry that is marked trusted is not changed by any operation. -/
theorem storedAt_step_of_trusted (LMI : Nat) (s : State) (op : Op) (h' n' : Nat)
    (e : SerializedValidation) (he : e.trusted = true)
    (h : storedAt h' n' s.mValidations = some e) :
    storedAt h' n' (step LMI s op).mValidations = some e := by
  rw [storedAt_step LMI s op h' n' e h]
  cases op with
  | addValidation nodeInUNL now v =>
    simp only
    split
    · rw [seenAfterSetTrusted_of_trusted _ _ he]
    · rfl
  | _ => rfl

theorem perm_displace {α : Type} (A B O N : List α) (v : α) :
    ((A ++ ((N ++ [v]) ++ B)) ++ O).Perm ((A ++ ((O ++ N) ++ B)) ++ [v]) := by
  rw [← Multiset.coe_eq_coe]
  simp only [← Multiset.coe_add]
  abel

/-- The effect of `addValidation` on the slots of the signer index: the displaced validations
`E` leave them for the stale queue, and the validation `F` that enters them was not in the
by-ledger index before and is in it afterwards. -/
theorem addValidation_effect (LMI : Nat) (nodeInUNL : NewcoinAddress → Bool) (now : Nat)
    (v : SerializedValidation) (s : State) (hS : SlotsTrusted s.mCurrentValidations)
    (hQ : QueueTrusted s.mStaleValidations) :
    ∃ E F : List SerializedValidation,
      (addValidation LMI nodeInUNL now v s).2.mStaleValidations = s.mStaleValidations ++ E ∧
      (allSlots (addValidation LMI nodeInUNL now v s).2.mCurrentValidations ++ E).Perm
        (allSlots s.mCurrentValidations ++ F) ∧
      (∀ w ∈ F, storedAt w.ledgerHash w.signerPublic.nodeID s.mValidations = none ∧
        storedAt w.ledgerHash w.signerPublic.nodeID
          (addValidation LMI nodeInUNL now v s).2.mValidations = some w) ∧
      F.length ≤ 1 ∧ (∀ w ∈ E, w ∈ allSlots s.mCurrentValidations) := by
  rw [addValidation_stale _ _ _ _ _ hQ, addValidation_current _ _ _ _ _ hS,
    addValidation_validations]
  by_cases hr : (addValidation LMI nodeInUNL now v s).1 = true
  · simp only [hr, if_true]
    have hnew : storedAt v.ledgerHash v.signerPublic.nodeID s.mValidations = none := by
      rw [addValidation_fst] at hr
      simp only [Bool.and_eq_true, Option.isNone_iff_eq_none] at hr
      exact hr.1
    rw [shareTrusted_of_new nodeInUNL v s hnew]
    have hF : ∀ w ∈ [tagTrusted nodeInUNL v],
        storedAt w.ledgerHash w.signerPublic.nodeID s.mValidations = none ∧
        storedAt w.ledgerHash w.signerPublic.nodeID
          (insertValidation v.ledgerHash v.signerPublic.nodeID (tagTrusted nodeInUNL v)
            s.mValidations).1 = some w := by
      intro w hw
      rw [List.mem_singleton.mp hw]
      simp only [tagTrusted_ledgerHash, tagTrusted_signerPublic]
      refine ⟨hnew, ?_⟩
      rw [storedAt_insertValidation _ _ _ _ hnew]
      simp
    cases hf : mapFind v.signerPublic.nodeID s.mCurrentValidations with
    | none =>
      refine ⟨[], [tagTrusted nodeInUNL v], rfl, ?_, hF, by simp, by simp⟩
      simp [allSlots_append, allSlots_cons, allSlots, ValidationPair.ofVal, ValidationPair.slots]
    | some pair =>
      simp only
      by_cases hd : displaces (tagTrusted nodeInUNL v) pair.newest = true
      · simp only [hd, if_true]
        refine ⟨pair.oldest.toList, [tagTrusted nodeInUNL v], rfl, ?_, hF, by simp, ?_⟩
        · obtain ⟨l₁, l₂, h1, h2⟩ := mapSet_split v.signerPublic.nodeID
            (ValidationPair.mk pair.newest (some (tagTrusted nodeInUNL v))) pair _ hf
          rw [h2]
          conv_rhs => rw [h1]
          simp only [allSlots_append, allSlots_cons, ValidationPair.slots, Option.toList]
          exact perm_displace _ _ _ _ _
        · intro w hw
          have := mem_of_mapFind _ _ _ hf
          simp only [allSlots, List.mem_flatMap]
          exact ⟨_, this, List.mem_append_left _ hw⟩
      · simp only [hd, if_false]
        exact ⟨[], [], rfl, by simp, by simp, by simp, by simp⟩
  · simp only [hr, if_false]
    exact ⟨[], [], rfl, by simp, by simp, by simp, by simp⟩

/-- The effect of any operation on the slots of the signer index and on the stale queue. -/
theorem step_effect (LMI : Nat) (s : State) (op : Op)
    (hS : SlotsTrusted s.mCurrentValidations) (hQ : QueueTrusted s.mStaleValidations) :
    ∃ F : List SerializedValidation,
      (op = Op.doWriteSwap ∨
        (step LMI s op).mStaleValidations = s.mStaleValidations ++ enqueuedBy LMI s op) ∧
      (allSlots (step LMI s op).mCurrentValidations ++ enqueuedBy LMI s op).Perm
        (allSlots s.mCurrentValidations ++ F) ∧
      (∀ w ∈ F, storedAt w.ledgerHash w.signerPublic.nodeID s.mValidations = none ∧
        storedAt w.ledgerHash w.signerPublic.nodeID (step LMI s op).mValidations = some w) ∧
      F.length ≤ 1 ∧ (∀ w ∈ enqueuedBy LMI s op, w ∈ allSlots s.mCurrentValidations) := by
  have quiet : ∀ t : State, t.mStaleValidations = s.mStaleValidations →
      t.mCurrentValidations = s.mCurrentValidations →
      ∃ F : List SerializedValidation,
        (t.mStaleValidations = s.mStaleValidations ++
          t.mStaleValidations.drop s.mStaleValidations.length) ∧
        (allSlots t.mCurrentValidations ++
          t.mStaleValidations.drop s.mStaleValidations.length).Perm
          (allSlots s.mCurrentValidations ++ F) ∧
        (∀ w ∈ F, storedAt w.ledgerHash w.signerPublic.nodeID s.mValidations = none ∧
          storedAt w.ledgerHash w.signerPublic.nodeID t.mValidations = some w) ∧
        F.length ≤ 1 ∧ (∀ w ∈ t.mStaleValidations.drop s.mStaleValidations.length,
          w ∈ allSlots s.mCurrentValidations) := by
    intro t h1 h2
    refine ⟨[], ?_, ?_, by simp, by simp, ?_⟩
    · rw [h1]; simp
    · rw [h1, h2]; simp
    · rw [h1]; simp
  cases op with
  | addValidation nodeInUNL now v =>
    obtain ⟨E, F, h1, h2, h3, h4, h5⟩ := addValidation_effect LMI nodeInUNL now v s hS hQ
    have hE : enqueuedBy LMI s (.addValidation nodeInUNL now v) = E := by
      simp only [enqueuedBy, step, h1, List.drop_left]
    rw [hE]
    exact ⟨F, Or.inr h1, h2, h3, h4, h5⟩
  | getCurrentValidations now =>
    obtain ⟨h1, h2, _, _⟩ := getCurrentValidations_fields LMI now s
    have hE : enqueuedBy LMI s (.getCurrentValidations now) =
        expiredSlots LMI now s.mCurrentValidations := by
      simp only [enqueuedBy, step, h2, List.drop_left]
    rw [hE]
    refine ⟨[], Or.inr h2, ?_, by simp, by simp, ?_⟩
    · simp only [step, h1, allSlots_agedEntries, expiredSlots, List.append_nil]
      have := List.filter_append_perm (fun v => decide (now > u32add v.closeTime LMI))
        (allSlots s.mCurrentValidations)
      exact (List.perm_append_comm).trans this
    · intro w hw
      exact (List.mem_filter.mp hw).1
  | flush =>
    obtain ⟨h1, h2, _, _⟩ := flush_fields s
    have hE : enqueuedBy LMI s .flush = allSlots s.mCurrentValidations := by
      simp only [enqueuedBy, step, h1, List.drop_left]
    rw [hE]
    refine ⟨[], Or.inr h1, ?_, by simp, by simp, fun w hw => hw⟩
    simp [step, h2, allSlots]
  | doWriteSwap =>
    refine ⟨[], Or.inl rfl, ?_, by simp, by simp, by simp [enqueuedBy]⟩
    have : (step LMI s .doWriteSwap).mCurrentValidations = s.mCurrentValidations := by
      simp only [step, doWriteSwap]; split <;> rfl
    simp [this, enqueuedBy]
  | doWriteExit =>
    obtain ⟨F, h1, h2⟩ := quiet (step LMI s .doWriteExit)
      (by simp only [step, doWriteExit]; split <;> rfl)
      (by simp only [step, doWriteExit]; split <;> rfl)
    exact ⟨F, Or.inr h1, h2⟩
  | addDeadLedger ledger =>
    obtain ⟨F, h1, h2⟩ := quiet (step LMI s (.addDeadLedger ledger))
      (addDeadLedger_fields _ s).2.2.1 (addDeadLedger_fields _ s).2.1
    exact ⟨F, Or.inr h1, h2⟩
  | getValidations _ =>
    obtain ⟨F, h1, h2⟩ := quiet s rfl rfl
    exact ⟨F, Or.inr h1, h2⟩
  | getValidationCount _ _ _ =>
    obtain ⟨F, h1, h2⟩ := quiet s rfl rfl
    exact ⟨F, Or.inr h1, h2⟩
  | getTrustedValidationCount _ =>
    obtain ⟨F, h1, h2⟩ := quiet s rfl rfl
    exact ⟨F, Or.inr h1, h2⟩
  | getCurrentValidationCount _ =>
    obtain ⟨F, h1, h2⟩ := quiet s rfl rfl
    exact ⟨F, Or.inr h1, h2⟩
  | isDeadLedger _ =>
    obtain ⟨F, h1, h2⟩ := quiet s rfl rfl
    exact ⟨F, Or.inr h1, h2⟩

/-- One operation keeps `StaleHistoryInv`, the history growing by what the operation appends;
and what it appends occupied a slot before and occupies none afterwards. -/
theorem staleHistoryInv_step (LMI : Nat) (s : State) (op : Op)
    (hist : List SerializedValidation) (hS : SlotsTrusted s.mCurrentValidations)
    (hQ : QueueTrusted s.mStaleValidations) (h : StaleHistoryInv s hist) :
    StaleHistoryInv (step LMI s op) (hist ++ enqueuedBy LMI s op) ∧
      ∀ v ∈ enqueuedBy LMI s op, v ∈ allSlots s.mCurrentValidations ∧
        v ∉ allSlots (step LMI s op).mCurrentValidations := by
  obtain ⟨hidx, hnd, hhnd, hhs, hhidx, htr⟩ := h
  obtain ⟨F, _, hperm, hF, hFlen, hE⟩ := step_effect LMI s op hS hQ
  have hFnd : F.Nodup := by
    match F, hFlen with
    | [], _ => exact List.nodup_nil
    | [a], _ => exact List.nodup_singleton a
  have hSF : (allSlots s.mCurrentValidations ++ F).Nodup := by
    rw [List.nodup_append]
    refine ⟨hnd, hFnd, ?_⟩
    intro w hw hwF
    have h1 := hidx w hw
    rw [(hF w hwF).1] at h1
    exact absurd h1 (by simp)
  have hall : (allSlots (step LMI s op).mCurrentValidations ++ enqueuedBy LMI s op).Nodup :=
    hperm.nodup_iff.mpr hSF
  obtain ⟨hnd', hEnd, hdisj⟩ := List.nodup_append.mp hall
  have hmem : ∀ w, w ∈ allSlots (step LMI s op).mCurrentValidations →
      w ∈ allSlots s.mCurrentValidations ∨ w ∈ F := by
    intro w hw
    exact List.mem_append.mp (hperm.subset (List.mem_append_left _ hw))
  refine ⟨⟨?_, hnd', ?_, ?_, ?_, ?_⟩, ?_⟩
  · intro w hw
    rcases hmem w hw with h1 | h1
    · exact storedAt_step_of_trusted LMI s op _ _ w (hS w h1) (hidx w h1)
    · exact (hF w h1).2
  · rw [List.nodup_append]
    exact ⟨hhnd, hEnd, fun w hw hwE => hhs w hw (hE w hwE)⟩
  · intro w hw hw'
    rcases List.mem_append.mp hw with h1 | h1
    · rcases hmem w hw' with h2 | h2
      · exact hhs w h1 h2
      · have h3 := hhidx w h1
        rw [(hF w h2).1] at h3
        exact absurd h3 (by simp)
    · exact hdisj hw' h1
  · intro w hw
    rcases List.mem_append.mp hw with h1 | h1
    · exact storedAt_step_of_trusted LMI s op _ _ w (htr w h1) (hhidx w h1)
    · exact storedAt_step_of_trusted LMI s op _ _ w (hS w (hE w h1)) (hidx w (hE w h1))
  · intro w hw
    rcases List.mem_append.mp hw with h1 | h1
    · exact htr w h1
    · exact hS w (hE w h1)
  · intro w hw
    exact ⟨hE w hw, fun hw' => hdisj hw' hw⟩

theorem staleHistoryInv_run (LMI : Nat) (ops : List Op) :
    ∀ (s : State) (hist : List SerializedValidation),
      SlotsTrusted s.mCurrentValidations → QueueTrusted s.mStaleValidations →
      StaleHistoryInv s hist →
      StaleHistoryInv (run LMI s ops) (hist ++ enqueuedOver LMI s ops) := by
  induction ops with
  | nil => intro s hist _ _ h; simpa [run, enqueuedOver] using h
  | cons op rest ih =>
    intro s hist hS hQ h
    have := ih _ _ (slotsTrusted_step LMI s op hS) (queueTrusted_step LMI s op hS hQ)
      (staleHistoryInv_step LMI s op hist hS hQ h).1
    simpa [run, enqueuedOver, List.append_assoc] using this

theorem staleHistoryInv_empty : StaleHistoryInv State.empty [] := by
  simp [StaleHistoryInv, State.empty, allSlots]

theorem enqueuedOver_append (LMI : Nat) (ops₁ ops₂ : List Op) :
    ∀ s : State, enqueuedOver LMI s (ops₁ ++ ops₂) =
      enqueuedOver LMI s ops₁ ++ enqueuedOver LMI (run LMI s ops₁) ops₂ := by
  induction ops₁ with
  | nil => intro s; simp [enqueuedOver, run]
  | cons op rest ih => intro s; simp [enqueuedOver, run, ih, List.append_assoc]

/-- C10: in the state reached from the empty collection by any sequence of operations, whatever
an operation appends to the stale queue (the queue afterwards is the queue before followed by
it, the writer's swap aside) occupied a slot of `mCurrentValidations` immediately before the
operation and occupies no slot after it; and the list of all validations appended to the stale
queue over the whole run, this operation included, has no repetition. -/
theorem stale_enqueued_once (LMI : Nat) (ops : List Op) (op : Op) :
    (op = Op.doWriteSwap ∨
        (step LMI (run LMI State.empty ops) op).mStaleValidations =
          (run LMI State.empty ops).mStaleValidations ++
            enqueuedBy LMI (run LMI State.empty ops) op) ∧
      (∀ v ∈ enqueuedBy LMI (run LMI State.empty ops) op,
        v ∈ allSlots (run LMI State.empty ops).mCurrentValidations ∧
          v ∉ allSlots (step LMI (run LMI State.empty ops) op).mCurrentValidations) ∧
      (enqueuedOver LMI State.empty (ops ++ [op])).Nodup := by
  have hT := heldTrusted_run LMI ops State.empty heldTrusted_empty
  have h0 := staleHistoryInv_run LMI ops State.empty [] heldTrusted_empty.1
    heldTrusted_empty.2 staleHistoryInv_empty
  have h1 := staleHistoryInv_step LMI (run LMI State.empty ops) op _ hT.1 hT.2 h0
  obtain ⟨F, hst, _⟩ := step_effect LMI (run LMI State.empty ops) op hT.1 hT.2
  refine ⟨hst, h1.2, ?_⟩
  rw [enqueuedOver_append]
  simpa [enqueuedOver] using h1.1.2.2.1

/-- The third validation of N1 displaces its first one, which is what the call appends to the
stale queue. -/
theorem stale_enqueued_once_witness :
    enqueuedBy 20 (run 20 State.empty sampleOps2)
        (.addValidation sampleUNL 118 (sampleVal sampleN1 12 120)) =
          [(sampleVal sampleN1 10 101).setTrusted] ∧
      ((Op.addValidation sampleUNL 118 (sampleVal sampleN1 12 120) = Op.doWriteSwap ∨
        (step 20 (run 20 State.empty sampleOps2)
            (.addValidation sampleUNL 118 (sampleVal sampleN1 12 120))).mStaleValidations =
          (run 20 State.empty sampleOps2).mStaleValidations ++
            enqueuedBy 20 (run 20 State.empty sampleOps2)
              (.addValidation sampleUNL 118 (sampleVal sampleN1 12 120))) ∧
      (∀ v ∈ enqueuedBy 20 (run 20 State.empty sampleOps2)
          (.addValidation sampleUNL 118 (sampleVal sampleN1 12 120)),
        v ∈ allSlots (run 20 State.empty sampleOps2).mCurrentValidations ∧
          v ∉ allSlots (step 20 (run 20 State.empty sampleOps2)
            (.addValidation sampleUNL 118 (sampleVal sampleN1 12 120))).mCurrentValidations) ∧
      (enqueuedOver 20 State.empty
        (sampleOps2 ++ [.addValidation sampleUNL 118 (sampleVal sampleN1 12 120)])).Nodup) :=
  ⟨by decide, stale_enqueued_once 20 sampleOps2
    (.addValidation sampleUNL 118 (sampleVal sampleN1 12 120))⟩

/-! ## Machine arithmetic without wrap-around -/

/-- The sum of two `uint32` values that fits in 32 bits is the mathematical sum. -/
theorem u32add_of_lt (a b : Nat) (h : a + b < UINT32_MOD) : u32add a b = a + b :=
  Nat.mod_eq_of_lt h

/-- The difference of two `uint32` values with `b ≤ a` is the mathematical difference. -/
theorem u32sub_of_le (a b : Nat) (ha : a < UINT32_MOD) (hb : b ≤ a) : u32sub a b = a - b := by
  unfold u32sub
  unfold UINT32_MOD at *
  omega

/-- Below the subtrahend the difference wraps to the top of the range. -/
theorem u32sub_of_lt (a b : Nat) (hb : b < UINT32_MOD) (hab : a < b) :
    u32sub a b = UINT32_MOD - (b - a) := by
  unfold u32sub
  unfold UINT32_MOD at *
  omega

/-! ## The dead-ledger list -/

theorem isDeadLedger_iff (ledger : Nat) (l : List Nat) :
    isDeadLedger ledger l = true ↔ ledger ∈ l := by
  induction l with
  | nil => simp [isDeadLedger]
  | cons h rest ih =>
    unfold isDeadLedger
    by_cases hh : h = ledger
    · simp [hh]
    · simp [hh, ih, Ne.symm hh]

theorem isDeadLedger_eq_false_iff (ledger : Nat) (l : List Nat) :
    isDeadLedger ledger l = false ↔ ledger ∉ l := by
  rw [← isDeadLedger_iff]; simp

/-- The list after `addDeadLedger`, by the cases of lines 185-190. -/
theorem addDeadLedger_list (ledger : Nat) (s : State) :
    (addDeadLedger ledger s).mDeadLedgers =
      if ledger ∈ s.mDeadLedgers then s.mDeadLedgers
      else if s.mDeadLedgers.length < 127 then s.mDeadLedgers ++ [ledger]
      else s.mDeadLedgers.tail ++ [ledger] := by
  unfold addDeadLedger
  by_cases hm : ledger ∈ s.mDeadLedgers
  · simp [(isDeadLedger_iff _ _).mpr hm, hm]
  · have hf : isDeadLedger ledger s.mDeadLedgers = false := (isDeadLedger_eq_false_iff _ _).mpr hm
    simp only [hf, Bool.false_eq_true, if_false, hm]
    by_cases hl : s.mDeadLedgers.length < 127
    · have h128 : ¬ (s.mDeadLedgers ++ [ledger]).length ≥ 128 := by
        rw [List.length_append, List.length_singleton]; omega
      rw [if_neg h128, if_pos hl]
    · have h128 : (s.mDeadLedgers ++ [ledger]).length ≥ 128 := by
        rw [List.length_append, List.length_singleton]; omega
      rw [if_pos h128, if_neg hl]
      cases hd : s.mDeadLedgers with
      | nil => simp [hd] at hl
      | cons a rest => simp

theorem addDeadLedgers_append (hs₁ hs₂ : List Nat) :
    ∀ s : State, addDeadLedgers (hs₁ ++ hs₂) s = addDeadLedgers hs₂ (addDeadLedgers hs₁ s) := by
  induction hs₁ with
  | nil => intro s; rfl
  | cons h rest ih => intro s; simp [addDeadLedgers, ih]

theorem addDeadLedgers_concat (hs : List Nat) (h : Nat) (s : State) :
    addDeadLedgers (hs ++ [h]) s = addDeadLedger h (addDeadLedgers hs s) := by
  rw [addDeadLedgers_append]; rfl

/-- Fewer than 128 pairwise distinct hashes added to the empty list are all kept, in order. -/
theorem addDeadLedgers_of_short (hs : List Nat) (hnd : hs.Nodup) (hlen : hs.length ≤ 127) :
    (addDeadLedgers hs State.empty).mDeadLedgers = hs := by
  induction hs using List.reverseRecOn with
  | nil => rfl
  | append_singleton rest h ih =>
    rw [addDeadLedgers_append]
    simp only [addDeadLedgers]
    rw [addDeadLedger_list]
    have hnd' := List.nodup_append.mp hnd
    have hlen' : rest.length < 127 := by simp at hlen; omega
    rw [ih hnd'.1 (by omega)]
    have hnot : h ∉ rest := fun hm => hnd'.2.2 hm (List.mem_singleton_self h)
    simp [hnot, hlen']

theorem addDeadLedger_bounded (ledger : Nat) (s : State)
    (h : s.mDeadLedgers.length ≤ 127 ∧ s.mDeadLedgers.Nodup) :
    (addDeadLedger ledger s).mDeadLedgers.length ≤ 127 ∧
      (addDeadLedger ledger s).mDeadLedgers.Nodup := by
  rw [addDeadLedger_list]
  by_cases hm : ledger ∈ s.mDeadLedgers
  · simpa [hm] using h
  · simp only [hm, if_false]
    by_cases hl : s.mDeadLedgers.length < 127
    · simp only [hl, if_true, List.length_append, List.length_singleton]
      refine ⟨by omega, ?_⟩
      rw [List.nodup_append]
      exact ⟨h.2, List.nodup_singleton _, fun a ha hb => hm (List.mem_singleton.mp hb ▸ ha)⟩
    · simp only [hl, if_false, List.length_append, List.length_singleton, List.length_tail]
      refine ⟨by omega, ?_⟩
      rw [List.nodup_append]
      refine ⟨h.2.sublist (List.tail_sublist _), List.nodup_singleton _, ?_⟩
      intro a ha hb
      exact hm (List.mem_singleton.mp hb ▸ List.mem_of_mem_tail ha)

theorem addDeadLedgers_bounded (hs : List Nat) :
    ∀ s : State, (s.mDeadLedgers.length ≤ 127 ∧ s.mDeadLedgers.Nodup) →
      (addDeadLedgers hs s).mDeadLedgers.length ≤ 127 ∧
        (addDeadLedgers hs s).mDeadLedgers.Nodup := by
  induction hs with
  | nil => intro s h; exact h
  | cons h rest ih => intro s hs; exact ih _ (addDeadLedger_bounded h s hs)

theorem addDeadLedger_of_mem (ledger : Nat) (s : State) (h : ledger ∈ s.mDeadLedgers) :
    addDeadLedger ledger s = s := by
  unfold addDeadLedger
  simp [(isDeadLedger_iff _ _).mpr h]

theorem mem_addDeadLedger (ledger : Nat) (s : State) :
    ledger ∈ (addDeadLedger ledger s).mDeadLedgers := by
  rw [addDeadLedger_list]
  by_cases hm : ledger ∈ s.mDeadLedgers
  · simp [hm]
  · simp only [hm, if_false]
    split <;> simp

/-- The claim of C11 fails on 128 pairwise distinct hashes: after `addDeadLedger` was called
with the hashes 0, 1, ..., 127 on the empty list, the list holds 127 hashes and hash 0 is no
longer in it. -/
theorem addDeadLedgers_128_drops_first :
    (List.range 128).Nodup ∧ (List.range 128).length = 128 ∧
      (addDeadLedgers (List.range 128) State.empty).mDeadLedgers.length = 127 ∧
      isDeadLedger 0 (addDeadLedgers (List.range 128) State.empty).mDeadLedgers = false := by
  have hlist : (addDeadLedgers (List.range 128) State.empty).mDeadLedgers =
      (List.range 127).tail ++ [127] := by
    rw [show List.range 128 = List.range 127 ++ [127] from List.range_succ 127]
    rw [addDeadLedgers_concat]
    rw [addDeadLedger_list, addDeadLedgers_of_short _ (List.nodup_range 127) (by simp)]
    simp
  refine ⟨List.nodup_range 128, by simp, ?_, ?_⟩
  · rw [hlist]; simp
  · rw [hlist, isDeadLedger_eq_false_iff]
    intro h
    rcases List.mem_append.mp h with h | h
    · have hnd : (List.range 127).Nodup := List.nodup_range 127
      rw [show List.range 127 = 0 :: (List.range 127).tail by rfl] at hnd
      exact (List.nodup_cons.mp hnd).1 h
    · simp at h

/-- C11 as amended: `addDeadLedger` of a hash that is not in the list appends it, and removes
an entry exactly when the list already holds 127 entries or more, the entry removed being the
front, that is the earliest added; so after `addDeadLedger` was called with at most 127
pairwise distinct hashes on the empty list, `isDeadLedger` is true for all of them. -/
theorem addDeadLedger_fifo (ledger : Nat) (s : State)
    (hnot : isDeadLedger ledger s.mDeadLedgers = false)
    (hs : List Nat) (hnd : hs.Nodup) (hlen : hs.length ≤ 127) :
    (addDeadLedger ledger s).mDeadLedgers =
        (if s.mDeadLedgers.length < 127 then s.mDeadLedgers ++ [ledger]
          else s.mDeadLedgers.tail ++ [ledger]) ∧
      (addDeadLedgers hs State.empty).mDeadLedgers = hs ∧
      ∀ h ∈ hs, isDeadLedger h (addDeadLedgers hs State.empty).mDeadLedgers = true := by
  refine ⟨?_, addDeadLedgers_of_short hs hnd hlen, ?_⟩
  · rw [addDeadLedger_list]
    simp [(isDeadLedger_eq_false_iff _ _).mp hnot]
  · intro h hh
    rw [addDeadLedgers_of_short hs hnd hlen]
    exact (isDeadLedger_iff _ _).mpr hh

/-- Hash 5 added to the empty list, and the three hashes 1, 2, 3 added in sequence. -/
theorem addDeadLedger_fifo_witness :
    (isDeadLedger 5 State.empty.mDeadLedgers = false ∧ [1, 2, 3].Nodup ∧
        [1, 2, 3].length ≤ 127) ∧
      ((addDeadLedger 5 State.empty).mDeadLedgers =
          (if State.empty.mDeadLedgers.length < 127 then State.empty.mDeadLedgers ++ [5]
            else State.empty.mDeadLedgers.tail ++ [5]) ∧
        (addDeadLedgers [1, 2, 3] State.empty).mDeadLedgers = [1, 2, 3] ∧
        ∀ h ∈ [1, 2, 3],
          isDeadLedger h (addDeadLedgers [1, 2, 3] State.empty).mDeadLedgers = true) :=
  ⟨⟨by decide, by decide, by decide⟩,
    addDeadLedger_fifo 5 State.empty (by decide) [1, 2, 3] (by decide) (by decide)⟩

/-- C12: after any sequence of `addDeadLedger` calls on the empty list, the list holds at most
128 hashes and no hash twice, `addDeadLedger` of a hash already present leaves the state
unchanged, and `isDeadLedger h` is true right after `addDeadLedger h`. -/
theorem addDeadLedgers_invariant (hs : List Nat) :
    (addDeadLedgers hs State.empty).mDeadLedgers.length ≤ 128 ∧
      (addDeadLedgers hs State.empty).mDeadLedgers.Nodup ∧
      (∀ h, isDeadLedger h (addDeadLedgers hs State.empty).mDeadLedgers = true →
        addDeadLedger h (addDeadLedgers hs State.empty) = addDeadLedgers hs State.empty) ∧
      ∀ h, isDeadLedger h
        (addDeadLedger h (addDeadLedgers hs State.empty)).mDeadLedgers = true := by
  have hb := addDeadLedgers_bounded hs State.empty
    ⟨by simp [State.empty], by simp [State.empty]⟩
  refine ⟨by omega, hb.2, ?_, ?_⟩
  · intro h hh
    exact addDeadLedger_of_mem h _ ((isDeadLedger_iff _ _).mp hh)
  · intro h
    exact (isDeadLedger_iff _ _).mpr (mem_addDeadLedger h _)

/-- The invariant after the hashes 1, 2, 1 were added, with hash 2 added again. -/
theorem addDeadLedgers_invariant_witness :
    isDeadLedger 2 (addDeadLedgers [1, 2, 1] State.empty).mDeadLedgers = true ∧
      addDeadLedger 2 (addDeadLedgers [1, 2, 1] State.empty) =
        addDeadLedgers [1, 2, 1] State.empty :=
  ⟨by decide, (addDeadLedgers_invariant [1, 2, 1]).2.2.1 2 (by decide)⟩

/-! ## The boundary of the currency window -/

/-- The claim of C14 fails at both ends of the clock range (with `LEDGER_MAX_INTERVAL = 20`):
at clock value 0 a new validation of the trusted node N1 with close time `0 + 3` is not
current, because `3 - 4` wraps to `2 ^ 32 - 1`; and at clock value `2 ^ 32 - 4` one with close
time `now + 3` is not current, because `closeTime + 20` wraps to 19. -/
theorem addValidation_plus3_rejected :
    (sampleUNL (sampleVal sampleN1 10 3).signerPublic = true ∧
      mapFind (sampleVal sampleN1 10 3).signerPublic.nodeID
        (getValidations (sampleVal sampleN1 10 3).ledgerHash State.empty) = none ∧
      (sampleVal sampleN1 10 3).closeTime = 0 + 3 ∧
      (addValidation 20 sampleUNL 0 (sampleVal sampleN1 10 3) State.empty).1 = false) ∧
    (sampleUNL (sampleVal sampleN1 10 4294967295).signerPublic = true ∧
      mapFind (sampleVal sampleN1 10 4294967295).signerPublic.nodeID
        (getValidations (sampleVal sampleN1 10 4294967295).ledgerHash State.empty) = none ∧
      (sampleVal sampleN1 10 4294967295).closeTime = 4294967292 + 3 ∧
      (addValidation 20 sampleUNL 4294967292 (sampleVal sampleN1 10 4294967295)
        State.empty).1 = false) := by
  decide

/-- C14 as amended: for a validation whose signer is in the UNL and whose pair (ledger hash,
node id) is not yet in `mValidations`, and every clock value `now`: when
`closeTime = now + 4`, also when that sum is taken in 32 bits, `addValidation` returns false;
when `closeTime = now + 3`, `1 ≤ now` and `now + 3 + LEDGER_MAX_INTERVAL < 2 ^ 32`, it returns
true; and with `LEDGER_MAX_INTERVAL + 3 ≤ 2 ^ 32` these two conditions on `now` are the only
way for it to return true at `closeTime = now + 3`. -/
theorem addValidation_boundary (LMI : Nat) (nodeInUNL : NewcoinAddress → Bool) (now : Nat)
    (v : SerializedValidation) (s : State)
    (hnew : mapFind v.signerPublic.nodeID (getValidations v.ledgerHash s) = none)
    (hunl : nodeInUNL v.signerPublic = true) :
    (v.closeTime = now + 3 → 1 ≤ now → now + 3 + LMI < UINT32_MOD →
        (addValidation LMI nodeInUNL now v s).1 = true) ∧
      (v.closeTime = now + 4 → (addValidation LMI nodeInUNL now v s).1 = false) ∧
      (v.closeTime = u32add now 4 → (addValidation LMI nodeInUNL now v s).1 = false) ∧
      (v.closeTime = now + 3 → LMI + 3 ≤ UINT32_MOD →
        (addValidation LMI nodeInUNL now v s).1 = true →
          1 ≤ now ∧ now + 3 + LMI < UINT32_MOD) := by
  rw [getValidations_eq, ← storedAt_def] at hnew
  rw [addValidation_fst, hnew, hunl]
  simp only [Option.isNone_none, Bool.true_and]
  unfold isCurrentAt u32sub u32add
  unfold UINT32_MOD at *
  refine ⟨?_, ?_, ?_, ?_⟩
  · intro hc hpos hfit
    rw [hc]
    simp only [Bool.and_eq_true, decide_eq_true_eq]
    omega
  · intro hc
    rw [hc]
    by_contra hcon
    simp only [Bool.not_eq_false, Bool.and_eq_true, decide_eq_true_eq] at hcon
    omega
  · intro hc
    rw [hc]
    by_contra hcon
    simp only [Bool.not_eq_false, Bool.and_eq_true, decide_eq_true_eq] at hcon
    omega
  · intro hc hL hcur
    rw [hc] at hcur
    simp only [Bool.and_eq_true, decide_eq_true_eq] at hcur
    omega

/-- Clock value 100 with `LEDGER_MAX_INTERVAL = 20`: close time 103 is current, close time 104
is not; and at clock value `2 ^ 32 - 4`, where the claim fails for `now + 3`, the close time
`now + 4`, which wraps to 0, is not current either. -/
theorem addValidation_boundary_witness :
    (mapFind (sampleVal sampleN1 10 103).signerPublic.nodeID
        (getValidations (sampleVal sampleN1 10 103).ledgerHash State.empty) = none ∧
      sampleUNL (sampleVal sampleN1 10 103).signerPublic = true ∧
      1 ≤ 100 ∧ 100 + 3 + 20 < UINT32_MOD) ∧
    (addValidation 20 sampleUNL 100 (sampleVal sampleN1 10 103) State.empty).1 = true ∧
    (addValidation 20 sampleUNL 100 (sampleVal sampleN1 10 104) State.empty).1 = false ∧
    (addValidation 20 sampleUNL 4294967292 (sampleVal sampleN1 10 0) State.empty).1 = false :=
  ⟨⟨by decide, by decide, by decide, by decide⟩,
    (addValidation_boundary 20 sampleUNL 100 (sampleVal sampleN1 10 103) State.empty
      (by decide) (by decide)).1 rfl (by decide) (by decide),
    (addValidation_boundary 20 sampleUNL 100 (sampleVal sampleN1 10 104) State.empty
      (by decide) (by decide)).2.1 rfl,
    (addValidation_boundary 20 sampleUNL 4294967292 (sampleVal sampleN1 10 0) State.empty
      (by decide) (by decide)).2.2.1 (by decide)⟩

/-! ## The generational update, case by case -/

theorem mapFind_insertValidation_of_ne (hash node : Nat) (val : SerializedValidation)
    (vals : List (Nat × ValidationSet)) (h' : Nat) (hne : h' ≠ hash) :
    mapFind h' (insertValidation hash node val vals).1 = mapFind h' vals := by
  unfold insertValidation mapIndex
  simp only [mapFind_mapSet, Ne.symm hne, if_false]
  cases hb : mapFind hash vals with
  | some vs => rfl
  | none =>
    simp only [mapFind_append, mapFind, Ne.symm hne, if_false]
    cases mapFind h' vals <;> rfl

/-- The flag returned for a new validation of a signer in the UNL, inside the currency
window. -/
theorem addValidation_fst_of_current (LMI : Nat) (nodeInUNL : NewcoinAddress → Bool)
    (now : Nat) (v : SerializedValidation) (s : State)
    (hnew : storedAt v.ledgerHash v.signerPublic.nodeID s.mValidations = none)
    (hunl : nodeInUNL v.signerPublic = true)
    (hwin : now > u32sub v.closeTime 4 ∧ now < u32add v.closeTime LMI) :
    (addValidation LMI nodeInUNL now v s).1 = true := by
  rw [addValidation_fst, hnew, hunl]
  simp [isCurrentAt, hwin.1, hwin.2]

/-- The state left for such a validation. -/
theorem addValidation_snd_of_current (LMI : Nat) (nodeInUNL : NewcoinAddress → Bool)
    (now : Nat) (v : SerializedValidation) (s : State)
    (hnew : storedAt v.ledgerHash v.signerPublic.nodeID s.mValidations = none)
    (hunl : nodeInUNL v.signerPublic = true)
    (hwin : now > u32sub v.closeTime 4 ∧ now < u32add v.closeTime LMI) :
    (addValidation LMI nodeInUNL now v s).2 =
      updateCurrent v.signerPublic.nodeID v.setTrusted
        { s with mValidations := (insertValidation v.ledgerHash v.signerPublic.nodeID
            v.setTrusted s.mValidations).1 } := by
  rw [addValidation_snd_of_true LMI nodeInUNL now v s
    (addValidation_fst_of_current LMI nodeInUNL now v s hnew hunl hwin),
    tagTrusted_of_inUNL nodeInUNL v hunl]

/-- C15: for a validation `v` that is new to `mValidations`, from a signer in the UNL and
inside the currency window: when the signer has an entry whose `newest` is `n` and
`v.closeTime > n.closeTime`, the entry becomes `(oldest = n, newest = v)`, the stale queue
gains exactly the former `oldest` if there was one (and then the writer is requested) and
nothing otherwise; when the signer has no entry, the entry becomes
`(oldest = none, newest = v)` and the stale queue is unchanged; no other signer's entry and no
other ledger's set changes. -/
theorem addValidation_newer (LMI : Nat) (nodeInUNL : NewcoinAddress → Bool) (now : Nat)
    (v : SerializedValidation) (s : State)
    (hnew : mapFind v.signerPublic.nodeID (getValidations v.ledgerHash s) = none)
    (hunl : nodeInUNL v.signerPublic = true)
    (hwin : now > u32sub v.closeTime 4 ∧ now < u32add v.closeTime LMI) :
    (∀ pair n, mapFind v.signerPublic.nodeID s.mCurrentValidations = some pair →
        pair.newest = some n → v.closeTime > n.closeTime →
        mapFind v.signerPublic.nodeID
            (addValidation LMI nodeInUNL now v s).2.mCurrentValidations =
          some (ValidationPair.mk (some n) (some v.setTrusted)) ∧
        (addValidation LMI nodeInUNL now v s).2.mStaleValidations =
          s.mStaleValidations ++ pair.oldest.toList ∧
        (pair.oldest.isSome = true → (addValidation LMI nodeInUNL now v s).2.mWriting = true)) ∧
      (mapFind v.signerPublic.nodeID s.mCurrentValidations = none →
        mapFind v.signerPublic.nodeID
            (addValidation LMI nodeInUNL now v s).2.mCurrentValidations =
          some (ValidationPair.mk none (some v.setTrusted)) ∧
        (addValidation LMI nodeInUNL now v s).2.mStaleValidations = s.mStaleValidations) ∧
      (∀ k, k ≠ v.signerPublic.nodeID →
        mapFind k (addValidation LMI nodeInUNL now v s).2.mCurrentValidations =
          mapFind k s.mCurrentValidations) ∧
      (∀ h, h ≠ v.ledgerHash →
        mapFind h (addValidation LMI nodeInUNL now v s).2.mValidations =
          mapFind h s.mValidations) := by
  rw [getValidations_eq, ← storedAt_def] at hnew
  rw [addValidation_snd_of_current LMI nodeInUNL now v s hnew hunl hwin, updateCurrent_eq]
  refine ⟨?_, ?_, ?_, ?_⟩
  · intro pair n hf hn hgt
    have hd : displaces v.setTrusted pair.newest = true := by
      rw [hn]; simpa [displaces] using hgt
    simp only [hf]
    rw [if_pos hd]
    refine ⟨?_, rfl, ?_⟩
    · simp only [mapFind_mapSet, if_true, hf, Option.map_some', hn]
    · intro ho
      simp [ho]
  · intro hf
    simp only [hf, and_true]
    simp [mapFind_append, hf, mapFind, ValidationPair.ofVal]
  · intro k hk
    cases hf : mapFind v.signerPublic.nodeID s.mCurrentValidations with
    | none =>
      simp only [mapFind_append, mapFind, Ne.symm hk, if_false]
      cases mapFind k s.mCurrentValidations <;> rfl
    | some pair =>
      simp only
      split
      · simp only [mapFind_mapSet, Ne.symm hk, if_false]
      · rfl
  · intro h hh
    cases hf : mapFind v.signerPublic.nodeID s.mCurrentValidations with
    | none => exact mapFind_insertValidation_of_ne _ _ _ _ _ hh
    | some pair =>
      simp only
      split
      · exact mapFind_insertValidation_of_ne _ _ _ _ _ hh
      · exact mapFind_insertValidation_of_ne _ _ _ _ _ hh

/-- C16: for a validation `v` that is new to `mValidations`, from a signer in the UNL and
inside the currency window, whose signer has an entry with `newest = n` and
`v.closeTime ≤ n.closeTime`: `addValidation` returns true, leaves `mCurrentValidations` and the
stale queue unchanged, and holds `v` in `mValidations`. -/
theorem addValidation_not_newer (LMI : Nat) (nodeInUNL : NewcoinAddress → Bool) (now : Nat)
    (v : SerializedValidation) (s : State)
    (hnew : mapFind v.signerPublic.nodeID (getValidations v.ledgerHash s) = none)
    (hunl : nodeInUNL v.signerPublic = true)
    (hwin : now > u32sub v.closeTime 4 ∧ now < u32add v.closeTime LMI)
    (pair : ValidationPair) (n : SerializedValidation)
    (hentry : mapFind v.signerPublic.nodeID s.mCurrentValidations = some pair)
    (hn : pair.newest = some n) (hle : v.closeTime ≤ n.closeTime) :
    (addValidation LMI nodeInUNL now v s).1 = true ∧
      (addValidation LMI nodeInUNL now v s).2.mCurrentValidations = s.mCurrentValidations ∧
      (addValidation LMI nodeInUNL now v s).2.mStaleValidations = s.mStaleValidations ∧
      mapFind v.signerPublic.nodeID
        (getValidations v.ledgerHash (addValidation LMI nodeInUNL now v s).2) =
          some v.setTrusted := by
  rw [getValidations_eq, ← storedAt_def] at hnew
  refine ⟨addValidation_fst_of_current LMI nodeInUNL now v s hnew hunl hwin, ?_⟩
  rw [getValidations_eq, ← storedAt_def,
    addValidation_snd_of_current LMI nodeInUNL now v s hnew hunl hwin, updateCurrent_eq]
  have hd : displaces v.setTrusted pair.newest = false := by
    rw [hn]; simpa [displaces] using hle
  simp only [hentry, hd, Bool.false_eq_true, if_false, true_and]
  rw [storedAt_insertValidation _ _ _ _ hnew]
  simp

/-- The third validation of N1 (ledger 12, close time 120, at clock value 118) submitted to
the collection that holds its first two. -/
theorem addValidation_newer_witness :
    (mapFind (sampleVal sampleN1 12 120).signerPublic.nodeID
        (getValidations (sampleVal sampleN1 12 120).ledgerHash sampleS2) = none ∧
      sampleUNL (sampleVal sampleN1 12 120).signerPublic = true ∧
      (118 > u32sub (sampleVal sampleN1 12 120).closeTime 4 ∧
        118 < u32add (sampleVal sampleN1 12 120).closeTime 20)) ∧
    (mapFind (sampleVal sampleN1 12 120).signerPublic.nodeID
        (addValidation 20 sampleUNL 118 (sampleVal sampleN1 12 120) sampleS2).2.mCurrentValidations =
          some (ValidationPair.mk (some (sampleVal sampleN1 11 110).setTrusted)
            (some (sampleVal sampleN1 12 120).setTrusted)) ∧
      (addValidation 20 sampleUNL 118 (sampleVal sampleN1 12 120) sampleS2).2.mStaleValidations =
        sampleS2.mStaleValidations ++
          (ValidationPair.mk (some (sampleVal sampleN1 10 101).setTrusted)
            (some (sampleVal sampleN1 11 110).setTrusted)).oldest.toList ∧
      ((ValidationPair.mk (some (sampleVal sampleN1 10 101).setTrusted)
          (some (sampleVal sampleN1 11 110).setTrusted)).oldest.isSome = true →
        (addValidation 20 sampleUNL 118 (sampleVal sampleN1 12 120) sampleS2).2.mWriting =
          true)) :=
  ⟨⟨by decide, by decide, by decide⟩,
    (addValidation_newer 20 sampleUNL 118 (sampleVal sampleN1 12 120) sampleS2
      (by decide) (by decide) (by decide)).1
      (ValidationPair.mk (some (sampleVal sampleN1 10 101).setTrusted)
        (some (sampleVal sampleN1 11 110).setTrusted))
      (sampleVal sampleN1 11 110).setTrusted (by decide) rfl (by decide)⟩

/-- A validation of N1 for ledger 13 with close time 109, submitted at clock value 108 to the
collection whose newest validation of N1 closes at 110. -/
theorem addValidation_not_newer_witness :
    (mapFind (sampleVal sampleN1 13 109).signerPublic.nodeID
        (getValidations (sampleVal sampleN1 13 109).ledgerHash sampleS2) = none ∧
      sampleUNL (sampleVal sampleN1 13 109).signerPublic = true ∧
      (108 > u32sub (sampleVal sampleN1 13 109).closeTime 4 ∧
        108 < u32add (sampleVal sampleN1 13 109).closeTime 20) ∧
      mapFind (sampleVal sampleN1 13 109).signerPublic.nodeID sampleS2.mCurrentValidations =
        some (ValidationPair.mk (some (sampleVal sampleN1 10 101).setTrusted)
          (some (sampleVal sampleN1 11 110).setTrusted)) ∧
      (sampleVal sampleN1 13 109).closeTime ≤ (sampleVal sampleN1 11 110).setTrusted.closeTime) ∧
    ((addValidation 20 sampleUNL 108 (sampleVal sampleN1 13 109) sampleS2).1 = true ∧
      (addValidation 20 sampleUNL 108 (sampleVal sampleN1 13 109) sampleS2).2.mCurrentValidations =
        sampleS2.mCurrentValidations ∧
      (addValidation 20 sampleUNL 108 (sampleVal sampleN1 13 109) sampleS2).2.mStaleValidations =
        sampleS2.mStaleValidations ∧
      mapFind (sampleVal sampleN1 13 109).signerPublic.nodeID
        (getValidations (sampleVal sampleN1 13 109).ledgerHash
          (addValidation 20 sampleUNL 108 (sampleVal sampleN1 13 109) sampleS2).2) =
          some (sampleVal sampleN1 13 109).setTrusted) :=
  ⟨⟨by decide, by decide, by decide, by decide, by decide⟩,
    addValidation_not_newer 20 sampleUNL 108 (sampleVal sampleN1 13 109) sampleS2
      (by decide) (by decide) (by decide)
      (ValidationPair.mk (some (sampleVal sampleN1 10 101).setTrusted)
        (some (sampleVal sampleN1 11 110).setTrusted))
      (sampleVal sampleN1 11 110).setTrusted (by decide) rfl (by decide)⟩

/-! ## Shape of the signer index in reachable states -/

/-- C17: with `LEDGER_MAX_INTERVAL` below `2 ^ 31`, every entry of `mCurrentValidations` of a
reachable state has its `newest` slot occupied, so the read of `newest` on line 118 of
`getCurrentValidationCount` always finds a validation and the function returns a count. -/
theorem reachable_newest_occupied (LMI : Nat) (hL : LMI < 2147483648) (s : State)
    (h : Reachable LMI s) (afterTime : Nat) :
    (∀ e ∈ s.mCurrentValidations, ∃ n, e.2.newest = some n) ∧
      (getCurrentValidationCount afterTime s).isSome = true := by
  have hnp := reachable_newestPresent LMI (by unfold UINT32_MOD; omega) s h
  constructor
  · intro e he
    cases hn : e.2.newest with
    | none => exact absurd hn (hnp e he)
    | some n => exact ⟨n, rfl⟩
  · unfold getCurrentValidationCount
    rw [getCurrentValidationCountLoop_eq afterTime _ hnp]
    rfl

/-- The entry of N1 after its two validations has `newest` occupied, and the count exists. -/
theorem reachable_newest_occupied_witness :
    ((20 : Nat) < 2147483648 ∧ Reachable 20 sampleS2) ∧
      ((∀ e ∈ sampleS2.mCurrentValidations, ∃ n, e.2.newest = some n) ∧
        (getCurrentValidationCount 0 sampleS2).isSome = true) :=
  ⟨⟨by decide, sampleS2_reachable⟩,
    reachable_newest_occupied 20 (by decide) sampleS2 sampleS2_reachable 0⟩

theorem slotsIndexed_step (LMI : Nat) (s : State) (op : Op) (h : SlotsIndexed s) :
    SlotsIndexed (step LMI s op) := by
  have keep : ∀ e ∈ s.mCurrentValidations, ∀ v ∈ e.2.slots,
      v.trusted = true ∧ v.signerPublic.nodeID = e.1 ∧
        storedAt v.ledgerHash e.1 (step LMI s op).mValidations = some v := by
    intro e he v hv
    obtain ⟨h1, h2, h3⟩ := h e he v hv
    exact ⟨h1, h2, storedAt_step_of_trusted LMI s op _ _ v h1 h3⟩
  have hS : SlotsTrusted s.mCurrentValidations := by
    intro w hw
    obtain ⟨e, he, hwe⟩ := mem_allSlots.mp hw
    exact (h e he w hwe).1
  unfold SlotsIndexed
  rw [step_current]
  cases op with
  | addValidation nodeInUNL now v =>
    simp only
    rw [addValidation_current _ _ _ _ _ hS]
    split
    · rename_i hret
      rw [addValidation_fst] at hret
      simp only [Bool.and_eq_true, Option.isNone_iff_eq_none] at hret
      obtain ⟨hnew, hunl, _⟩ := hret
      have hval : (tagTrusted nodeInUNL v).trusted = true ∧
          (tagTrusted nodeInUNL v).signerPublic.nodeID = v.signerPublic.nodeID ∧
          storedAt (tagTrusted nodeInUNL v).ledgerHash v.signerPublic.nodeID
            (step LMI s (.addValidation nodeInUNL now v)).mValidations =
              some (tagTrusted nodeInUNL v) := by
        refine ⟨by rw [tagTrusted_of_inUNL _ _ hunl]; rfl, by simp, ?_⟩
        rw [step_validations]
        simp only [tagTrusted_ledgerHash]
        rw [shareTrusted_of_new nodeInUNL v s hnew, storedAt_insertValidation _ _ _ _ hnew]
        simp
      cases hf : mapFind v.signerPublic.nodeID s.mCurrentValidations with
      | none =>
        simp only
        intro e he w hw
        rcases List.mem_append.mp he with he | he
        · exact keep e he w hw
        · rw [List.mem_singleton.mp he] at hw ⊢
          simp only [ValidationPair.ofVal, ValidationPair.slots, Option.toList,
            List.nil_append, List.mem_singleton] at hw
          rw [hw]; exact hval
      | some pair =>
        simp only
        split
        · intro e he w hw
          rcases mem_mapSet _ _ _ _ he with he | he
          · exact keep e he w hw
          · rw [he] at hw ⊢
            simp only [ValidationPair.slots, List.mem_append, Option.mem_toList] at hw
            rcases hw with hw | hw
            · exact keep _ (mem_of_mapFind _ _ _ hf) w
                (List.mem_append_right _ (Option.mem_toList.mpr hw))
            · simp only [Option.mem_def, Option.some.injEq] at hw
              rw [← hw]; exact hval
        · exact keep
    · exact keep
  | getCurrentValidations now =>
    simp only
    intro e he w hw
    obtain ⟨p, hp, hep, _⟩ := mem_agedEntries LMI now _ e he
    rw [hep] at hw
    exact keep (e.1, p) hp w (mem_slots_agedPair _ _ _ _ hw)
  | flush => simp only; intro e he; simp at he
  | _ => exact keep

theorem reachable_slotsIndexed (LMI : Nat) (s : State) (h : Reachable LMI s) :
    SlotsIndexed s :=
  Reachable.induct LMI SlotsIndexed (by intro e he; simp [State.empty] at he)
    (fun t op ht _ => slotsIndexed_step LMI t op ht) s h

/-- C20: in every reachable state each validation in a slot of the entry of signer `e.1` is
trusted, has that node id, and is the entry of `mValidations` under its ledger hash and that
node id; and no operation, a step of the writer included, removes or replaces an entry of
`mValidations`: the object `x` stored under a key before the operation is the object stored
under it afterwards, unchanged, except that an `addValidation` of that very object (same
address) by a signer in the UNL has set its trusted mark on line 14, leaving every other field
as it was. -/
theorem reachable_slots_indexed (LMI : Nat) (s : State) (h : Reachable LMI s) :
    (∀ e ∈ s.mCurrentValidations, ∀ v ∈ e.2.slots,
        v.trusted = true ∧ v.signerPublic.nodeID = e.1 ∧
          mapFind e.1 (getValidations v.ledgerHash s) = some v) ∧
      ∀ (op : Op) (hash node : Nat) (x : SerializedValidation),
        mapFind node (getValidations hash s) = some x →
          mapFind node (getValidations hash (step LMI s op)) = some x ∨
            (mapFind node (getValidations hash (step LMI s op)) = some x.setTrusted ∧
              ∃ nodeInUNL now v, op = Op.addValidation nodeInUNL now v ∧
                nodeInUNL v.signerPublic = true ∧ v.addr = x.addr) := by
  constructor
  · intro e he v hv
    rw [getValidations_eq, ← storedAt_def]
    exact reachable_slotsIndexed LMI s h e he v hv
  · intro op hash node x hx
    simp only [getValidations_eq, ← storedAt_def] at hx ⊢
    rw [storedAt_step LMI s op hash node x hx]
    cases op with
    | addValidation nodeInUNL now v =>
      simp only
      by_cases hm : resubmitsHeld nodeInUNL v s = true
      · rw [if_pos hm]
        by_cases ha : x.addr = v.addr
        · right
          refine ⟨by simp [seenAfterSetTrusted, ha], nodeInUNL, now, v, rfl, ?_, ha.symm⟩
          exact resubmitsHeld_inUNL nodeInUNL v s hm
        · left
          simp [seenAfterSetTrusted, ha]
      · left
        rw [if_neg hm]
    | _ => exact Or.inl rfl

/-- The two validations of N1 held by its entry are trusted entries of `mValidations`. -/
theorem reachable_slots_indexed_witness :
    Reachable 20 sampleS2 ∧
      ((∀ e ∈ sampleS2.mCurrentValidations, ∀ v ∈ e.2.slots,
          v.trusted = true ∧ v.signerPublic.nodeID = e.1 ∧
            mapFind e.1 (getValidations v.ledgerHash sampleS2) = some v) ∧
        ∀ (op : Op) (hash node : Nat) (x : SerializedValidation),
          mapFind node (getValidations hash sampleS2) = some x →
            mapFind node (getValidations hash (step 20 sampleS2 op)) = some x ∨
              (mapFind node (getValidations hash (step 20 sampleS2 op)) = some x.setTrusted ∧
                ∃ nodeInUNL now v, op = Op.addValidation nodeInUNL now v ∧
                  nodeInUNL v.signerPublic = true ∧ v.addr = x.addr)) :=
  ⟨sampleS2_reachable, reachable_slots_indexed 20 sampleS2 sampleS2_reachable⟩

/-! ## One entry per signer -/

theorem mapFind_eq_none_iff {β : Type} (k : Nat) (m : List (Nat × β)) :
    mapFind k m = none ↔ k ∉ m.map Prod.fst := by
  induction m with
  | nil => simp [mapFind]
  | cons e rest ih =>
    obtain ⟨k₀, b⟩ := e
    unfold mapFind
    by_cases hk : k₀ = k
    · simp [hk]
    · simp [hk, ih, Ne.symm hk]

theorem map_fst_mapSet {β : Type} (k : Nat) (b : β) (m : List (Nat × β)) :
    (mapSet k b m).map Prod.fst = m.map Prod.fst := by
  induction m with
  | nil => rfl
  | cons e rest ih =>
    obtain ⟨k₀, b₀⟩ := e
    unfold mapSet
    by_cases hk : k₀ = k <;> simp [hk, ih]

theorem map_fst_agedEntries_sublist (LMI now : Nat) (cur : List (Nat × ValidationPair)) :
    ((agedEntries LMI now cur).map Prod.fst).Sublist (cur.map Prod.fst) := by
  unfold agedEntries
  have h1 : (List.filter (fun e : Nat × ValidationPair =>
      !(e.2.oldest.isNone && e.2.newest.isNone))
      (cur.map (fun e => (e.1, agedPair LMI now e.2)))).Sublist
      (cur.map (fun e => (e.1, agedPair LMI now e.2))) := List.filter_sublist _
  have h2 := h1.map Prod.fst
  have h3 : List.map Prod.fst (cur.map (fun e => (e.1, agedPair LMI now e.2))) =
      cur.map Prod.fst := by
    rw [List.map_map]; rfl
  rw [h3] at h2
  exact h2

theorem keys_nodup_step (LMI : Nat) (s : State) (op : Op)
    (hS : SlotsTrusted s.mCurrentValidations)
    (h : (s.mCurrentValidations.map Prod.fst).Nodup) :
    ((step LMI s op).mCurrentValidations.map Prod.fst).Nodup := by
  rw [step_current]
  cases op with
  | addValidation nodeInUNL now v =>
    simp only
    rw [addValidation_current _ _ _ _ _ hS]
    split
    · cases hf : mapFind v.signerPublic.nodeID s.mCurrentValidations with
      | none =>
        simp only [List.map_append, List.map_cons, List.map_nil]
        rw [List.nodup_append]
        refine ⟨h, List.nodup_singleton _, ?_⟩
        intro a ha hb
        rw [List.mem_singleton.mp hb] at ha
        exact (mapFind_eq_none_iff _ _).mp hf ha
      | some pair =>
        simp only
        split
        · rw [map_fst_mapSet]; exact h
        · exact h
    · exact h
  | getCurrentValidations now =>
    exact h.sublist (map_fst_agedEntries_sublist LMI now _)
  | flush => simp
  | _ => exact h

/-- The signer index of a reachable state has one entry per signer node id. -/
theorem reachable_keys_nodup (LMI : Nat) (s : State) (h : Reachable LMI s) :
    (s.mCurrentValidations.map Prod.fst).Nodup :=
  Reachable.induct_held LMI (fun t => (t.mCurrentValidations.map Prod.fst).Nodup)
    (by simp [State.empty]) (fun t op hS _ ht _ => keys_nodup_step LMI t op hS ht) s h

/-! ## One validation per ledger and signer in the signer index -/

theorem reachable_slots_nodup (LMI : Nat) (s : State) (h : Reachable LMI s) :
    (allSlots s.mCurrentValidations).Nodup := by
  obtain ⟨ops, _, rfl⟩ := h
  exact (staleHistoryInv_run LMI ops State.empty [] heldTrusted_empty.1 heldTrusted_empty.2
    staleHistoryInv_empty).2.1

theorem slots_nodup_step (LMI : Nat) (s : State) (op : Op) (h : Reachable LMI s) :
    (allSlots (step LMI s op).mCurrentValidations).Nodup := by
  obtain ⟨ops, _, rfl⟩ := h
  have hT := heldTrusted_run LMI ops State.empty heldTrusted_empty
  have h0 := staleHistoryInv_run LMI ops State.empty [] heldTrusted_empty.1 heldTrusted_empty.2
    staleHistoryInv_empty
  exact (staleHistoryInv_step LMI _ op _ hT.1 hT.2 h0).1.2.1

/-- Two validations in the slots of one entry carry different ledger hashes, as both are
entries of the by-ledger index under the node id of the entry. -/
theorem hashes_distinct_of_indexed (s : State) (h1 : SlotsIndexed s)
    (h2 : (allSlots s.mCurrentValidations).Nodup) :
    ∀ e ∈ s.mCurrentValidations, ∀ o n, e.2.oldest = some o → e.2.newest = some n →
      n.ledgerHash ≠ o.ledgerHash := by
  intro e he o n ho hn heq
  have hnd : e.2.slots.Nodup := (List.nodup_flatMap.mp h2).1 e he
  have hne : o ≠ n := by
    intro hon
    simp [ValidationPair.slots, ho, hn, hon] at hnd
  have so := (h1 e he o (by simp [ValidationPair.slots, ho])).2.2
  have sn := (h1 e he n (by simp [ValidationPair.slots, hn])).2.2
  rw [heq, so] at sn
  exact hne (Option.some.inj sn)

theorem countP_slots_le_one (p : ValidationPair) (hash : Nat)
    (h : ∀ o n, p.oldest = some o → p.newest = some n → n.ledgerHash ≠ o.ledgerHash) :
    p.slots.countP (fun v => decide (v.ledgerHash = hash)) ≤ 1 := by
  obtain ⟨o, n⟩ := p
  cases o with
  | none =>
    cases n with
    | none => simp [ValidationPair.slots]
    | some n =>
      by_cases hn : n.ledgerHash = hash <;> simp [ValidationPair.slots, List.countP_cons, hn]
  | some o =>
    cases n with
    | none =>
      by_cases ho : o.ledgerHash = hash <;> simp [ValidationPair.slots, List.countP_cons, ho]
    | some n =>
      have hne := h o n rfl rfl
      by_cases ho : o.ledgerHash = hash <;> by_cases hn : n.ledgerHash = hash
      · exact absurd (hn.trans ho.symm) hne
      · simp [ValidationPair.slots, List.countP_cons, ho, hn]
      · simp [ValidationPair.slots, List.countP_cons, ho, hn]
      · simp [ValidationPair.slots, List.countP_cons, ho, hn]

theorem slotCount_le_length (hash : Nat) (cur : List (Nat × ValidationPair))
    (h : ∀ e ∈ cur, e.2.slots.countP (fun v => decide (v.ledgerHash = hash)) ≤ 1) :
    slotCount hash cur ≤ cur.length := by
  induction cur with
  | nil => simp [slotCount, allSlots]
  | cons e rest ih =>
    obtain ⟨k, p⟩ := e
    rw [slotCount_cons, List.length_cons]
    have h1 := h (k, p) (List.mem_cons_self _ _)
    have h2 := ih (fun e' he' => h e' (List.mem_cons_of_mem _ he'))
    simp only at h1
    omega

/-- The count that `getCurrentValidations` returns for a ledger hash. -/
theorem getCurrentValidations_ret (LMI now hash : Nat) (s : State) :
    mapFind hash (getCurrentValidations LMI now s).1 =
      if slotCount hash (agedEntries LMI now s.mCurrentValidations) = 0 then none
      else some (slotCount hash (agedEntries LMI now s.mCurrentValidations)) := by
  unfold getCurrentValidations
  simp only [getCurrentValidationsLoop_ret]
  simp [mapFind]

theorem length_agedEntries_le (LMI now : Nat) (cur : List (Nat × ValidationPair)) :
    (agedEntries LMI now cur).length ≤ cur.length := by
  unfold agedEntries
  exact (List.length_filter_le _ _).trans (by simp)

/-- C19: in every reachable state the two validations of an entry of `mCurrentValidations`
with both slots occupied carry different ledger hashes; hence, in the state that
`getCurrentValidations` leaves, every entry has at most one slot carrying any given ledger
hash, and no count of the returned map exceeds the number of entries of
`mCurrentValidations`, after the call or before it; the entries are one per signer. -/
theorem reachable_slot_hashes_distinct (LMI : Nat) (s : State) (h : Reachable LMI s)
    (now : Nat) :
    (∀ e ∈ s.mCurrentValidations, ∀ o n, e.2.oldest = some o → e.2.newest = some n →
        n.ledgerHash ≠ o.ledgerHash) ∧
      (∀ hash, ∀ e ∈ (getCurrentValidations LMI now s).2.mCurrentValidations,
        e.2.slots.countP (fun v => decide (v.ledgerHash = hash)) ≤ 1) ∧
      (∀ hash c, mapFind hash (getCurrentValidations LMI now s).1 = some c →
        c ≤ (getCurrentValidations LMI now s).2.mCurrentValidations.length ∧
          c ≤ s.mCurrentValidations.length) ∧
      (s.mCurrentValidations.map Prod.fst).Nodup ∧
      ((getCurrentValidations LMI now s).2.mCurrentValidations.map Prod.fst).Nodup := by
  have hd := hashes_distinct_of_indexed s (reachable_slotsIndexed LMI s h)
    (reachable_slots_nodup LMI s h)
  have hd' := hashes_distinct_of_indexed (step LMI s (.getCurrentValidations now))
    (slotsIndexed_step LMI s _ (reachable_slotsIndexed LMI s h))
    (slots_nodup_step LMI s _ h)
  have hone : ∀ hash, ∀ e ∈ (getCurrentValidations LMI now s).2.mCurrentValidations,
      e.2.slots.countP (fun v => decide (v.ledgerHash = hash)) ≤ 1 :=
    fun hash e he => countP_slots_le_one e.2 hash (hd' e he)
  have hk := reachable_keys_nodup LMI s h
  refine ⟨hd, hone, ?_, hk, keys_nodup_step LMI s (.getCurrentValidations now)
    (reachable_heldTrusted LMI s h).1 hk⟩
  intro hash c hc
  rw [getCurrentValidations_ret] at hc
  have hcur := (getCurrentValidations_fields LMI now s).1
  split at hc
  · simp at hc
  · simp only [Option.some.injEq] at hc
    have hle : c ≤ (getCurrentValidations LMI now s).2.mCurrentValidations.length := by
      rw [← hc, ← hcur]
      exact slotCount_le_length hash _ (hone hash)
    refine ⟨hle, hle.trans ?_⟩
    rw [hcur]
    exact length_agedEntries_le LMI now _

/-- The entry of N1 holds validations of the ledgers 10 and 11, and the counts returned at
clock value 110 are at most 1. -/
theorem reachable_slot_hashes_distinct_witness :
    Reachable 20 sampleS2 ∧
      ((sampleVal sampleN1 11 110).setTrusted.ledgerHash ≠
          (sampleVal sampleN1 10 101).setTrusted.ledgerHash ∧
        mapFind 11 (getCurrentValidations 20 110 sampleS2).1 = some 1 ∧
        1 ≤ sampleS2.mCurrentValidations.length) :=
  ⟨sampleS2_reachable,
    (reachable_slot_hashes_distinct 20 sampleS2 sampleS2_reachable 110).1
      (1, ValidationPair.mk (some (sampleVal sampleN1 10 101).setTrusted)
        (some (sampleVal sampleN1 11 110).setTrusted)) (by decide)
      (sampleVal sampleN1 10 101).setTrusted (sampleVal sampleN1 11 110).setTrusted rfl rfl,
    by decide,
    ((reachable_slot_hashes_distinct 20 sampleS2 sampleS2_reachable 110).2.2.1 11 1
      (by decide)).2⟩

/-! ## The writer latch -/

/-- The flag `mWriting` after `addValidation`, by cases. -/
theorem addValidation_writing (LMI : Nat) (nodeInUNL : NewcoinAddress → Bool) (now : Nat)
    (v : SerializedValidation) (s : State) :
    (addValidation LMI nodeInUNL now v s).2.mWriting =
      (s.mWriting ||
        if (addValidation LMI nodeInUNL now v s).1 = true then
          match mapFind v.signerPublic.nodeID s.mCurrentValidations with
          | none => false
          | some pair =>
            if displaces (tagTrusted nodeInUNL v) pair.newest = true then pair.oldest.isSome
            else false
        else false) := by
  by_cases hr : (addValidation LMI nodeInUNL now v s).1 = true
  · rw [addValidation_snd_of_true LMI nodeInUNL now v s hr, if_pos hr, updateCurrent_eq]
    simp only
    cases mapFind v.signerPublic.nodeID s.mCurrentValidations with
    | none => simp
    | some pair => simp only; split <;> simp
  · rw [(addValidation_snd_of_false LMI nodeInUNL now v s hr).2.2.1, if_neg hr]
    simp

theorem getCurrentValidations_writing (LMI now : Nat) (s : State) :
    (getCurrentValidations LMI now s).2.mWriting =
      (s.mWriting || (expiredSlots LMI now s.mCurrentValidations).isEmpty.not) := by
  dsimp only [getCurrentValidations]
  rw [(getCurrentValidationsLoop_stale LMI now _ _ _ _).2]
  simp only [Bool.false_or]
  cases h : (expiredSlots LMI now s.mCurrentValidations).isEmpty.not
  · simp
  · simp [(condWrite_fields _).2.2.2.2]

theorem flush_writing (s : State) :
    (flush s).mWriting = (s.mWriting || s.mCurrentValidations.isEmpty.not) := by
  dsimp only [flush]
  rw [flushLoop_eq]
  simp only [Bool.false_or]
  cases h : s.mCurrentValidations.isEmpty.not
  · simp
  · simp [(condWrite_fields _).2.2.2.2]

theorem allSlots_nil_of_isEmpty (cur : List (Nat × ValidationPair))
    (h : cur.isEmpty = true) : allSlots cur = [] := by
  rw [List.isEmpty_iff] at h
  rw [h]; rfl

/-- An operation that appends nothing leaves a non-empty stale queue only where there was
one. -/
theorem stale_ne_nil_of_quiet (LMI : Nat) (s : State) (op : Op)
    (he : enqueuedBy LMI s op = [])
    (hne : (step LMI s op).mStaleValidations ≠ []) : s.mStaleValidations ≠ [] := by
  cases op with
  | doWriteSwap =>
    simp only [step] at hne
    split at hne
    · exact absurd rfl hne
    · exact hne
  | _ =>
    simp only [enqueuedBy, List.drop_eq_nil_iff] at he
    intro h0
    rw [h0] at he
    exact hne (List.length_eq_zero.mp (Nat.le_zero.mp he))

/-- A call of a member function never clears `mWriting`, and sets it whenever it appends to the
stale queue. -/
theorem caller_step_writing (LMI : Nat) (s : State) (op : Op)
    (hswap : op ≠ Op.doWriteSwap) (hexit : op ≠ Op.doWriteExit) :
    (s.mWriting = true → (step LMI s op).mWriting = true) ∧
      (enqueuedBy LMI s op ≠ [] → (step LMI s op).mWriting = true) := by
  have quiet : ∀ t : State, t = s →
      (s.mWriting = true → t.mWriting = true) ∧
        (t.mStaleValidations.drop s.mStaleValidations.length ≠ [] → t.mWriting = true) := by
    intro t ht
    subst ht
    exact ⟨id, fun h => absurd (List.drop_length _) h⟩
  cases op with
  | doWriteSwap => exact absurd rfl hswap
  | doWriteExit => exact absurd rfl hexit
  | addValidation nodeInUNL now v =>
    have hst := addValidation_enqueued LMI nodeInUNL now v s
    have hw := addValidation_writing LMI nodeInUNL now v s
    simp only [enqueuedBy, step]
    constructor
    · intro h; rw [hw, h]; rfl
    · rw [hst, hw]
      intro hne
      by_cases hr : (addValidation LMI nodeInUNL now v s).1 = true
      · simp only [hr, if_true] at hne ⊢
        cases hf : mapFind v.signerPublic.nodeID s.mCurrentValidations with
        | none => simp [hf] at hne
        | some pair =>
          simp only [hf] at hne ⊢
          by_cases hd : displaces (tagTrusted nodeInUNL v) pair.newest = true
          · simp only [hd, if_true] at hne ⊢
            cases ho : pair.oldest with
            | none => simp [ho] at hne
            | some o => simp
          · simp [hd] at hne
      · simp [hr] at hne
  | getCurrentValidations now =>
    have hst := (getCurrentValidations_fields LMI now s).2.1
    have hw := getCurrentValidations_writing LMI now s
    simp only [enqueuedBy, step]
    constructor
    · intro h; rw [hw, h]; rfl
    · rw [hst, List.drop_left, hw]
      intro hne
      cases he : expiredSlots LMI now s.mCurrentValidations with
      | nil => exact absurd he hne
      | cons a rest => simp
  | flush =>
    have hst := (flush_fields s).1
    have hw := flush_writing s
    simp only [enqueuedBy, step]
    constructor
    · intro h; rw [hw, h]; rfl
    · rw [hst, List.drop_left, hw]
      intro hne
      cases hc : s.mCurrentValidations with
      | nil => rw [hc] at hne; exact absurd rfl hne
      | cons a rest => simp
  | addDeadLedger ledger =>
    simp only [enqueuedBy, step]
    have h1 := (addDeadLedger_fields ledger s).2.2.1
    have h2 := (addDeadLedger_fields ledger s).2.2.2
    rw [h1, h2]
    exact ⟨id, fun h => absurd (List.drop_length _) h⟩
  | getValidations _ => exact quiet s rfl
  | getValidationCount _ _ _ => exact quiet s rfl
  | getTrustedValidationCount _ => exact quiet s rfl
  | getCurrentValidationCount _ => exact quiet s rfl
  | isDeadLedger _ => exact quiet s rfl

/-- The latch: at most one writer thread is live, and `mWriting` is true exactly when one
is. -/
theorem System.latch_step (LMI : Nat) (σ : System) (op : Op)
    (h : σ.writers ≤ 1 ∧ (σ.coll.mWriting = true ↔ σ.writers = 1)) :
    (System.step LMI σ op).writers ≤ 1 ∧
      ((System.step LMI σ op).coll.mWriting = true ↔ (System.step LMI σ op).writers = 1) := by
  obtain ⟨hle, hiff⟩ := h
  have caller : ∀ op' : Op, op' ≠ Op.doWriteSwap → op' ≠ Op.doWriteExit →
      σ.writers + spawned σ.coll (ValidationCollection.step LMI σ.coll op') ≤ 1 ∧
        ((ValidationCollection.step LMI σ.coll op').mWriting = true ↔
          σ.writers + spawned σ.coll (ValidationCollection.step LMI σ.coll op') = 1) := by
    intro op' h1 h2
    have hmono := (caller_step_writing LMI σ.coll op' h1 h2).1
    unfold spawned
    cases hw : σ.coll.mWriting with
    | true =>
      have h1w : σ.writers = 1 := hiff.mp hw
      have := hmono hw
      simp [this, h1w]
    | false =>
      have h0 : σ.writers = 0 := by
        have : ¬ σ.writers = 1 := fun hc => by rw [hiff.mpr hc] at hw; exact absurd hw (by simp)
        omega
      cases hw' : (ValidationCollection.step LMI σ.coll op').mWriting <;> simp [h0]
  cases op with
  | doWriteSwap =>
    simp only [System.step]
    split
    · exact ⟨hle, by simpa [doWriteSwap] using hiff⟩
    · exact ⟨hle, hiff⟩
  | doWriteExit =>
    simp only [System.step]
    split
    · rename_i hg
      have : σ.writers = 1 := by omega
      simp [doWriteExit, this]
    · exact ⟨hle, hiff⟩
  | addValidation nodeInUNL now v => exact caller _ (by simp) (by simp)
  | getCurrentValidations now => exact caller _ (by simp) (by simp)
  | flush => exact caller _ (by simp) (by simp)
  | addDeadLedger ledger => exact caller _ (by simp) (by simp)
  | getValidations _ => exact caller _ (by simp) (by simp)
  | getValidationCount _ _ _ => exact caller _ (by simp) (by simp)
  | getTrustedValidationCount _ => exact caller _ (by simp) (by simp)
  | getCurrentValidationCount _ => exact caller _ (by simp) (by simp)
  | isDeadLedger _ => exact caller _ (by simp) (by simp)

theorem System.latch_run (LMI : Nat) (ops : List Op) :
    ∀ σ : System, (σ.writers ≤ 1 ∧ (σ.coll.mWriting = true ↔ σ.writers = 1)) →
      (System.run LMI σ ops).writers ≤ 1 ∧
        ((System.run LMI σ ops).coll.mWriting = true ↔ (System.run LMI σ ops).writers = 1) := by
  induction ops with
  | nil => intro σ h; exact h
  | cons op rest ih => intro σ h; exact ih _ (System.latch_step LMI σ op h)

theorem System.latch_init :
    System.init.writers ≤ 1 ∧ (System.init.coll.mWriting = true ↔ System.init.writers = 1) := by
  simp [System.init, State.empty]

/-- On a state that satisfies the latch, the collection moves under `System.step` exactly as
under `step`: a writer thread is live precisely when `mWriting` is set. -/
theorem System.step_coll (LMI : Nat) (σ : System) (op : Op)
    (h : σ.writers ≤ 1 ∧ (σ.coll.mWriting = true ↔ σ.writers = 1)) :
    (System.step LMI σ op).coll = ValidationCollection.step LMI σ.coll op := by
  have hg : 0 < σ.writers ↔ σ.coll.mWriting = true := by
    rw [h.2]; omega
  cases op <;> simp only [System.step, ValidationCollection.step, hg]
  · split <;> rfl
  · split <;> rfl

/-- A step creates a writer thread only if it finds `mWriting` false and leaves it true. -/
theorem System.spawn_step (LMI : Nat) (σ : System) (op : Op)
    (h : (System.step LMI σ op).writers > σ.writers) :
    σ.coll.mWriting = false ∧ (System.step LMI σ op).coll.mWriting = true := by
  have caller : ∀ t : State, σ.writers + spawned σ.coll t > σ.writers →
      σ.coll.mWriting = false ∧ t.mWriting = true := by
    intro t ht
    unfold spawned at ht
    split at ht
    · assumption
    · omega
  cases op with
  | doWriteSwap =>
    simp only [System.step] at h
    split at h <;> simp at h
  | doWriteExit =>
    simp only [System.step] at h
    split at h
    · simp only at h; omega
    · simp at h
  | addValidation nodeInUNL now v => exact caller _ h
  | getCurrentValidations now => exact caller _ h
  | flush => exact caller _ h
  | addDeadLedger ledger => exact caller _ h
  | getValidations _ => exact caller _ h
  | getValidationCount _ _ _ => exact caller _ h
  | getTrustedValidationCount _ => exact caller _ h
  | getCurrentValidationCount _ => exact caller _ h
  | isDeadLedger _ => exact caller _ h

/-- C13: in every state the system reaches by atomic steps, at most one writer thread is
live, and `mWriting` is true exactly while one is (created and not yet past line 254); a step
creates a writer only if it finds `mWriting` false and leaves it true, and `condWrite` itself
creates one exactly when `mWriting` is false and always leaves `mWriting` true. -/
theorem System.one_writer (LMI : Nat) (ops : List Op) (op : Op) (s : State) :
    (System.run LMI System.init ops).writers ≤ 1 ∧
      ((System.run LMI System.init ops).coll.mWriting = true ↔
        (System.run LMI System.init ops).writers = 1) ∧
      ((System.step LMI (System.run LMI System.init ops) op).writers >
          (System.run LMI System.init ops).writers →
        (System.run LMI System.init ops).coll.mWriting = false ∧
          (System.step LMI (System.run LMI System.init ops) op).coll.mWriting = true) ∧
      (condWrite s).mWriting = true ∧
      spawned s (condWrite s) = (if s.mWriting = true then 0 else 1) := by
  have hl := System.latch_run LMI ops System.init System.latch_init
  refine ⟨hl.1, hl.2, System.spawn_step LMI _ op, (condWrite_fields s).2.2.2.2, ?_⟩
  unfold spawned
  rw [(condWrite_fields s).2.2.2.2]
  cases s.mWriting <;> simp

/-- The third validation of N1 starts the writer: one thread, `mWriting` set. -/
theorem System.one_writer_witness :
    (System.run 20 System.init sampleOpsWriter).writers = 1 ∧
      (System.run 20 System.init sampleOpsWriter).coll.mWriting = true ∧
      ((System.run 20 System.init sampleOpsWriter).coll.mWriting = true ↔
        (System.run 20 System.init sampleOpsWriter).writers = 1) :=
  ⟨by decide, by decide, (System.one_writer 20 sampleOpsWriter Op.flush State.empty).2.1⟩

/-- A non-empty stale queue comes with `mWriting` set. -/
theorem System.queue_step (LMI : Nat) (σ : System) (op : Op)
    (hl : σ.writers ≤ 1 ∧ (σ.coll.mWriting = true ↔ σ.writers = 1))
    (h : σ.coll.mStaleValidations ≠ [] → σ.coll.mWriting = true) :
    (System.step LMI σ op).coll.mStaleValidations ≠ [] →
      (System.step LMI σ op).coll.mWriting = true := by
  rw [System.step_coll LMI σ op hl]
  intro hne
  by_cases hswap : op = Op.doWriteSwap
  · subst hswap
    simp only [ValidationCollection.step] at hne ⊢
    split
    · rename_i hg
      rw [if_pos hg] at hne
      exact absurd rfl hne
    · rename_i hg
      simp only [hg, if_false] at hne
      exact h hne
  · by_cases hexit : op = Op.doWriteExit
    · subst hexit
      simp only [ValidationCollection.step] at hne ⊢
      split
      · rename_i hg
        rw [if_pos hg] at hne
        exact absurd hg.2 hne
      · rename_i hg
        simp only [hg, if_false] at hne
        exact h hne
    · obtain ⟨hmono, henq⟩ := caller_step_writing LMI σ.coll op hswap hexit
      by_cases he : enqueuedBy LMI σ.coll op = []
      · exact hmono (h (stale_ne_nil_of_quiet LMI σ.coll op he hne))
      · exact henq he

theorem System.queue_run (LMI : Nat) (ops : List Op) :
    ∀ σ : System, (σ.writers ≤ 1 ∧ (σ.coll.mWriting = true ↔ σ.writers = 1)) →
      (σ.coll.mStaleValidations ≠ [] → σ.coll.mWriting = true) →
      ((System.run LMI σ ops).coll.mStaleValidations ≠ [] →
        (System.run LMI σ ops).coll.mWriting = true) := by
  induction ops with
  | nil => intro σ _ h; exact h
  | cons op rest ih =>
    intro σ hl h
    exact ih _ (System.latch_step LMI σ op hl) (System.queue_step LMI σ op hl h)

/-- A step that clears `mWriting` is the exit of the writer, taken with the queue empty. -/
theorem System.clear_step (LMI : Nat) (σ : System) (op : Op)
    (hl : σ.writers ≤ 1 ∧ (σ.coll.mWriting = true ↔ σ.writers = 1))
    (hw : σ.coll.mWriting = true) (hw' : (System.step LMI σ op).coll.mWriting = false) :
    op = Op.doWriteExit ∧ σ.coll.mStaleValidations = [] := by
  rw [System.step_coll LMI σ op hl] at hw'
  by_cases hswap : op = Op.doWriteSwap
  · subst hswap
    simp only [ValidationCollection.step] at hw'
    split at hw'
    · simp only [doWriteSwap] at hw'; rw [hw] at hw'; exact absurd hw' (by simp)
    · rw [hw] at hw'; exact absurd hw' (by simp)
  · by_cases hexit : op = Op.doWriteExit
    · subst hexit
      refine ⟨rfl, ?_⟩
      simp only [ValidationCollection.step] at hw'
      split at hw'
      · rename_i hg; exact hg.2
      · rw [hw] at hw'; exact absurd hw' (by simp)
    · have := (caller_step_writing LMI σ.coll op hswap hexit).1 hw
      rw [this] at hw'
      exact absurd hw' (by simp)

/-- C18: in every state the system reaches by atomic steps, a step that takes `mWriting` from
true to false is the exit of the writer, taken with the stale queue empty; a step that appends
to the stale queue leaves `mWriting` true; and whenever the stale queue is non-empty,
`mWriting` is true and a writer thread is live. -/
theorem System.queue_has_writer (LMI : Nat) (ops : List Op) (op : Op) :
    ((System.run LMI System.init ops).coll.mWriting = true →
        (System.step LMI (System.run LMI System.init ops) op).coll.mWriting = false →
        op = Op.doWriteExit ∧ (System.run LMI System.init ops).coll.mStaleValidations = []) ∧
      (enqueuedBy LMI (System.run LMI System.init ops).coll op ≠ [] →
        (System.step LMI (System.run LMI System.init ops) op).coll.mWriting = true) ∧
      ((System.run LMI System.init ops).coll.mStaleValidations ≠ [] →
        (System.run LMI System.init ops).coll.mWriting = true ∧
          (System.run LMI System.init ops).writers = 1) := by
  have hl := System.latch_run LMI ops System.init System.latch_init
  have hq := System.queue_run LMI ops System.init System.latch_init
    (by intro h; simp [System.init, State.empty] at h)
  refine ⟨System.clear_step LMI _ op hl, ?_, fun hne => ⟨hq hne, hl.2.mp (hq hne)⟩⟩
  intro he
  rw [System.step_coll LMI _ op hl]
  by_cases hswap : op = Op.doWriteSwap
  · subst hswap; simp [enqueuedBy] at he
  · by_cases hexit : op = Op.doWriteExit
    · subst hexit
      exfalso; apply he
      simp only [enqueuedBy, ValidationCollection.step]
      split <;> simp [doWriteExit]
    · exact (caller_step_writing LMI _ op hswap hexit).2 he

/-- After the third validation of N1 the queue holds its first validation, and the writer is
live. -/
theorem System.queue_has_writer_witness :
    (System.run 20 System.init (sampleOpsWriter.take 3)).coll.mStaleValidations ≠ [] ∧
      ((System.run 20 System.init (sampleOpsWriter.take 3)).coll.mWriting = true ∧
        (System.run 20 System.init (sampleOpsWriter.take 3)).writers = 1) :=
  ⟨by decide,
    (System.queue_has_writer 20 (sampleOpsWriter.take 3) Op.flush).2.2 (by decide)⟩

end ValidationCollection
